import Mathlib

/-!
# NAND-gate network (`nand.c`): shallow embedding and verified properties

The C library keeps a mutable graph of NAND gates.  Each gate owns an array of
input slots and a singly linked list (behind a dummy head node) of the gates
that consume its output.

Embedding conventions.

* A gate pointer is a natural number, an index into the heap; `NULL` is
  `Option.none`.  The heap is a list of cells, a cell being `none` once the
  gate stored there has been freed.
* `gate->inputs` together with `gate->n` is a list; `n` is its length (the two
  are written together in `nand_new` and `n` is never written again).
* `gate->outputs` is the list of the `gate` fields of the nodes that follow the
  dummy head, in list order.
* A pointer to a constant signal is a natural number; the library never
  dereferences it.
* `errno` is part of the state.
* A function returns `none` when the C program has no defined post-state:
  a freed or wild pointer is dereferenced, an array is indexed outside its
  bounds, an `assert` fails, or the recursion fuel of the model ran out.
* `ssize_t` results are integers; every depth is bounded by the number of
  gates, so no wrap-around is modelled.  The `unsigned` counters of
  `nand_fan_out` and `nand_output` wrap modulo `2 ^ 32`, and an `unsigned` is
  compared with an `ssize_t` as a signed 64-bit value.
-/

namespace Nand

/-! ## Constants -/

def SUCCESS : Int := 0
def FAIL : Int := -1
def ENOMEM : Int := 12
def EINVAL : Int := 22
def ECANCELED : Int := 125

/-! ## Data model -/

/-- An input connection: `struct Input`. -/
structure Input where
  gate : Option Nat
  signalBool : Option Nat
deriving DecidableEq, Repr

/-- A gate: `struct NandGate`; `n` is the length of `inputs`. -/
structure NandGate where
  inputs : List Input
  visited : Bool
  outputs : List Nat
deriving DecidableEq, Repr

/-- The field `n` of a gate. -/
def NandGate.n (G : NandGate) : Nat := G.inputs.length

/-- The program state: the heap of gates and `errno`. -/
structure World where
  heap : List (Option NandGate)
  errno : Int
deriving DecidableEq, Repr

/-- Dereference a gate pointer; `none` when the address holds no live gate. -/
def World.gate (w : World) (a : Nat) : Option NandGate :=
  w.heap[a]?.join

/-- Store a gate at an address. -/
def World.setGate (w : World) (a : Nat) (G : NandGate) : World :=
  { w with heap := w.heap.set a (some G) }

/-- The assignment `errno = e`. -/
def World.setErrno (w : World) (e : Int) : World :=
  { w with errno := e }

/-- Release the cell at an address: `free(gate)`. -/
def World.free (w : World) (a : Nat) : World :=
  { w with heap := w.heap.set a none }

/-- The value a `void *` result can take. -/
inductive VoidPtr where
  | null
  | gate (a : Nat)
  | signal (a : Nat)
deriving DecidableEq, Repr

/-! ## Construction and connection -/

/-- Embedding of `nand_new`.  The three flags say whether the three `malloc`
calls succeed; a failed attempt releases what it took and leaves the heap as
it was. -/
def nand_new (w : World) (n : Nat) (m1 m2 m3 : Bool) : World × Option Nat :=
  if m1 = false then (w.setErrno ENOMEM, none)
  else if m2 = false then (w.setErrno ENOMEM, none)
  else if m3 = false then (w.setErrno ENOMEM, none)
  else
    ({ w with heap := w.heap ++ [some ⟨List.replicate n ⟨none, none⟩, false, []⟩] },
      some w.heap.length)

/-- Embedding of `clear_input`. -/
def clear_input (w : World) (gate : Nat) (i : Nat) : Option World :=
  match w.gate gate with
  | none => none
  | some G =>
    if i < G.n then
      some (w.setGate gate { G with inputs := G.inputs.set i ⟨none, none⟩ })
    else none

/-- Embedding of `remove_output`: unlink the first node of `source`'s list
whose gate is `target`, if there is one. -/
def remove_output (w : World) (source target : Nat) : Option World :=
  match w.gate source with
  | none => none
  | some S => some (w.setGate source { S with outputs := S.outputs.erase target })

/-- The scan `while (inputs[i].gate != target) i++` started at index `i` on the
slots that remain; `none` when it runs past the end of the array. -/
def scanInput (target : Nat) : List Input → Nat → Option Nat
  | [], _ => none
  | inp :: rest, i => if inp.gate = some target then some i else scanInput target rest (i + 1)

/-- Embedding of `remove_single_input`. -/
def remove_single_input (w : World) (gate target : Nat) : Option World :=
  match w.gate gate with
  | none => none
  | some G =>
    match scanInput target G.inputs 0 with
    | none => none
    | some i => clear_input w gate i

/-- First loop of `nand_delete`, over the input slots of `gate`.  The slots are
those read at loop entry: `remove_output` writes no input array. -/
def deleteInputsLoop (gate : Nat) : List Input → World → Option World
  | [], w => some w
  | inp :: rest, w =>
    match inp.gate with
    | none => deleteInputsLoop gate rest w
    | some p =>
      match remove_output w p gate with
      | none => none
      | some w1 => deleteInputsLoop gate rest w1

/-- Second loop of `nand_delete`, over the nodes of `gate`'s output list.  The
nodes are those read at loop entry: `remove_single_input` writes no list. -/
def deleteOutputsLoop (gate : Nat) : List Nat → World → Option World
  | [], w => some w
  | c :: rest, w =>
    match remove_single_input w c gate with
    | none => none
    | some w1 => deleteOutputsLoop gate rest w1

/-- Embedding of `nand_delete`. -/
def nand_delete (w : World) (gate : Option Nat) : Option World :=
  match gate with
  | none => some w
  | some g =>
    match w.gate g with
    | none => none
    | some G =>
      match deleteInputsLoop g G.inputs w with
      | none => none
      | some w1 =>
        match w1.gate g with
        | none => none
        | some G1 =>
          match deleteOutputsLoop g G1.outputs w1 with
          | none => none
          | some w2 => some (w2.free g)

/-- Write the slot `k` of the gate at `c`. -/
def setSlot (w : World) (c k : Nat) (inp : Input) : Option World :=
  match w.gate c with
  | none => none
  | some C => if k < C.n then some (w.setGate c { C with inputs := C.inputs.set k inp }) else none

/-- Embedding of `nand_connect_nand`; `mallocOk` says whether the list node can
be allocated. -/
def nand_connect_nand (w : World) (outputGate inputGate : Option Nat) (k : Nat)
    (mallocOk : Bool) : Option (World × Int) :=
  match outputGate, inputGate with
  | some o, some c =>
    match w.gate c with
    | none => none
    | some C =>
      if C.n ≤ k then some (w.setErrno EINVAL, FAIL)
      else if mallocOk = false then some (w.setErrno ENOMEM, FAIL)
      else
        match w.gate o with
        | none => none
        | some O =>
          let w1 := w.setGate o { O with outputs := c :: O.outputs }
          match (w1.gate c).bind (fun C1 => C1.inputs[k]?) with
          | none => none
          | some slot =>
            if slot.signalBool ≠ none then
              if slot.gate ≠ none then none
              else (setSlot w1 c k ⟨some o, none⟩).map (fun w2 => (w2, SUCCESS))
            else
              match slot.gate with
              | none => (setSlot w1 c k ⟨some o, slot.signalBool⟩).map (fun w2 => (w2, SUCCESS))
              | some old =>
                match remove_output w1 old c with
                | none => none
                | some w2 =>
                  (setSlot w2 c k ⟨some o, slot.signalBool⟩).map (fun w3 => (w3, SUCCESS))
  | _, _ => some (w.setErrno EINVAL, FAIL)

/-- Embedding of `nand_connect_signal`. -/
def nand_connect_signal (w : World) (signal : Option Nat) (gate : Option Nat) (k : Nat) :
    Option (World × Int) :=
  match gate, signal with
  | some g, some s =>
    match w.gate g with
    | none => none
    | some G =>
      if G.n ≤ k then some (w.setErrno EINVAL, FAIL)
      else
        match G.inputs[k]? with
        | none => none
        | some slot =>
          match slot.gate with
          | some old =>
            if slot.signalBool ≠ none then none
            else
              match remove_output w old g with
              | none => none
              | some w1 => (setSlot w1 g k ⟨none, some s⟩).map (fun w2 => (w2, SUCCESS))
          | none => (setSlot w g k ⟨none, some s⟩).map (fun w2 => (w2, SUCCESS))
  | _, _ => some (w.setErrno EINVAL, FAIL)

/-- Embedding of `nand_input`. -/
def nand_input (w : World) (gate : Option Nat) (k : Nat) : Option (World × VoidPtr) :=
  match gate with
  | none => some (w.setErrno EINVAL, VoidPtr.null)
  | some g =>
    match w.gate g with
    | none => none
    | some G =>
      if G.n ≤ k then some (w.setErrno EINVAL, VoidPtr.null)
      else
        match G.inputs[k]? with
        | none => none
        | some slot =>
          match slot.gate, slot.signalBool with
          | none, none => some (w.setErrno 0, VoidPtr.null)
          | none, some s => some (w, VoidPtr.signal s)
          | some p, _ => some (w, VoidPtr.gate p)

/-- The counting loop of `nand_fan_out`; `count` is an `unsigned` and wraps
modulo `2 ^ 32`. -/
def fanOutLoop : List Nat → Nat → Nat
  | [], count => count
  | _ :: rest, count => fanOutLoop rest ((count + 1) % 2 ^ 32)

/-- Embedding of `nand_fan_out`. -/
def nand_fan_out (w : World) (gate : Option Nat) : Option (World × Int) :=
  match gate with
  | none => some (w.setErrno EINVAL, FAIL)
  | some g =>
    match w.gate g with
    | none => none
    | some G => some (w, ((fanOutLoop G.outputs 0 : Nat) : Int))

/-- The walk `while (i < k) { node = node->next; i++; }` of `nand_output`
followed by `return node->gate`, on the nodes that remain.  The `unsigned` `i`
is compared with the `ssize_t` `k` as a signed 64-bit value, so the walk does
not start when `k` is negative. -/
def outputLoop : List Nat → Nat → Int → Option Nat
  | [], _, _ => none
  | c :: rest, i, k => if (i : Int) < k then outputLoop rest ((i + 1) % 2 ^ 32) k else some c

/-- Embedding of `nand_output`; the index `k` is a signed `ssize_t`. -/
def nand_output (w : World) (gate : Option Nat) (k : Int) : Option (World × Option Nat) :=
  match gate with
  | none => some (w.setErrno EINVAL, none)
  | some g =>
    match nand_fan_out w (some g) with
    | none => none
    | some (w1, f) =>
      if k ≥ f then some (w1.setErrno EINVAL, none)
      else
        match w1.gate g with
        | none => none
        | some G => (outputLoop G.outputs 0 k).map (fun c => (w1, some c))

/-! ## Evaluation -/

/-- The assignment `gate->visited = b`. -/
def World.setVisited (w : World) (a : Nat) (b : Bool) : Option World :=
  match w.gate a with
  | none => none
  | some G => some (w.setGate a { G with visited := b })

/-- The `for` loop of `evaluate_gate` over the input slots of `gate`, with the
recursive call as a parameter.  The slots are those read at loop entry:
evaluation writes only `visited` fields and `errno`.  The last argument is the
content of `*signal`; `tempSignal` is passed uninitialised (as `false`) and is
read only after a successful call has written it. -/
def evalLoop (recur : World → Nat → Bool → Option (World × Int × Bool)) (gate : Nat) :
    List Input → World → Bool → Int → Bool → Option (World × Int × Bool)
  | [], w, allTrue, depth, _ =>
    (w.setVisited gate false).map (fun w1 => (w1, depth + 1, !allTrue))
  | inp :: rest, w, allTrue, depth, sig =>
    match inp.gate with
    | none => evalLoop recur gate rest w allTrue depth sig
    | some p =>
      match recur w p false with
      | none => none
      | some (w1, eval, tempSignal) =>
        if eval = FAIL then (w1.setVisited gate false).map (fun w2 => (w2, FAIL, sig))
        else
          evalLoop recur gate rest w1 (if tempSignal = false then false else allTrue)
            (if eval > depth then eval else depth) sig

/-- Embedding of `evaluate_gate`, with recursion fuel.  The result is the state,
the returned `ssize_t` and the content of `*signal` after the call. -/
def evaluate_gate : Nat → World → Nat → Bool → Option (World × Int × Bool)
  | 0, _, _, _ => none
  | fuel + 1, w, gate, sig =>
    match w.gate gate with
    | none => none
    | some G =>
      if G.n = 0 then some (w, 0, false)
      else if G.visited = true then
        some ((w.setErrno ECANCELED).setGate gate { G with visited := false }, FAIL, sig)
      else
        evalLoop (evaluate_gate fuel) gate G.inputs
          (w.setGate gate { G with visited := true }) true 0 sig

/-- The `for` loop of `nand_evaluate`: `rem` iterations remain, starting at
index `i`. -/
def evaluateLoop (fuel : Nat) (gates : List (Option Nat)) :
    Nat → Nat → World → List Bool → Int → Option (World × Int × List Bool)
  | 0, _, w, signals, maxDepth => some (w, maxDepth, signals)
  | rem + 1, i, w, signals, maxDepth =>
    match gates[i]? with
    | none => none
    | some none => none
    | some (some g) =>
      match evaluate_gate fuel w g false with
      | none => none
      | some (w1, depth, result) =>
        if depth = FAIL then some (w1, FAIL, signals)
        else if i < signals.length then
          evaluateLoop fuel gates rem (i + 1) w1 (signals.set i result)
            (if depth > maxDepth then depth else maxDepth)
        else none

/-- Embedding of `nand_evaluate`; a `NULL` array is `none`. -/
def nand_evaluate (fuel : Nat) (w : World) (gates : Option (List (Option Nat)))
    (signals : Option (List Bool)) (m : Nat) : Option (World × Int × Option (List Bool)) :=
  match gates, signals with
  | some gs, some sigs =>
    if m = 0 then some (w.setErrno EINVAL, FAIL, signals)
    else (evaluateLoop fuel gs m 0 w sigs 0).map (fun r => (r.1, r.2.1, some r.2.2))
  | _, _ => some (w.setErrno EINVAL, FAIL, signals)

/-! ## Structural invariants -/

/-- Number of input slots of `G` whose `gate` field is `p`. -/
def slotCount (p : Nat) (G : NandGate) : Nat :=
  G.inputs.countP (fun inp => decide (inp.gate = some p))

/-- Number of entries equal to `c` in the output list of the gate at `p`
(zero when no gate lives there). -/
def outCnt (w : World) (p c : Nat) : Nat :=
  match w.gate p with
  | some G => G.outputs.count c
  | none => 0

/-- Number of input slots of the gate at `c` that are bound to `p` (zero when no
gate lives at `c`). -/
def inCnt (w : World) (p c : Nat) : Nat :=
  match w.gate c with
  | some G => slotCount p G
  | none => 0

/-- Bidirectional correspondence: for live gates `P` and `C`, the entries equal
to `C` in `P`'s output list are as many as the slots of `C` bound to `P`. -/
def Corr (w : World) : Prop :=
  ∀ P < w.heap.length, ∀ C < w.heap.length, ∀ GP ∈ w.gate P, ∀ GC ∈ w.gate C,
    GP.outputs.count C = slotCount P GC

instance (w : World) : Decidable (Corr w) := by
  unfold Corr; infer_instance

/-- No dangling pointers: every gate pointer stored in a live gate, in an input
slot or in the output list, refers to a live gate. -/
def Closed (w : World) : Prop :=
  ∀ a < w.heap.length, ∀ G ∈ w.gate a,
    (∀ inp ∈ G.inputs, ∀ p ∈ inp.gate, (w.gate p).isSome = true) ∧
    (∀ c ∈ G.outputs, (w.gate c).isSome = true)

instance (w : World) : Decidable (Closed w) := by
  unfold Closed; infer_instance

/-- Slot exclusivity: no input slot has both fields non-null. -/
def Excl (w : World) : Prop :=
  ∀ a < w.heap.length, ∀ G ∈ w.gate a, ∀ inp ∈ G.inputs,
    inp.gate = none ∨ inp.signalBool = none

instance (w : World) : Decidable (Excl w) := by
  unfold Excl; infer_instance

/-- Every `visited` flag is false. -/
def AllUnvisited (w : World) : Prop :=
  ∀ a < w.heap.length, ∀ G ∈ w.gate a, G.visited = false

instance (w : World) : Decidable (AllUnvisited w) := by
  unfold AllUnvisited; infer_instance

/-- A graph of freshly created gates: gates of the given arities made by
successive successful calls of `nand_new` from the empty heap. -/
def freshGraph : List Nat → World
  | [] => ⟨[], 0⟩
  | n :: rest => (nand_new (freshGraph rest) n true true true).1

/-! ## The dependency graph and the reference evaluation -/

/-- The producers of the gate-bound slots of a gate, in slot order. -/
def producers (G : NandGate) : List Nat :=
  G.inputs.filterMap Input.gate

/-- An edge of the dependency graph: some input slot of the live gate `h` is
bound to the gate `p`. -/
def Edge (w : World) (h p : Nat) : Prop :=
  ∃ H, w.gate h = some H ∧ p ∈ producers H

/-- The gate `h` lies on a directed cycle of gate-bound slots. -/
def OnCycle (w : World) (h : Nat) : Prop :=
  Relation.TransGen (Edge w) h h

/-- Some gate reachable from `g` through gate-bound slots, `g` included, lies on
a directed cycle. -/
def ReachesCycle (w : World) (g : Nat) : Prop :=
  ∃ h, Relation.ReflTransGen (Edge w) g h ∧ OnCycle w h

/-- Every gate-bound slot refers to a gate at a smaller address; such a graph
has no cycle. -/
def Descending (w : World) : Prop :=
  ∀ a < w.heap.length, ∀ G ∈ w.gate a, ∀ p ∈ producers G, p < a

instance (w : World) : Decidable (Descending w) := by
  unfold Descending; infer_instance

/-- The gate at `h` has inputs and is marked as being on the active path. -/
def Marked (w : World) (h : Nat) : Prop :=
  ∃ H, w.gate h = some H ∧ H.n ≠ 0 ∧ H.visited = true

/-- From `g` one reaches a marked gate or a gate on a cycle: the situations in
which the evaluation of `g` is cancelled. -/
def Blocked (w : World) (g : Nat) : Prop :=
  ∃ h, Relation.ReflTransGen (Edge w) g h ∧ (Marked w h ∨ OnCycle w h)

/-- The gate `G1` is the gate `G` with its `visited` flag possibly lowered. -/
def GateCleared (G G1 : NandGate) : Prop :=
  G1.inputs = G.inputs ∧ G1.outputs = G.outputs ∧ (G1.visited = true → G.visited = true)

/-- The state `w1` is the state `w` with some `visited` flags lowered (and any
`errno`). -/
def Cleared (w w1 : World) : Prop :=
  w1.heap.length = w.heap.length ∧
  (∀ a, (w1.gate a).isSome = (w.gate a).isSome) ∧
  ∀ a G G1, w.gate a = some G → w1.gate a = some G1 → GateCleared G G1

/-- Number of gates whose `visited` flag is set. -/
def visitedCount (w : World) : Nat :=
  w.heap.countP (fun cell => match cell with
    | some G => G.visited
    | none => false)

/-- Results of the producers of the gate-bound slots, in slot order; `none` when
one of them has no result. -/
def refInputs (ev : Nat → Option (Bool × Int)) : List Nat → Option (List (Bool × Int))
  | [] => some []
  | p :: ps =>
    match ev p with
    | none => none
    | some r => (refInputs ev ps).map (fun rs => r :: rs)

/-- Reference evaluation, following the words of the specification: a gate of
arity 0 gives `false` at depth 0; otherwise every gate-bound slot's producer is
evaluated recursively, the result is `false` exactly when every one of them
gave `true`, and the depth is one more than the largest of their depths (than 0
when there are none).  It reads no `visited` flag. -/
def refEval : Nat → World → Nat → Option (Bool × Int)
  | 0, _, _ => none
  | fuel + 1, w, g =>
    match w.gate g with
    | none => none
    | some G =>
      if G.n = 0 then some (false, 0)
      else
        (refInputs (refEval fuel w) (producers G)).map
          (fun rs => (!(rs.all (fun r => r.1)), (rs.map (fun r => r.2)).foldl max 0 + 1))

/-- What the loop of `evaluate_gate` needs to know about the recursive call:
a successful call changes nothing, agrees with the reference `ref` and is not
blocked; a cancelled call is blocked, sets `errno`, leaves `*signal` alone and
only lowers `visited` flags. -/
def RecSpec (recur : World → Nat → Bool → Option (World × Int × Bool))
    (ref : World → Nat → Option (Bool × Int)) : Prop :=
  ∀ w p sig w1 r sig1, recur w p sig = some (w1, r, sig1) →
    (r ≠ FAIL → w1 = w ∧ ¬ Blocked w p ∧ ref w p = some (sig1, r) ∧ 0 ≤ r) ∧
    (r = FAIL → Blocked w p ∧ w1.errno = ECANCELED ∧ sig1 = sig ∧ Cleared w w1)

/-- A chain of `N` gates of arity 1 at the addresses `g 0`, ..., `g (N - 1)`:
the slot of `g 0` is unbound, the slot of `g i` is bound to `g (i - 1)`, and no
`visited` flag is set. -/
def IsChain (w : World) (g : Nat → Nat) (N : Nat) : Prop :=
  ∀ i < N, ∃ G, w.gate (g i) = some G ∧ G.visited = false ∧
    G.inputs = [⟨if i = 0 then none else some (g (i - 1)), none⟩]

/-! ## Reachable states, wiring, gate count -/

/-- The states a client can reach: from the empty heap by calls of `nand_new`,
`nand_connect_nand`, `nand_connect_signal` and `nand_delete` that return. -/
inductive Reachable : World → Prop
  | init (e : Int) : Reachable ⟨[], e⟩
  | new {w : World} (n : Nat) (m1 m2 m3 : Bool) :
      Reachable w → Reachable (nand_new w n m1 m2 m3).1
  | connect_nand {w w1 : World} (og ig : Option Nat) (k : Nat) (m : Bool) (r : Int) :
      Reachable w → nand_connect_nand w og ig k m = some (w1, r) → Reachable w1
  | connect_signal {w w1 : World} (sg gt : Option Nat) (k : Nat) (r : Int) :
      Reachable w → nand_connect_signal w sg gt k = some (w1, r) → Reachable w1
  | delete {w w1 : World} (g : Option Nat) :
      Reachable w → nand_delete w g = some w1 → Reachable w1

/-- What evaluation can see of a gate: the `gate` fields of its slots, in slot
order, and its `visited` flag. -/
def wiring (w : World) (a : Nat) : Option (List (Option Nat) × Bool) :=
  (w.gate a).map (fun G => (G.inputs.map Input.gate, G.visited))

/-- Two states have the same gates, arities, gate-bound slots and flags; they
may differ in which other slots are unbound or bound to a constant (and in the
output lists and `errno`). -/
def SameWiring (w w1 : World) : Prop :=
  w1.heap.length = w.heap.length ∧ ∀ a < w.heap.length, wiring w1 a = wiring w a

instance (w w1 : World) : Decidable (SameWiring w w1) := by
  unfold SameWiring; infer_instance

/-- Two results of `evaluate_gate` are the same outcome: both undefined, or the
same returned value and signal in states that again have the same wiring. -/
def SameOutcome (r r1 : Option (World × Int × Bool)) : Prop :=
  (r = none ∧ r1 = none) ∨
  ∃ u u1 d b, r = some (u, d, b) ∧ r1 = some (u1, d, b) ∧ SameWiring u u1

/-- Number of live gates. -/
def gateCount (w : World) : Nat :=
  w.heap.countP (fun cell => cell.isSome)

/-- The list `l` after `n` removals of the first entry equal to `a`. -/
def eraseTimes (a : Nat) : Nat → List Nat → List Nat
  | 0, l => l
  | n + 1, l => eraseTimes a n (l.erase a)

/-- The slots `new` are the slots `old` in which some slots bound to the gate
`g` have been cleared; the other slots are as they were. -/
def SlotsCleared (g : Nat) (old new : List Input) : Prop :=
  new.length = old.length ∧
  ∀ i : Nat, new[i]? = old[i]? ∨
    (new[i]? = some (Input.mk none none) ∧ ∃ s, old[i]? = some (Input.mk (some g) s))

/-! ## Example networks -/

/-- Gate `0` of arity 2 with both slots unbound, gate `1` of arity 1 with its
slot bound to gate `0`. -/
def netAB : World :=
  ⟨[some ⟨[⟨none, none⟩, ⟨none, none⟩], false, [1]⟩,
    some ⟨[⟨some 0, none⟩], false, []⟩], 0⟩

/-- Two gates of arity 2: gate `0` has a self-loop on slot 0 and takes gate `1`
on slot 1; gate `1` takes gate `0` on both slots. -/
def netLoop : World :=
  ⟨[some ⟨[⟨some 0, none⟩, ⟨some 1, none⟩], false, [0, 1, 1]⟩,
    some ⟨[⟨some 0, none⟩, ⟨some 0, none⟩], false, [0]⟩], 0⟩

/-- The network `netLoop` after `nand_delete` of gate `0`. -/
def netLoopDeleted : World :=
  ⟨[none, some ⟨[⟨none, none⟩, ⟨none, none⟩], false, []⟩], 0⟩

/-- The network `netLoop` after slot 0 of gate `0` is rewired to gate `1`. -/
def netLoopRewired : World :=
  ⟨[some ⟨[⟨some 1, none⟩, ⟨some 1, none⟩], false, [1, 1]⟩,
    some ⟨[⟨some 0, none⟩, ⟨some 0, none⟩], false, [0, 0]⟩], 0⟩

/-- The network `netLoop` after slot 0 of gate `0` is bound to the constant at
address `7`. -/
def netLoopSignal : World :=
  ⟨[some ⟨[⟨none, some 7⟩, ⟨some 1, none⟩], false, [1, 1]⟩,
    some ⟨[⟨some 0, none⟩, ⟨some 0, none⟩], false, [0]⟩], 0⟩


/-- A single gate of arity 1 with its slot unbound. -/
def netOne : World :=
  ⟨[some ⟨[⟨none, none⟩], false, []⟩], 0⟩

/-- Gate `0` of arity 1 with its slot unbound, gate `1` of arity 1 with its slot
bound to itself. -/
def netCyc : World :=
  ⟨[some ⟨[⟨none, none⟩], false, []⟩, some ⟨[⟨some 1, none⟩], false, [1]⟩], 0⟩

/-- A chain of three gates of arity 1: `0`, then `1` fed by `0`, then `2` fed by
`1`. -/
def netChain3 : World :=
  ⟨[some ⟨[⟨none, none⟩], false, [1]⟩, some ⟨[⟨some 0, none⟩], false, [2]⟩,
    some ⟨[⟨some 1, none⟩], false, []⟩], 0⟩

/-- The network `netOne` after its gate is connected to its own slot. -/
def netOneLoop : World :=
  ⟨[some ⟨[⟨some 0, none⟩], false, [0]⟩], 0⟩

/-- Gate `0` feeds the single slot of gate `1` and of gate `2`; gate `2` was
connected last, so it is first in the output list of gate `0`. -/
def netFan : World :=
  ⟨[some ⟨[⟨none, none⟩], false, [2, 1]⟩, some ⟨[⟨some 0, none⟩], false, []⟩,
    some ⟨[⟨some 0, none⟩], false, []⟩], 0⟩

/-- The network `netAB` with the slots of gate `0` bound to constants. -/
def netABConst : World :=
  ⟨[some ⟨[⟨none, some 5⟩, ⟨none, some 6⟩], false, [1]⟩,
    some ⟨[⟨some 0, none⟩], false, []⟩], 0⟩

/-- The network `netLoop` after `nand_delete` of gate `1`. -/
def netLoopDeleted1 : World :=
  ⟨[some ⟨[⟨some 0, none⟩, ⟨none, none⟩], false, [0]⟩, none], 0⟩

/-! ## Basic lemmas on the heap -/

theorem gate_lt {w : World} {a : Nat} {G : NandGate} (h : w.gate a = some G) :
    a < w.heap.length := by
  unfold World.gate at h
  by_contra hlt
  rw [List.getElem?_eq_none (by omega)] at h
  simp at h

theorem gate_setGate (w : World) (a b : Nat) (G : NandGate) (h : a < w.heap.length) :
    (w.setGate a G).gate b = if a = b then some G else w.gate b := by
  unfold World.gate World.setGate
  simp only [List.getElem?_set]
  split_ifs <;> simp

theorem gate_setGate_self {w : World} {a : Nat} {G G0 : NandGate} (h : w.gate a = some G0) :
    (w.setGate a G).gate a = some G := by
  rw [gate_setGate w a a G (gate_lt h)]; simp

theorem gate_setGate_ne {w : World} {a b : Nat} (G : NandGate) (h : a ≠ b) :
    (w.setGate a G).gate b = w.gate b := by
  unfold World.gate World.setGate
  simp [List.getElem?_set, h]

theorem length_setGate (w : World) (a : Nat) (G : NandGate) :
    (w.setGate a G).heap.length = w.heap.length := by
  simp [World.setGate]

theorem errno_setGate (w : World) (a : Nat) (G : NandGate) :
    (w.setGate a G).errno = w.errno := rfl

theorem gate_errno (w : World) (e : Int) (a : Nat) :
    (w.setErrno e).gate a = w.gate a := rfl

theorem setGate_same {w : World} {a : Nat} {G : NandGate} (h : w.gate a = some G) :
    w.setGate a G = w := by
  have hlt := gate_lt h
  unfold World.gate at h
  unfold World.setGate
  have : w.heap.set a (some G) = w.heap := by
    apply List.ext_getElem?
    intro i
    rw [List.getElem?_set]
    split_ifs with h1
    · subst h1
      rw [List.getElem?_eq_getElem hlt] at h ⊢
      simp at h
      simp [h]
    · rfl
  rw [this]

theorem setGate_setGate (w : World) (a : Nat) (G G1 : NandGate) :
    (w.setGate a G).setGate a G1 = w.setGate a G1 := by
  simp [World.setGate]

theorem gate_free (w : World) (a b : Nat) :
    (w.free a).gate b = if a = b then none else w.gate b := by
  unfold World.gate World.free
  simp only [List.getElem?_set]
  split_ifs <;> simp

theorem corr_iff (w : World) :
    Corr w ↔ ∀ P C GP GC, w.gate P = some GP → w.gate C = some GC →
      GP.outputs.count C = slotCount P GC := by
  constructor
  · intro h P C GP GC hP hC
    exact h P (gate_lt hP) C (gate_lt hC) GP hP GC hC
  · intro h P _ C _ GP hP GC hC
    exact h P C GP GC hP hC

theorem corr_iff_cnt (w : World) :
    Corr w ↔ ∀ P C, (w.gate P).isSome = true → (w.gate C).isSome = true →
      outCnt w P C = inCnt w P C := by
  rw [corr_iff]
  constructor
  · intro h P C hP hC
    obtain ⟨GP, hGP⟩ := Option.isSome_iff_exists.mp hP
    obtain ⟨GC, hGC⟩ := Option.isSome_iff_exists.mp hC
    simp only [outCnt, inCnt, hGP, hGC]
    exact h P C GP GC hGP hGC
  · intro h P C GP GC hP hC
    have := h P C (by simp [hP]) (by simp [hC])
    simpa only [outCnt, inCnt, hP, hC] using this

theorem closed_iff (w : World) :
    Closed w ↔ ∀ a G, w.gate a = some G →
      (∀ inp ∈ G.inputs, ∀ p, inp.gate = some p → (w.gate p).isSome = true) ∧
      (∀ c ∈ G.outputs, (w.gate c).isSome = true) := by
  constructor
  · intro h a G hG
    exact h a (gate_lt hG) G hG
  · intro h a _ G hG
    exact h a G hG

theorem excl_iff (w : World) :
    Excl w ↔ ∀ a G, w.gate a = some G → ∀ inp ∈ G.inputs,
      inp.gate = none ∨ inp.signalBool = none := by
  constructor
  · intro h a G hG
    exact h a (gate_lt hG) G hG
  · intro h a _ G hG
    exact h a G hG

theorem allUnvisited_iff (w : World) :
    AllUnvisited w ↔ ∀ a G, w.gate a = some G → G.visited = false := by
  constructor
  · intro h a G hG
    exact h a (gate_lt hG) G hG
  · intro h a _ G hG
    exact h a G hG

/-! ## Effect of the elementary updates on liveness and on the two counts -/

theorem isSome_setGate {w : World} {a : Nat} {G0 : NandGate} (G : NandGate)
    (h : w.gate a = some G0) (b : Nat) :
    ((w.setGate a G).gate b).isSome = (w.gate b).isSome := by
  rw [gate_setGate w a b G (gate_lt h)]
  split_ifs with hab
  · subst hab; simp [h]
  · rfl

theorem outCnt_setGate {w : World} {a : Nat} {G0 : NandGate} (G : NandGate)
    (h : w.gate a = some G0) (P C : Nat) :
    outCnt (w.setGate a G) P C = if P = a then G.outputs.count C else outCnt w P C := by
  unfold outCnt
  rw [gate_setGate w a P G (gate_lt h)]
  by_cases hP : a = P
  · subst hP; simp
  · have hP2 : ¬ P = a := fun e => hP e.symm
    simp [hP, hP2]

theorem inCnt_setGate {w : World} {a : Nat} {G0 : NandGate} (G : NandGate)
    (h : w.gate a = some G0) (P C : Nat) :
    inCnt (w.setGate a G) P C = if C = a then slotCount P G else inCnt w P C := by
  unfold inCnt
  rw [gate_setGate w a C G (gate_lt h)]
  by_cases hC : a = C
  · subst hC; simp
  · have hC2 : ¬ C = a := fun e => hC e.symm
    simp [hC, hC2]

theorem outCnt_of_gate {w : World} {p : Nat} {G : NandGate} (h : w.gate p = some G) (c : Nat) :
    outCnt w p c = G.outputs.count c := by
  simp [outCnt, h]

theorem inCnt_of_gate {w : World} {c : Nat} {G : NandGate} (h : w.gate c = some G) (p : Nat) :
    inCnt w p c = slotCount p G := by
  simp [inCnt, h]

theorem remove_output_eq {w w1 : World} {p c : Nat} (h : remove_output w p c = some w1) :
    ∃ S, w.gate p = some S ∧ w1 = w.setGate p { S with outputs := S.outputs.erase c } := by
  unfold remove_output at h
  cases hS : w.gate p with
  | none => simp [hS] at h
  | some S =>
    simp only [hS, Option.some.injEq] at h
    exact ⟨S, rfl, h.symm⟩

theorem remove_output_isSome {w : World} {p : Nat} (c : Nat) (h : (w.gate p).isSome = true) :
    ∃ w1, remove_output w p c = some w1 := by
  obtain ⟨S, hS⟩ := Option.isSome_iff_exists.mp h
  exact ⟨w.setGate p { S with outputs := S.outputs.erase c }, by simp [remove_output, hS]⟩

theorem remove_output_live {w w1 : World} {p c : Nat} (h : remove_output w p c = some w1)
    (b : Nat) : (w1.gate b).isSome = (w.gate b).isSome := by
  obtain ⟨S, hS, rfl⟩ := remove_output_eq h
  exact isSome_setGate _ hS b

theorem remove_output_inputs {w w1 : World} {p c : Nat} (h : remove_output w p c = some w1)
    (b : Nat) : (w1.gate b).map NandGate.inputs = (w.gate b).map NandGate.inputs := by
  obtain ⟨S, hS, rfl⟩ := remove_output_eq h
  rw [gate_setGate w p b _ (gate_lt hS)]
  split_ifs with hb
  · subst hb; simp [hS]
  · rfl

theorem remove_output_inCnt {w w1 : World} {p c : Nat} (h : remove_output w p c = some w1)
    (P C : Nat) : inCnt w1 P C = inCnt w P C := by
  obtain ⟨S, hS, rfl⟩ := remove_output_eq h
  rw [inCnt_setGate _ hS]
  split_ifs with hC
  · subst hC; simp [inCnt, hS, slotCount]
  · rfl

theorem remove_output_outCnt {w w1 : World} {p c : Nat} (h : remove_output w p c = some w1)
    (P C : Nat) : outCnt w1 P C = outCnt w P C - (if P = p ∧ C = c then 1 else 0) := by
  obtain ⟨S, hS, rfl⟩ := remove_output_eq h
  rw [outCnt_setGate _ hS]
  by_cases hP : P = p
  · subst hP
    simp only [if_true, true_and, outCnt_of_gate hS, List.count_erase]
    by_cases hC : C = c
    · subst hC; simp
    · have : ¬ c = C := fun e => hC e.symm
      simp [hC, this]
  · simp [hP]

theorem setSlot_eq {w w1 : World} {c k : Nat} {inp : Input} (h : setSlot w c k inp = some w1) :
    ∃ C, w.gate c = some C ∧ k < C.inputs.length ∧
      w1 = w.setGate c { C with inputs := C.inputs.set k inp } := by
  unfold setSlot at h
  cases hC : w.gate c with
  | none => simp [hC] at h
  | some C =>
    simp only [hC] at h
    by_cases hk : k < C.n
    · simp only [hk, if_true, Option.some.injEq] at h
      exact ⟨C, rfl, hk, h.symm⟩
    · simp [hk] at h

theorem setSlot_isSome {w : World} {c k : Nat} {C : NandGate} (inp : Input)
    (hC : w.gate c = some C) (hk : k < C.inputs.length) :
    setSlot w c k inp = some (w.setGate c { C with inputs := C.inputs.set k inp }) := by
  simp [setSlot, hC, NandGate.n, hk]

theorem slotCount_set (P : Nat) (C : NandGate) (k : Nat) (inp : Input)
    (hk : k < C.inputs.length) :
    slotCount P { C with inputs := C.inputs.set k inp } =
      slotCount P C - (if (C.inputs.get ⟨k, hk⟩).gate = some P then 1 else 0)
        + (if inp.gate = some P then 1 else 0) := by
  unfold slotCount
  simp only [List.countP_set _ _ _ _ hk, decide_eq_true_eq, List.get_eq_getElem]

theorem slotCount_pos {P : Nat} {C : NandGate} {k : Nat} (hk : k < C.inputs.length)
    (h : (C.inputs.get ⟨k, hk⟩).gate = some P) : 0 < slotCount P C := by
  unfold slotCount
  rw [List.countP_pos_iff]
  exact ⟨_, List.get_mem _ _ _, by simpa using h⟩

/-! ## `nand_connect_nand` -/

/-- Shape of a call of `nand_connect_nand` that gets past the argument and
allocation checks: the node is pushed on the producer's list, the producer the
slot was bound to (if any) loses one entry, and the slot is rewritten. -/
theorem connect_nand_inv {w w3 : World} {og ig : Option Nat} {k : Nat} {m : Bool} {r : Int}
    (h : nand_connect_nand w og ig k m = some (w3, r)) :
    (r = FAIL ∧ w3.heap = w.heap ∧
      (og = none ∨ ig = none ∨ m = false ∨ ∃ c C, ig = some c ∧ w.gate c = some C ∧ C.n ≤ k)) ∨
    (r = SUCCESS ∧ m = true ∧ ∃ o c C O slot w2, og = some o ∧ ig = some c ∧
      w.gate c = some C ∧ w.gate o = some O ∧ k < C.inputs.length ∧ C.inputs[k]? = some slot ∧
      ((slot.gate = none ∧ w2 = w.setGate o { O with outputs := c :: O.outputs }) ∨
        (∃ old, slot.gate = some old ∧ slot.signalBool = none ∧
          remove_output (w.setGate o { O with outputs := c :: O.outputs }) old c = some w2)) ∧
      setSlot w2 c k ⟨some o, none⟩ = some w3) := by
  unfold nand_connect_nand at h
  cases og with
  | none => simp at h; left; exact ⟨h.2.symm, by rw [← h.1]; rfl, Or.inl rfl⟩
  | some o =>
  cases ig with
  | none => simp at h; left; exact ⟨h.2.symm, by rw [← h.1]; rfl, Or.inr (Or.inl rfl)⟩
  | some c =>
  simp only at h
  cases hC : w.gate c with
  | none => simp [hC] at h
  | some C =>
  simp only [hC] at h
  by_cases hk : C.n ≤ k
  · simp only [hk, if_true, Option.some.injEq, Prod.mk.injEq] at h
    left; exact ⟨h.2.symm, by rw [← h.1]; rfl, Or.inr (Or.inr (Or.inr ⟨c, C, rfl, hC, hk⟩))⟩
  simp only [hk, if_false] at h
  cases m with
  | false =>
    simp only [if_true, Option.some.injEq, Prod.mk.injEq] at h
    left; exact ⟨h.2.symm, by rw [← h.1]; rfl, Or.inr (Or.inr (Or.inl rfl))⟩
  | true =>
  simp only [Bool.true_eq_false, if_false] at h
  cases hO : w.gate o with
  | none => simp [hO] at h
  | some O =>
  simp only [hO] at h
  have hk2 : k < C.inputs.length := by unfold NandGate.n at hk; omega
  have hin : ((w.setGate o { O with outputs := c :: O.outputs }).gate c).bind
      (fun C1 => C1.inputs[k]?) = C.inputs[k]? := by
    rw [gate_setGate w o c _ (gate_lt hO)]
    split_ifs with hoc
    · subst hoc
      rw [hO] at hC
      simp only [Option.some.injEq] at hC
      subst hC
      simp
    · simp [hC]
  rw [hin] at h
  cases hslot : C.inputs[k]? with
  | none => simp [hslot] at h
  | some slot =>
  simp only [hslot] at h
  right
  by_cases hsig : slot.signalBool = none
  · simp only [hsig, ne_eq, not_true_eq_false, if_false] at h
    cases hg : slot.gate with
    | none =>
      simp only [hg, Option.map_eq_some', Prod.mk.injEq] at h
      obtain ⟨w2, hw2, rfl, rfl⟩ := h
      exact ⟨rfl, rfl, o, c, C, O, slot, _, rfl, rfl, hC, hO, hk2, hslot, Or.inl ⟨hg, rfl⟩, hw2⟩
    | some old =>
      simp only [hg] at h
      cases hrem : remove_output (w.setGate o { O with outputs := c :: O.outputs }) old c with
      | none => simp [hrem] at h
      | some w2 =>
        simp only [hrem, Option.map_eq_some', Prod.mk.injEq] at h
        obtain ⟨w3', hw3, rfl, rfl⟩ := h
        exact ⟨rfl, rfl, o, c, C, O, slot, w2, rfl, rfl, hC, hO, hk2, hslot,
          Or.inr ⟨old, hg, hsig, hrem⟩, hw3⟩
  · simp only [ne_eq, hsig, not_false_eq_true, if_true] at h
    by_cases hg : slot.gate = none
    · simp only [hg, not_true_eq_false, if_false, Option.map_eq_some', Prod.mk.injEq] at h
      obtain ⟨w2, hw2, rfl, rfl⟩ := h
      exact ⟨rfl, rfl, o, c, C, O, slot, _, rfl, rfl, hC, hO, hk2, hslot, Or.inl ⟨hg, rfl⟩, hw2⟩
    · simp [hg] at h

theorem inCnt_congr {w w1 : World} {c : Nat}
    (h : (w1.gate c).map NandGate.inputs = (w.gate c).map NandGate.inputs) (P : Nat) :
    inCnt w1 P c = inCnt w P c := by
  unfold inCnt slotCount
  cases h1 : w1.gate c <;> cases h0 : w.gate c <;> simp [h1, h0] at h ⊢
  rw [h]

theorem setGate_outputs_inputs {w : World} {o : Nat} {O : NandGate} (l : List Nat)
    (hO : w.gate o = some O) (b : Nat) :
    ((w.setGate o { O with outputs := l }).gate b).map NandGate.inputs =
      (w.gate b).map NandGate.inputs := by
  rw [gate_setGate w o b _ (gate_lt hO)]
  split_ifs with hb
  · subst hb; simp [hO]
  · rfl

/-- Effect of a successful `nand_connect_nand (o, c, k)` on liveness, on the two
counts and on the rewritten slot; `slot` is the previous content of the slot. -/
theorem connect_nand_effect {w w2 w3 : World} {o c k : Nat} {C O : NandGate} {slot : Input}
    (hC : w.gate c = some C) (hO : w.gate o = some O) (hk : k < C.inputs.length)
    (hslot : C.inputs[k]? = some slot)
    (h2 : (slot.gate = none ∧ w2 = w.setGate o { O with outputs := c :: O.outputs }) ∨
        (∃ old, slot.gate = some old ∧ slot.signalBool = none ∧
          remove_output (w.setGate o { O with outputs := c :: O.outputs }) old c = some w2))
    (h3 : setSlot w2 c k ⟨some o, none⟩ = some w3) :
    (∀ b, (w3.gate b).isSome = (w.gate b).isSome) ∧
    (∀ P X, outCnt w3 P X = outCnt w P X + (if P = o ∧ X = c then 1 else 0)
      - (if slot.gate = some P ∧ X = c then 1 else 0)) ∧
    (∀ P X, inCnt w3 P X = if X = c then
      inCnt w P c - (if slot.gate = some P then 1 else 0) + (if P = o then 1 else 0)
      else inCnt w P X) ∧
    (∃ C3, w3.gate c = some C3 ∧ C3.inputs = C.inputs.set k ⟨some o, none⟩) ∧
    (∀ b, b ≠ c → (w3.gate b).map NandGate.inputs = (w.gate b).map NandGate.inputs) ∧
    w3.errno = w.errno := by
  have hw1out : ∀ P X, outCnt (w.setGate o { O with outputs := c :: O.outputs }) P X =
      outCnt w P X + (if P = o ∧ X = c then 1 else 0) := by
    intro P X
    rw [outCnt_setGate _ hO]
    by_cases hP : P = o
    · subst hP
      simp only [true_and, if_true, outCnt_of_gate hO, List.count_cons]
      by_cases hX : X = c
      · subst hX; simp
      · have : ¬ c = X := fun e => hX e.symm
        simp [hX, this]
    · simp [hP]
  have hw2 : (∀ b, (w2.gate b).isSome = (w.gate b).isSome) ∧
      (∀ b, (w2.gate b).map NandGate.inputs = (w.gate b).map NandGate.inputs) ∧
      (∀ P X, outCnt w2 P X = outCnt w P X + (if P = o ∧ X = c then 1 else 0)
        - (if slot.gate = some P ∧ X = c then 1 else 0)) ∧ w2.errno = w.errno := by
    rcases h2 with ⟨hg, rfl⟩ | ⟨old, hg, _, hrem⟩
    · refine ⟨fun b => isSome_setGate _ hO b, fun b => setGate_outputs_inputs _ hO b, ?_, rfl⟩
      intro P X
      rw [hw1out]
      simp [hg]
    · refine ⟨fun b => ?_, fun b => ?_, fun P X => ?_, ?_⟩
      · rw [remove_output_live hrem, isSome_setGate _ hO]
      · rw [remove_output_inputs hrem, setGate_outputs_inputs _ hO]
      · rw [remove_output_outCnt hrem, hw1out, hg]
        by_cases hP : P = old
        · subst hP; simp
        · have : ¬ old = P := fun e => hP e.symm
          simp [hP, this]
      · obtain ⟨S, _, rfl⟩ := remove_output_eq hrem
        rfl
  obtain ⟨hlive2, hin2, hout2, herr2⟩ := hw2
  obtain ⟨C2, hC2, hk2, rfl⟩ := setSlot_eq h3
  have hC2in : C2.inputs = C.inputs := by
    have := hin2 c
    simpa [hC2, hC] using this
  have hget : C.inputs.get ⟨k, hk⟩ = slot := by
    rw [List.getElem?_eq_getElem hk] at hslot
    simpa using hslot
  refine ⟨fun b => ?_, fun P X => ?_, fun P X => ?_, ?_, fun b hb => ?_, ?_⟩
  · rw [isSome_setGate _ hC2, hlive2]
  · rw [outCnt_setGate _ hC2, ← hout2]
    split_ifs with hP
    · subst hP; simp [outCnt_of_gate hC2]
    · rfl
  · rw [inCnt_setGate _ hC2]
    by_cases hX : X = c
    · have hk' : k < C2.inputs.length := hk2
      rw [if_pos hX, if_pos hX, slotCount_set P C2 k _ hk', ← inCnt_of_gate hC2,
        inCnt_congr (hin2 c)]
      have : C2.inputs.get ⟨k, hk'⟩ = slot := by
        rw [← hget]; simp [hC2in]
      rw [this]
      by_cases hPo : P = o
      · subst hPo; simp
      · have : ¬ o = P := fun e => hPo e.symm
        simp [hPo, this]
    · rw [if_neg hX, if_neg hX]
      exact inCnt_congr (hin2 X) P
  · exact ⟨_, gate_setGate_self hC2, by simp [hC2in]⟩
  · rw [gate_setGate_ne _ (Ne.symm hb), hin2]
  · exact herr2

theorem corr_of_heap_eq {w w1 : World} (h : w1.heap = w.heap) (hc : Corr w) : Corr w1 := by
  cases w; cases w1
  simp only at h
  subst h
  exact hc

theorem closed_of_heap_eq {w w1 : World} (h : w1.heap = w.heap) (hc : Closed w) : Closed w1 := by
  cases w; cases w1
  simp only at h
  subst h
  exact hc

theorem excl_of_heap_eq {w w1 : World} (h : w1.heap = w.heap) (hc : Excl w) : Excl w1 := by
  cases w; cases w1
  simp only at h
  subst h
  exact hc

theorem inCnt_pos_of_slot {w : World} {c k P : Nat} {C : NandGate} {slot : Input}
    (hC : w.gate c = some C) (hslot : C.inputs[k]? = some slot) (hg : slot.gate = some P) :
    0 < inCnt w P c := by
  rw [inCnt_of_gate hC]
  have hk : k < C.inputs.length := by
    by_contra hlt
    rw [List.getElem?_eq_none (by omega)] at hslot
    simp at hslot
  apply slotCount_pos hk
  rw [List.getElem?_eq_getElem hk] at hslot
  simp only [Option.some.injEq] at hslot
  simp [hslot, hg]

/-- The correspondence invariant survives every call of `nand_connect_nand`. -/
theorem corr_connect_nand {w w3 : World} {og ig : Option Nat} {k : Nat} {m : Bool} {r : Int}
    (hcorr : Corr w) (h : nand_connect_nand w og ig k m = some (w3, r)) : Corr w3 := by
  rcases connect_nand_inv h with ⟨_, hheap, _⟩ |
    ⟨_, _, o, c, C, O, slot, w2, rfl, rfl, hC, hO, hk, hslot, h2, h3⟩
  · exact corr_of_heap_eq hheap hcorr
  · obtain ⟨hlive, hout, hin, _, _, _⟩ := connect_nand_effect hC hO hk hslot h2 h3
    rw [corr_iff_cnt] at hcorr ⊢
    intro P X hP hX
    rw [hlive] at hP hX
    have h0 := hcorr P X hP hX
    rw [hout, hin]
    by_cases hXc : X = c
    · subst hXc
      simp only [and_true, if_true]
      by_cases hg : slot.gate = some P
      · have := inCnt_pos_of_slot hC hslot hg
        simp only [hg, if_true]
        split_ifs <;> omega
      · simp only [hg, if_false]
        omega
    · simp [hXc, h0]

/-! ## `nand_connect_signal` -/

theorem connect_signal_inv {w w2 : World} {sg gt : Option Nat} {k : Nat} {r : Int}
    (h : nand_connect_signal w sg gt k = some (w2, r)) :
    (r = FAIL ∧ w2.heap = w.heap) ∨
    (r = SUCCESS ∧ ∃ g s G slot w1, gt = some g ∧ sg = some s ∧
      w.gate g = some G ∧ k < G.inputs.length ∧ G.inputs[k]? = some slot ∧
      ((slot.gate = none ∧ w1 = w) ∨
        (∃ old, slot.gate = some old ∧ slot.signalBool = none ∧
          remove_output w old g = some w1)) ∧
      setSlot w1 g k ⟨none, some s⟩ = some w2) := by
  unfold nand_connect_signal at h
  cases gt with
  | none => simp at h; left; exact ⟨h.2.symm, by rw [← h.1]; rfl⟩
  | some g =>
  cases sg with
  | none => simp at h; left; exact ⟨h.2.symm, by rw [← h.1]; rfl⟩
  | some s =>
  simp only at h
  cases hG : w.gate g with
  | none => simp [hG] at h
  | some G =>
  simp only [hG] at h
  by_cases hk : G.n ≤ k
  · simp only [hk, if_true, Option.some.injEq, Prod.mk.injEq] at h
    left; exact ⟨h.2.symm, by rw [← h.1]; rfl⟩
  simp only [hk, if_false] at h
  have hk2 : k < G.inputs.length := by unfold NandGate.n at hk; omega
  cases hslot : G.inputs[k]? with
  | none => simp [hslot] at h
  | some slot =>
  simp only [hslot] at h
  right
  cases hg : slot.gate with
  | none =>
    simp only [hg, Option.map_eq_some', Prod.mk.injEq] at h
    obtain ⟨w1, hw1, rfl, rfl⟩ := h
    exact ⟨rfl, g, s, G, slot, w, rfl, rfl, hG, hk2, hslot, Or.inl ⟨hg, rfl⟩, hw1⟩
  | some old =>
    simp only [hg] at h
    by_cases hsig : slot.signalBool = none
    · simp only [hsig, ne_eq, not_true_eq_false, if_false] at h
      cases hrem : remove_output w old g with
      | none => simp [hrem] at h
      | some w1 =>
        simp only [hrem, Option.map_eq_some', Prod.mk.injEq] at h
        obtain ⟨w2', hw2, rfl, rfl⟩ := h
        exact ⟨rfl, g, s, G, slot, w1, rfl, rfl, hG, hk2, hslot,
          Or.inr ⟨old, hg, hsig, hrem⟩, hw2⟩
    · simp [hsig] at h

/-- Effect of a successful `nand_connect_signal (s, g, k)`; `slot` is the
previous content of the slot. -/
theorem connect_signal_effect {w w1 w2 : World} {g k s : Nat} {G : NandGate} {slot : Input}
    (hG : w.gate g = some G) (hk : k < G.inputs.length) (hslot : G.inputs[k]? = some slot)
    (h1 : (slot.gate = none ∧ w1 = w) ∨
        (∃ old, slot.gate = some old ∧ slot.signalBool = none ∧
          remove_output w old g = some w1))
    (h2 : setSlot w1 g k ⟨none, some s⟩ = some w2) :
    (∀ b, (w2.gate b).isSome = (w.gate b).isSome) ∧
    (∀ P X, outCnt w2 P X = outCnt w P X - (if slot.gate = some P ∧ X = g then 1 else 0)) ∧
    (∀ P X, inCnt w2 P X = if X = g then
      inCnt w P g - (if slot.gate = some P then 1 else 0) else inCnt w P X) ∧
    (∃ G2, w2.gate g = some G2 ∧ G2.inputs = G.inputs.set k ⟨none, some s⟩) ∧
    (∀ b, b ≠ g → (w2.gate b).map NandGate.inputs = (w.gate b).map NandGate.inputs) ∧
    w2.errno = w.errno := by
  have hw1 : (∀ b, (w1.gate b).isSome = (w.gate b).isSome) ∧
      (∀ b, (w1.gate b).map NandGate.inputs = (w.gate b).map NandGate.inputs) ∧
      (∀ P X, outCnt w1 P X = outCnt w P X - (if slot.gate = some P ∧ X = g then 1 else 0)) ∧
      w1.errno = w.errno := by
    rcases h1 with ⟨hg, rfl⟩ | ⟨old, hg, _, hrem⟩
    · exact ⟨fun _ => rfl, fun _ => rfl, fun P X => by simp [hg], rfl⟩
    · refine ⟨fun b => remove_output_live hrem b, fun b => remove_output_inputs hrem b,
        fun P X => ?_, ?_⟩
      · rw [remove_output_outCnt hrem, hg]
        by_cases hP : P = old
        · subst hP; simp
        · have : ¬ old = P := fun e => hP e.symm
          simp [hP, this]
      · obtain ⟨S, _, rfl⟩ := remove_output_eq hrem
        rfl
  obtain ⟨hlive1, hin1, hout1, herr1⟩ := hw1
  obtain ⟨G1, hG1, hk1, rfl⟩ := setSlot_eq h2
  have hG1in : G1.inputs = G.inputs := by
    have := hin1 g
    simpa [hG1, hG] using this
  have hget : G.inputs.get ⟨k, hk⟩ = slot := by
    rw [List.getElem?_eq_getElem hk] at hslot
    simpa using hslot
  refine ⟨fun b => ?_, fun P X => ?_, fun P X => ?_, ?_, fun b hb => ?_, ?_⟩
  · rw [isSome_setGate _ hG1, hlive1]
  · rw [outCnt_setGate _ hG1, ← hout1]
    split_ifs with hP
    · subst hP; simp [outCnt_of_gate hG1]
    · rfl
  · rw [inCnt_setGate _ hG1]
    by_cases hX : X = g
    · have hk' : k < G1.inputs.length := hk1
      rw [if_pos hX, if_pos hX, slotCount_set P G1 k _ hk', ← inCnt_of_gate hG1,
        inCnt_congr (hin1 g)]
      have : G1.inputs.get ⟨k, hk'⟩ = slot := by
        rw [← hget]; simp [hG1in]
      rw [this]
      simp
    · rw [if_neg hX, if_neg hX]
      exact inCnt_congr (hin1 X) P
  · exact ⟨_, gate_setGate_self hG1, by simp [hG1in]⟩
  · rw [gate_setGate_ne _ (Ne.symm hb), hin1]
  · exact herr1

/-- The correspondence invariant survives every call of `nand_connect_signal`. -/
theorem corr_connect_signal {w w2 : World} {sg gt : Option Nat} {k : Nat} {r : Int}
    (hcorr : Corr w) (h : nand_connect_signal w sg gt k = some (w2, r)) : Corr w2 := by
  rcases connect_signal_inv h with ⟨_, hheap⟩ |
    ⟨_, g, s, G, slot, w1, rfl, rfl, hG, hk, hslot, h1, h2⟩
  · exact corr_of_heap_eq hheap hcorr
  · obtain ⟨hlive, hout, hin, _, _, _⟩ := connect_signal_effect hG hk hslot h1 h2
    rw [corr_iff_cnt] at hcorr ⊢
    intro P X hP hX
    rw [hlive] at hP hX
    have h0 := hcorr P X hP hX
    rw [hout, hin]
    by_cases hXg : X = g
    · subst hXg
      simp only [and_true, if_true]
      rw [h0]
    · simp [hXg, h0]

/-! ## `nand_delete` -/

theorem deleteInputsLoop_effect (g : Nat) : ∀ (slots : List Input) (w w1 : World),
    deleteInputsLoop g slots w = some w1 →
    (∀ b, (w1.gate b).isSome = (w.gate b).isSome) ∧
    (∀ b, (w1.gate b).map NandGate.inputs = (w.gate b).map NandGate.inputs) ∧
    (∀ P X, outCnt w1 P X = outCnt w P X -
      (if X = g then slots.countP (fun inp => decide (inp.gate = some P)) else 0)) ∧
    w1.errno = w.errno := by
  intro slots
  induction slots with
  | nil =>
    intro w w1 h
    simp only [deleteInputsLoop, Option.some.injEq] at h
    subst h
    simp
  | cons inp rest ih =>
    intro w w1 h
    unfold deleteInputsLoop at h
    cases hg : inp.gate with
    | none =>
      simp only [hg] at h
      obtain ⟨h1, h2, h3, h4⟩ := ih w w1 h
      refine ⟨h1, h2, fun P X => ?_, h4⟩
      rw [h3]
      simp [List.countP_cons, hg]
    | some p =>
      simp only [hg] at h
      cases hrem : remove_output w p g with
      | none => simp [hrem] at h
      | some w0 =>
        simp only [hrem] at h
        obtain ⟨h1, h2, h3, h4⟩ := ih w0 w1 h
        refine ⟨fun b => ?_, fun b => ?_, fun P X => ?_, ?_⟩
        · rw [h1, remove_output_live hrem]
        · rw [h2, remove_output_inputs hrem]
        · rw [h3, remove_output_outCnt hrem]
          simp only [List.countP_cons, hg, Option.some.injEq, decide_eq_true_eq]
          by_cases hX : X = g
          · by_cases hP : P = p
            · subst hP; simp [hX]; omega
            · have : ¬ p = P := fun e => hP e.symm
              simp [hX, hP, this]
          · simp [hX]
        · rw [h4]
          obtain ⟨S, _, rfl⟩ := remove_output_eq hrem
          rfl

theorem deleteInputsLoop_total (g : Nat) : ∀ (slots : List Input) (w : World),
    (∀ inp ∈ slots, ∀ p, inp.gate = some p → (w.gate p).isSome = true) →
    ∃ w1, deleteInputsLoop g slots w = some w1 := by
  intro slots
  induction slots with
  | nil => intro w _; exact ⟨w, rfl⟩
  | cons inp rest ih =>
    intro w hl
    unfold deleteInputsLoop
    cases hg : inp.gate with
    | none =>
      simp only
      exact ih w (fun i hi => hl i (List.mem_cons_of_mem _ hi))
    | some p =>
      obtain ⟨w0, hw0⟩ := remove_output_isSome g (hl inp (List.mem_cons_self _ _) p hg)
      simp only [hw0]
      apply ih
      intro i hi q hq
      rw [remove_output_live hw0]
      exact hl i (List.mem_cons_of_mem _ hi) q hq

theorem scanInput_spec (t : Nat) : ∀ (l : List Input) (i j : Nat),
    scanInput t l i = some j →
    ∃ (hlt : j - i < l.length), i ≤ j ∧ (l.get ⟨j - i, hlt⟩).gate = some t := by
  intro l
  induction l with
  | nil => intro i j h; simp [scanInput] at h
  | cons inp rest ih =>
    intro i j h
    unfold scanInput at h
    by_cases hg : inp.gate = some t
    · simp only [hg, if_true, Option.some.injEq] at h
      subst h
      exact ⟨by simp, le_refl _, by simpa using hg⟩
    · simp only [hg, if_false] at h
      obtain ⟨hlt, hle, hget⟩ := ih (i + 1) j h
      have hji : j - i = (j - (i + 1)) + 1 := by omega
      refine ⟨by simp only [List.length_cons]; omega, by omega, ?_⟩
      simp only [hji, List.get_eq_getElem, List.getElem_cons_succ]
      simpa using hget

theorem scanInput_total (t : Nat) : ∀ (l : List Input) (i : Nat),
    0 < l.countP (fun inp => decide (inp.gate = some t)) → ∃ j, scanInput t l i = some j := by
  intro l
  induction l with
  | nil => intro i h; simp at h
  | cons inp rest ih =>
    intro i h
    unfold scanInput
    by_cases hg : inp.gate = some t
    · exact ⟨i, by simp [hg]⟩
    · simp only [hg, if_false]
      apply ih
      simpa [List.countP_cons, hg] using h

/-- Shape of a returning call of `remove_single_input`: slot `i`, bound to the
target, is the slot that is cleared. -/
theorem remove_single_input_eq {w w1 : World} {c g : Nat}
    (h : remove_single_input w c g = some w1) :
    ∃ C i, ∃ (hi : i < C.inputs.length), w.gate c = some C ∧
      (C.inputs.get ⟨i, hi⟩).gate = some g ∧
      w1 = w.setGate c { C with inputs := C.inputs.set i ⟨none, none⟩ } := by
  unfold remove_single_input at h
  cases hC : w.gate c with
  | none => simp [hC] at h
  | some C =>
    simp only [hC] at h
    cases hs : scanInput g C.inputs 0 with
    | none => simp [hs] at h
    | some i =>
      simp only [hs] at h
      obtain ⟨hlt, _, hget⟩ := scanInput_spec g C.inputs 0 i hs
      simp only [Nat.sub_zero] at hlt hget
      unfold clear_input at h
      simp only [hC, NandGate.n, hlt, if_true, Option.some.injEq] at h
      exact ⟨C, i, hlt, rfl, hget, h.symm⟩

theorem remove_single_input_effect {w w1 : World} {c g : Nat}
    (h : remove_single_input w c g = some w1) :
    (∀ b, (w1.gate b).isSome = (w.gate b).isSome) ∧
    (∀ P X, outCnt w1 P X = outCnt w P X) ∧
    (∀ P X, inCnt w1 P X = inCnt w P X - (if P = g ∧ X = c then 1 else 0)) ∧
    0 < inCnt w g c ∧ w1.errno = w.errno := by
  obtain ⟨C, i, hi, hC, hget, rfl⟩ := remove_single_input_eq h
  refine ⟨fun b => isSome_setGate _ hC b, fun P X => ?_, fun P X => ?_, ?_, rfl⟩
  · rw [outCnt_setGate _ hC]
    split_ifs with hP
    · subst hP; simp [outCnt_of_gate hC]
    · rfl
  · rw [inCnt_setGate _ hC]
    by_cases hX : X = c
    · subst hX
      rw [if_pos rfl, slotCount_set P C i _ hi, inCnt_of_gate hC, hget]
      by_cases hP : P = g
      · subst hP; simp
      · have : ¬ g = P := fun e => hP e.symm
        simp [hP, this]
    · simp [hX]
  · rw [inCnt_of_gate hC]
    exact slotCount_pos hi hget

theorem remove_single_input_total {w : World} {c g : Nat} (h : 0 < inCnt w g c) :
    ∃ w1, remove_single_input w c g = some w1 := by
  unfold inCnt at h
  cases hC : w.gate c with
  | none => simp [hC] at h
  | some C =>
    simp only [hC, slotCount] at h
    obtain ⟨i, hs⟩ := scanInput_total g C.inputs 0 h
    obtain ⟨hlt, _, _⟩ := scanInput_spec g C.inputs 0 i hs
    simp only [Nat.sub_zero] at hlt
    exact ⟨w.setGate c { C with inputs := C.inputs.set i ⟨none, none⟩ }, by
      simp [remove_single_input, hC, hs, clear_input, NandGate.n, hlt]⟩

theorem deleteOutputsLoop_effect (g : Nat) : ∀ (cs : List Nat) (w w1 : World),
    deleteOutputsLoop g cs w = some w1 →
    (∀ b, (w1.gate b).isSome = (w.gate b).isSome) ∧
    (∀ P X, outCnt w1 P X = outCnt w P X) ∧
    (∀ P X, inCnt w1 P X = inCnt w P X - (if P = g then cs.count X else 0)) ∧
    w1.errno = w.errno := by
  intro cs
  induction cs with
  | nil =>
    intro w w1 h
    simp only [deleteOutputsLoop, Option.some.injEq] at h
    subst h
    simp
  | cons c rest ih =>
    intro w w1 h
    unfold deleteOutputsLoop at h
    cases hrem : remove_single_input w c g with
    | none => simp [hrem] at h
    | some w0 =>
      simp only [hrem] at h
      obtain ⟨h1, h2, h3, h4⟩ := ih w0 w1 h
      obtain ⟨e1, e2, e3, _, e5⟩ := remove_single_input_effect hrem
      refine ⟨fun b => ?_, fun P X => ?_, fun P X => ?_, ?_⟩
      · rw [h1, e1]
      · rw [h2, e2]
      · rw [h3, e3]
        simp only [List.count_cons]
        by_cases hP : P = g
        · by_cases hX : X = c
          · subst hX; simp [hP]; omega
          · have : ¬ c = X := fun e => hX e.symm
            simp [hP, hX, this]
        · simp [hP]
      · rw [h4, e5]

theorem deleteOutputsLoop_total (g : Nat) : ∀ (cs : List Nat) (w : World),
    (∀ c, cs.count c ≤ inCnt w g c) → ∃ w1, deleteOutputsLoop g cs w = some w1 := by
  intro cs
  induction cs with
  | nil => intro w _; exact ⟨w, rfl⟩
  | cons c rest ih =>
    intro w hl
    unfold deleteOutputsLoop
    have hpos : 0 < inCnt w g c := by
      have := hl c
      simp only [List.count_cons_self] at this
      omega
    obtain ⟨w0, hw0⟩ := remove_single_input_total hpos
    simp only [hw0]
    apply ih
    intro x
    obtain ⟨_, _, e3, _, _⟩ := remove_single_input_effect hw0
    rw [e3]
    have := hl x
    simp only [List.count_cons] at this
    by_cases hx : x = c
    · subst hx; simp at this ⊢; omega
    · have h2 : ¬ c = x := fun e => hx e.symm
      simp [hx, h2] at this ⊢
      exact this

theorem delete_inv {w w3 : World} {g : Nat} (h : nand_delete w (some g) = some w3) :
    ∃ G w1 G1 w2, w.gate g = some G ∧ deleteInputsLoop g G.inputs w = some w1 ∧
      w1.gate g = some G1 ∧ deleteOutputsLoop g G1.outputs w1 = some w2 ∧ w3 = w2.free g := by
  unfold nand_delete at h
  simp only at h
  cases hG : w.gate g with
  | none => simp [hG] at h
  | some G =>
    simp only [hG] at h
    cases h1 : deleteInputsLoop g G.inputs w with
    | none => simp [h1] at h
    | some w1 =>
      simp only [h1] at h
      cases hG1 : w1.gate g with
      | none => simp [hG1] at h
      | some G1 =>
        simp only [hG1] at h
        cases h2 : deleteOutputsLoop g G1.outputs w1 with
        | none => simp [h2] at h
        | some w2 =>
          simp only [h2, Option.some.injEq] at h
          exact ⟨G, w1, G1, w2, rfl, h1, hG1, h2, h.symm⟩

theorem outCnt_free (w : World) (g P X : Nat) :
    outCnt (w.free g) P X = if P = g then 0 else outCnt w P X := by
  unfold outCnt
  rw [gate_free]
  by_cases hP : g = P
  · subst hP; simp
  · have : ¬ P = g := fun e => hP e.symm
    simp [hP, this]

theorem inCnt_free (w : World) (g P X : Nat) :
    inCnt (w.free g) P X = if X = g then 0 else inCnt w P X := by
  unfold inCnt
  rw [gate_free]
  by_cases hX : g = X
  · subst hX; simp
  · have : ¬ X = g := fun e => hX e.symm
    simp [hX, this]

/-- Effect of `nand_delete (g)`: the cell of `g` is released, the other gates
stay, the output lists of the others lose as many entries `g` as `g` had slots
bound to them, and the consumers lose as many slots bound to `g` as `g` listed
them. -/
theorem delete_effect {w w3 : World} {g : Nat} (h : nand_delete w (some g) = some w3) :
    ∃ G, w.gate g = some G ∧ w3.gate g = none ∧
      (∀ b, b ≠ g → (w3.gate b).isSome = (w.gate b).isSome) ∧
      (∀ P X, P ≠ g → outCnt w3 P X = outCnt w P X - (if X = g then slotCount P G else 0)) ∧
      (∀ P X, X ≠ g → inCnt w3 P X = inCnt w P X - (if P = g then outCnt w g X else 0)) ∧
      w3.errno = w.errno := by
  obtain ⟨G, w1, G1, w2, hG, h1, hG1, h2, rfl⟩ := delete_inv h
  obtain ⟨a1, a2, a3, a4⟩ := deleteInputsLoop_effect g G.inputs w w1 h1
  obtain ⟨b1, b2, b3, b4⟩ := deleteOutputsLoop_effect g G1.outputs w1 w2 h2
  refine ⟨G, hG, by simp [gate_free], fun b hb => ?_, fun P X hP => ?_, fun P X hX => ?_, ?_⟩
  · rw [gate_free, if_neg (Ne.symm hb), b1, a1]
  · rw [outCnt_free, if_neg hP, b2, a3]
    rfl
  · rw [inCnt_free, if_neg hX, b3, inCnt_congr (a2 X)]
    by_cases hP : P = g
    · subst hP
      simp only [if_true]
      rw [← outCnt_of_gate hG1, a3, if_neg hX, Nat.sub_zero]
    · simp [hP]
  · show w2.errno = w.errno
    rw [b4, a4]

/-- The correspondence invariant holds on the gates that survive `nand_delete`. -/
theorem corr_delete {w w3 : World} {g : Option Nat} (hcorr : Corr w)
    (h : nand_delete w g = some w3) : Corr w3 := by
  cases g with
  | none =>
    simp only [nand_delete, Option.some.injEq] at h
    subst h
    exact hcorr
  | some g =>
    obtain ⟨G, hG, hg3, hlive, hout, hin, _⟩ := delete_effect h
    rw [corr_iff_cnt] at hcorr ⊢
    intro P X hP hX
    have hPg : P ≠ g := by
      rintro rfl
      simp [hg3] at hP
    have hXg : X ≠ g := by
      rintro rfl
      simp [hg3] at hX
    rw [hlive P hPg] at hP
    rw [hlive X hXg] at hX
    rw [hout P X hPg, hin P X hXg, if_neg hXg, if_neg hPg]
    simpa using hcorr P X hP hX

/-- On a graph without dangling pointers that satisfies the correspondence
invariant, `nand_delete` of a live gate returns. -/
theorem delete_total {w : World} {g : Nat} {G : NandGate} (hcl : Closed w) (hcorr : Corr w)
    (hG : w.gate g = some G) : ∃ w3, nand_delete w (some g) = some w3 := by
  rw [closed_iff] at hcl
  rw [corr_iff_cnt] at hcorr
  obtain ⟨w1, h1⟩ := deleteInputsLoop_total g G.inputs w (hcl g G hG).1
  obtain ⟨a1, a2, a3, _⟩ := deleteInputsLoop_effect g G.inputs w w1 h1
  have hlive1 : (w1.gate g).isSome = true := by rw [a1, hG]; rfl
  obtain ⟨G1, hG1⟩ := Option.isSome_iff_exists.mp hlive1
  have hcount : ∀ c, G1.outputs.count c ≤ inCnt w1 g c := by
    intro c
    rw [← outCnt_of_gate hG1, a3, inCnt_congr (a2 c)]
    by_cases hc : (w.gate c).isSome = true
    · have := hcorr g c (by rw [hG]; rfl) hc
      omega
    · have hz : outCnt w g c = 0 := by
        rw [outCnt_of_gate hG, List.count_eq_zero]
        intro hmem
        exact hc ((hcl g G hG).2 c hmem)
      omega
  obtain ⟨w2, h2⟩ := deleteOutputsLoop_total g G1.outputs w1 hcount
  exact ⟨w2.free g, by simp [nand_delete, hG, h1, hG1, h2]⟩

theorem count_eq_zero_of_outCnt {w : World} {h g : Nat} {H : NandGate} (hH : w.gate h = some H)
    (hz : outCnt w h g = 0) : g ∉ H.outputs := by
  rw [outCnt_of_gate hH, List.count_eq_zero] at hz
  exact hz

theorem slots_ne_of_inCnt {w : World} {h g : Nat} {H : NandGate} (hH : w.gate h = some H)
    (hz : inCnt w g h = 0) : ∀ inp ∈ H.inputs, inp.gate ≠ some g := by
  rw [inCnt_of_gate hH] at hz
  unfold slotCount at hz
  rw [List.countP_eq_zero] at hz
  intro inp hmem
  simpa using hz inp hmem

/-! ## Freshly created gates -/

theorem gate_nand_new (w : World) (n a : Nat) (G : NandGate)
    (h : (nand_new w n true true true).1.gate a = some G) :
    w.gate a = some G ∨ G = ⟨List.replicate n ⟨none, none⟩, false, []⟩ := by
  simp only [nand_new, Bool.true_eq_false, if_false, World.gate] at h
  by_cases ha : a < w.heap.length
  · rw [List.getElem?_append_left ha] at h
    exact Or.inl h
  · rw [List.getElem?_append_right (by omega)] at h
    right
    cases hx : a - w.heap.length with
    | zero => simp [hx] at h; exact h.symm
    | succ j => simp [hx] at h

theorem freshGraph_gate : ∀ (ns : List Nat) (a : Nat) (G : NandGate),
    (freshGraph ns).gate a = some G →
    G.outputs = [] ∧ ∀ inp ∈ G.inputs, inp = ⟨none, none⟩ := by
  intro ns
  induction ns with
  | nil =>
    intro a G h
    simp [freshGraph, World.gate] at h
  | cons n rest ih =>
    intro a G h
    rcases gate_nand_new _ n a G h with h1 | h1
    · exact ih a G h1
    · subst h1
      exact ⟨rfl, fun inp hmem => (List.mem_replicate.mp hmem).2⟩

theorem corr_freshGraph (ns : List Nat) : Corr (freshGraph ns) := by
  rw [corr_iff]
  intro P C GP GC hP hC
  obtain ⟨ho, _⟩ := freshGraph_gate ns P GP hP
  obtain ⟨_, hi⟩ := freshGraph_gate ns C GC hC
  rw [ho]
  unfold slotCount
  symm
  simp only [List.count_nil, List.countP_eq_zero]
  intro inp hmem
  rw [hi inp hmem]
  simp

/-! ## Connection: return on well-formed graphs, and what `nand_input` sees -/

/-- On a graph without dangling pointers and with exclusive slots,
`nand_connect_nand` with live gates, a slot in range and a successful
allocation returns `SUCCESS`. -/
theorem connect_nand_total {w : World} {o c k : Nat} {C : NandGate} (hcl : Closed w)
    (hex : Excl w) (hO : (w.gate o).isSome = true) (hC : w.gate c = some C)
    (hk : k < C.inputs.length) :
    ∃ w3, nand_connect_nand w (some o) (some c) k true = some (w3, SUCCESS) := by
  obtain ⟨O, hO⟩ := Option.isSome_iff_exists.mp hO
  rw [closed_iff] at hcl
  rw [excl_iff] at hex
  obtain ⟨slot, hslot, hmem⟩ : ∃ slot, C.inputs[k]? = some slot ∧ slot ∈ C.inputs :=
    ⟨C.inputs.get ⟨k, hk⟩, by rw [List.getElem?_eq_getElem hk]; rfl, List.get_mem _ _ _⟩
  have hin : ((w.setGate o { O with outputs := c :: O.outputs }).gate c).bind
      (fun C1 => C1.inputs[k]?) = C.inputs[k]? := by
    rw [gate_setGate w o c _ (gate_lt hO)]
    split_ifs with hoc
    · subst hoc
      rw [hO] at hC
      simp only [Option.some.injEq] at hC
      subst hC
      simp
    · simp [hC]
  have hnk : ¬ C.n ≤ k := by unfold NandGate.n; omega
  have hlive1 : ∀ b, ((w.setGate o { O with outputs := c :: O.outputs }).gate b).isSome
      = (w.gate b).isSome := fun b => isSome_setGate _ hO b
  have hin1 : ∀ b, ((w.setGate o { O with outputs := c :: O.outputs }).gate b).map
      NandGate.inputs = (w.gate b).map NandGate.inputs := fun b => setGate_outputs_inputs _ hO b
  have hset : ∀ (w2 : World) (inp : Input),
      (w2.gate c).map NandGate.inputs = (w.gate c).map NandGate.inputs →
      ∃ w3, setSlot w2 c k inp = some w3 := by
    intro w2 inp h2
    rw [hC] at h2
    cases hC2 : w2.gate c with
    | none => simp [hC2] at h2
    | some C2 =>
      simp only [hC2, Option.map_some', Option.some.injEq] at h2
      exact ⟨_, setSlot_isSome inp hC2 (by rw [h2]; exact hk)⟩
  have hexs := hex c C hC slot hmem
  have hcls := (hcl c C hC).1 slot hmem
  unfold nand_connect_nand
  simp only [hC, hnk, if_false, Bool.true_eq_false, hO, hin, hslot]
  rcases slot with ⟨sg, ss⟩
  cases sg with
  | none =>
    cases ss with
    | none =>
      obtain ⟨w3, hw3⟩ := hset _ ⟨some o, none⟩ (hin1 c)
      exact ⟨w3, by simp [hw3]⟩
    | some sv =>
      obtain ⟨w3, hw3⟩ := hset _ ⟨some o, none⟩ (hin1 c)
      exact ⟨w3, by simp [hw3]⟩
  | some old =>
    cases ss with
    | some sv => simp at hexs
    | none =>
      have hold : (w.gate old).isSome = true := hcls old rfl
      obtain ⟨w2, hw2⟩ := remove_output_isSome
        (w := w.setGate o { O with outputs := c :: O.outputs }) c (by rw [hlive1]; exact hold)
      obtain ⟨w3, hw3⟩ := hset w2 ⟨some o, none⟩
        (by rw [remove_output_inputs hw2, hin1])
      exact ⟨w3, by simp [hw2, hw3]⟩

theorem nand_input_of_slot {w : World} {c k p : Nat} {C : NandGate} {s : Option Nat}
    (hC : w.gate c = some C) (hslot : C.inputs[k]? = some ⟨some p, s⟩) :
    nand_input w (some c) k = some (w, VoidPtr.gate p) := by
  have hk : k < C.inputs.length := by
    by_contra hlt
    rw [List.getElem?_eq_none (by omega)] at hslot
    simp at hslot
  have hnk : ¬ C.n ≤ k := by unfold NandGate.n; omega
  simp [nand_input, hC, hnk, hslot]

/-! ## Claims on the graph structure -/

/-- C1. The bidirectional-correspondence invariant holds on every graph of
freshly created gates and is kept by every returning call of
`nand_connect_nand` and `nand_connect_signal`, successful or failing, and by
`nand_delete` on the surviving gates. -/
theorem C1_correspondence_invariant :
    (∀ ns, Corr (freshGraph ns)) ∧
    (∀ w og ig k m w1 r, Corr w → nand_connect_nand w og ig k m = some (w1, r) → Corr w1) ∧
    (∀ w sg gt k w1 r, Corr w → nand_connect_signal w sg gt k = some (w1, r) → Corr w1) ∧
    (∀ w g w1, Corr w → nand_delete w g = some w1 → Corr w1) :=
  ⟨corr_freshGraph,
    fun _ _ _ _ _ _ _ hc h => corr_connect_nand hc h,
    fun _ _ _ _ _ _ hc h => corr_connect_signal hc h,
    fun _ _ _ hc h => corr_delete hc h⟩

/-- Instances of C1 on a network with a self-loop and a double edge: rewiring a
slot to another producer, rewiring it to the producer it already has, a failing
call, binding a constant, and deleting a gate. -/
theorem C1_correspondence_invariant_witness :
    Corr netLoop ∧ Corr netLoopRewired ∧ Corr netLoopSignal ∧ Corr netLoopDeleted :=
  ⟨C1_correspondence_invariant.2.1 netLoop (some 0) (some 1) 0 true netLoop SUCCESS
      (by decide) (by decide),
    C1_correspondence_invariant.2.1 netLoop (some 1) (some 0) 0 true netLoopRewired SUCCESS
      (by decide) (by decide),
    C1_correspondence_invariant.2.2.1 netLoop (some 7) (some 0) 0 netLoopSignal SUCCESS
      (by decide) (by decide),
    C1_correspondence_invariant.2.2.2 netLoop (some 0) netLoopDeleted (by decide) (by decide)⟩

/-- C2, as stated, fails: in `netAB` slot 0 of gate `1` is already bound to gate
`0`; connecting gate `0` to that slot again succeeds and leaves exactly one
entry `1` in the output list of gate `0`, not one more than before. -/
theorem C2_counterexample :
    Closed netAB ∧ Corr netAB ∧ Excl netAB ∧
    ∃ w1, nand_connect_nand netAB (some 0) (some 1) 0 true = some (w1, SUCCESS) ∧
      outCnt netAB 0 1 = 1 ∧ outCnt w1 0 1 = 1 :=
  ⟨by decide, by decide, by decide, netAB, by decide, by decide, by decide⟩

/-- C2, amended. For a live consumer `C` and `k < C.n`: after any successful
`nand_connect_nand (P, C, k)`, `nand_input (C, k)` returns `P`, and the number
of entries `C` in the output list of `P` is one more than before, except when
slot `k` was already bound to `P`, where it is unchanged.  On a graph without
dangling pointers and with exclusive slots the call does succeed for every live
`P` (the allocation succeeding). -/
theorem C2_connect_nand_binds (w : World) (P C k : Nat) (GC : NandGate)
    (hC : w.gate C = some GC) (hk : k < GC.n) :
    (∀ m w1, nand_connect_nand w (some P) (some C) k m = some (w1, SUCCESS) →
      nand_input w1 (some C) k = some (w1, VoidPtr.gate P) ∧
      outCnt w1 P C = outCnt w P C +
        (if (GC.inputs[k]?).bind Input.gate = some P then 0 else 1)) ∧
    (Closed w → Excl w → (w.gate P).isSome = true →
      ∃ w1, nand_connect_nand w (some P) (some C) k true = some (w1, SUCCESS)) := by
  refine ⟨fun m w3 h => ?_, fun hcl hex hP => connect_nand_total hcl hex hP hC hk⟩
  rcases connect_nand_inv h with ⟨hr, _⟩ |
    ⟨_, _, o, c, C0, O, slot, w2, ho, hc, hC0, hO, hk0, hslot, h2, h3⟩
  · simp [SUCCESS, FAIL] at hr
  · simp only [Option.some.injEq] at ho hc
    subst ho; subst hc
    obtain ⟨_, hout, _, ⟨C3, hC3, hC3in⟩, _, _⟩ := connect_nand_effect hC0 hO hk0 hslot h2 h3
    constructor
    · apply nand_input_of_slot hC3 (s := none)
      rw [hC3in, List.getElem?_set]
      simp [hk0]
    · rw [hC] at hC0
      simp only [Option.some.injEq] at hC0
      subst hC0
      rw [hout, hslot]
      simp only [and_self, if_true, and_true, Option.some_bind]
      split_ifs <;> omega

/-- Instance of the amended C2: rewiring slot 0 of gate `0` of `netLoop` from
gate `0` itself to gate `1` gives `netLoopRewired`. -/
theorem C2_connect_nand_binds_witness :
    (nand_input netLoopRewired (some 0) 0 = some (netLoopRewired, VoidPtr.gate 1) ∧
      outCnt netLoopRewired 1 0 = outCnt netLoop 1 0 +
        (if (([⟨some 0, none⟩, ⟨some 1, none⟩] : List Input)[0]?).bind Input.gate = some 1
          then 0 else 1)) ∧
    ∃ w1, nand_connect_nand netLoop (some 1) (some 0) 0 true = some (w1, SUCCESS) :=
  ⟨(C2_connect_nand_binds netLoop 1 0 0 ⟨[⟨some 0, none⟩, ⟨some 1, none⟩], false, [0, 1, 1]⟩
      (by decide) (by decide)).1 true netLoopRewired (by decide),
    (C2_connect_nand_binds netLoop 1 0 0 ⟨[⟨some 0, none⟩, ⟨some 1, none⟩], false, [0, 1, 1]⟩
      (by decide) (by decide)).2 (by decide) (by decide) (by decide)⟩

/-- C3. On a graph that satisfies the correspondence invariant, after
`nand_delete (g)` of a live gate the cell of `g` is released, no surviving gate
has an input slot whose gate field is `g`, and no surviving gate's output list
has an entry `g`.  When the graph has no dangling pointers the call returns. -/
theorem C3_delete_leaves_no_reference (w : World) (g : Nat) (hcorr : Corr w)
    (hg : (w.gate g).isSome = true) :
    (∀ w1, nand_delete w (some g) = some w1 → w1.gate g = none ∧
      ∀ h H, w1.gate h = some H →
        (∀ inp ∈ H.inputs, inp.gate ≠ some g) ∧ g ∉ H.outputs) ∧
    (Closed w → ∃ w1, nand_delete w (some g) = some w1) := by
  obtain ⟨G, hG⟩ := Option.isSome_iff_exists.mp hg
  refine ⟨fun w3 hdel => ?_, fun hcl => delete_total hcl hcorr hG⟩
  obtain ⟨G', hG', hg3, hlive, hout, hin, _⟩ := delete_effect hdel
  rw [hG] at hG'
  simp only [Option.some.injEq] at hG'
  subst hG'
  refine ⟨hg3, fun h H hH => ?_⟩
  have hhg : h ≠ g := by
    rintro rfl
    rw [hg3] at hH
    simp at hH
  have hliveh : (w.gate h).isSome = true := by
    rw [← hlive h hhg, hH]; rfl
  rw [corr_iff_cnt] at hcorr
  constructor
  · apply slots_ne_of_inCnt hH
    rw [hin g h hhg, if_pos rfl, hcorr g h hg hliveh]
    omega
  · apply count_eq_zero_of_outCnt hH
    rw [hout h g hhg, if_pos rfl, hcorr h g hliveh hg, inCnt_of_gate hG]
    omega

/-- Instance of C3: deleting gate `0` of `netLoop`, which has a self-loop and
feeds both slots of gate `1`, gives `netLoopDeleted`. -/
theorem C3_delete_leaves_no_reference_witness :
    (netLoopDeleted.gate 0 = none ∧
      ∀ h H, netLoopDeleted.gate h = some H →
        (∀ inp ∈ H.inputs, inp.gate ≠ some 0) ∧ 0 ∉ H.outputs) ∧
    ∃ w1, nand_delete netLoop (some 0) = some w1 :=
  ⟨(C3_delete_leaves_no_reference netLoop 0 (by decide) (by decide)).1 netLoopDeleted
      (by decide),
    (C3_delete_leaves_no_reference netLoop 0 (by decide) (by decide)).2 (by decide)⟩

/-! ## Evaluation: supporting lemmas -/

theorem setVisited_eq {w w1 : World} {a : Nat} {b : Bool} (h : w.setVisited a b = some w1) :
    ∃ G, w.gate a = some G ∧ w1 = w.setGate a { G with visited := b } := by
  unfold World.setVisited at h
  cases hG : w.gate a with
  | none => simp [hG] at h
  | some G =>
    simp only [hG, Option.some.injEq] at h
    exact ⟨G, rfl, h.symm⟩

theorem setVisited_of_gate {w : World} {a : Nat} {G : NandGate} (b : Bool)
    (h : w.gate a = some G) :
    w.setVisited a b = some (w.setGate a { G with visited := b }) := by
  simp [World.setVisited, h]

theorem setGate_visited_inputs {w : World} {g : Nat} {G : NandGate} (v : Bool)
    (hG : w.gate g = some G) (b : Nat) :
    ((w.setGate g { G with visited := v }).gate b).map NandGate.inputs =
      (w.gate b).map NandGate.inputs := by
  rw [gate_setGate w g b _ (gate_lt hG)]
  split_ifs with hb
  · subst hb; simp [hG]
  · rfl

theorem edge_congr {w w1 : World}
    (h : ∀ a, (w1.gate a).map NandGate.inputs = (w.gate a).map NandGate.inputs) :
    Edge w1 = Edge w := by
  funext a p
  apply propext
  have ha := h a
  unfold Edge producers
  constructor
  · rintro ⟨H, hH, hp⟩
    rw [hH] at ha
    cases hH0 : w.gate a with
    | none => simp [hH0] at ha
    | some H0 =>
      simp only [hH0, Option.map_some', Option.some.injEq] at ha
      exact ⟨H0, rfl, by rw [← ha]; exact hp⟩
  · rintro ⟨H, hH, hp⟩
    rw [hH] at ha
    cases hH1 : w1.gate a with
    | none => simp [hH1] at ha
    | some H1 =>
      simp only [hH1, Option.map_some', Option.some.injEq] at ha
      exact ⟨H1, rfl, by rw [ha]; exact hp⟩

theorem refEval_congr {w w1 : World}
    (h : ∀ a, (w1.gate a).map NandGate.inputs = (w.gate a).map NandGate.inputs) :
    ∀ fuel, refEval fuel w1 = refEval fuel w := by
  intro fuel
  induction fuel with
  | zero => funext g; rfl
  | succ fuel ih =>
    funext g
    have hg := h g
    unfold refEval
    rw [ih]
    cases h1 : w1.gate g with
    | none =>
      cases h0 : w.gate g with
      | none => rfl
      | some G0 => simp [h1, h0] at hg
    | some G1 =>
      cases h0 : w.gate g with
      | none => simp [h1, h0] at hg
      | some G0 =>
        simp only [h1, h0, Option.map_some', Option.some.injEq] at hg
        simp only [NandGate.n, producers, hg]

theorem cleared_refl (w : World) : Cleared w w := by
  refine ⟨rfl, fun _ => rfl, fun a G G1 h h1 => ?_⟩
  rw [h] at h1
  simp only [Option.some.injEq] at h1
  subst h1
  exact ⟨rfl, rfl, id⟩

theorem cleared_hit {w : World} {g : Nat} {G : NandGate} (e : Int) (hG : w.gate g = some G) :
    Cleared w ((w.setErrno e).setGate g { G with visited := false }) := by
  have hG' : (w.setErrno e).gate g = some G := hG
  refine ⟨by simp [World.setGate, World.setErrno], fun a => ?_, fun a H H1 h h1 => ?_⟩
  · rw [isSome_setGate _ hG']; rfl
  · rw [gate_setGate _ g a _ (gate_lt hG')] at h1
    by_cases hga : g = a
    · subst hga
      rw [hG] at h
      simp only [if_true, Option.some.injEq] at h h1
      subst h; subst h1
      exact ⟨rfl, rfl, by simp⟩
    · rw [if_neg hga] at h1
      have h2 : w.gate a = some H1 := h1
      rw [h] at h2
      simp only [Option.some.injEq] at h2
      subst h2
      exact ⟨rfl, rfl, id⟩

theorem cleared_unmark {w w2 w3 : World} {g : Nat} {G : NandGate} (hG : w.gate g = some G)
    (hc : Cleared (w.setGate g { G with visited := true }) w2)
    (h3 : w2.setVisited g false = some w3) : Cleared w w3 := by
  obtain ⟨hlen, hlive, hgates⟩ := hc
  obtain ⟨G2, hG2, rfl⟩ := setVisited_eq h3
  refine ⟨?_, fun a => ?_, fun a H H3 h h3' => ?_⟩
  · rw [length_setGate, hlen, length_setGate]
  · rw [isSome_setGate _ hG2, hlive, isSome_setGate _ hG]
  · rw [gate_setGate _ g a _ (gate_lt hG2)] at h3'
    by_cases hga : g = a
    · subst hga
      rw [hG] at h
      simp only [if_true, Option.some.injEq] at h h3'
      subst h; subst h3'
      obtain ⟨hi, ho, _⟩ := hgates g _ G2 (gate_setGate_self hG) hG2
      exact ⟨hi, ho, by simp⟩
    · rw [if_neg hga] at h3'
      exact hgates a H H3 (by rw [gate_setGate_ne _ hga]; exact h) h3'

theorem gate_of_lt {w : World} {a : Nat} (h : a < w.heap.length) :
    w.heap[a]? = some (w.gate a) := by
  unfold World.gate
  rw [List.getElem?_eq_getElem h]
  simp

/-- Lowering flags of a state in which no flag is set changes nothing. -/
theorem heap_eq_of_cleared {w w1 : World} (hu : AllUnvisited w) (hc : Cleared w w1) :
    w1.heap = w.heap := by
  obtain ⟨hlen, hlive, hgates⟩ := hc
  rw [allUnvisited_iff] at hu
  apply List.ext_getElem?
  intro a
  by_cases ha : a < w.heap.length
  · rw [gate_of_lt ha, gate_of_lt (by omega)]
    congr 1
    have hl := hlive a
    cases h1 : w1.gate a with
    | none =>
      cases h0 : w.gate a with
      | none => rfl
      | some G => simp [h1, h0] at hl
    | some G1 =>
      cases h0 : w.gate a with
      | none => simp [h1, h0] at hl
      | some G =>
        obtain ⟨hi, ho, hv⟩ := hgates a G G1 h0 h1
        have hvG := hu a G h0
        have hv1 : G1.visited = false := by
          cases hx : G1.visited with
          | false => rfl
          | true => rw [hv hx] at hvG; exact absurd hvG (by simp)
        cases G; cases G1
        simp only at hi ho hv1 hvG
        subst hi; subst ho; subst hv1; subst hvG
        rfl
  · rw [List.getElem?_eq_none (by omega), List.getElem?_eq_none (by omega)]

theorem foldl_max_ge (l : List Int) : ∀ d : Int, d ≤ l.foldl max d := by
  induction l with
  | nil => intro d; exact le_refl d
  | cons x rest ih =>
    intro d
    simp only [List.foldl_cons]
    exact le_trans (le_max_left d x) (ih (max d x))

/-! ## Evaluation: the loop and the recursion -/

theorem evalLoop_spec {recur : World → Nat → Bool → Option (World × Int × Bool)}
    {ref : World → Nat → Option (Bool × Int)} (hrec : RecSpec recur ref) (g : Nat) :
    ∀ (slots : List Input) (w : World) (allTrue : Bool) (depth : Int) (sig : Bool)
      (w1 : World) (r : Int) (sig1 : Bool), 0 ≤ depth →
      evalLoop recur g slots w allTrue depth sig = some (w1, r, sig1) →
      (r ≠ FAIL → w.setVisited g false = some w1 ∧
        (∀ p ∈ slots.filterMap Input.gate, ¬ Blocked w p) ∧
        ∃ rs, refInputs (ref w) (slots.filterMap Input.gate) = some rs ∧
          sig1 = !(allTrue && rs.all (fun x => x.1)) ∧
          r = (rs.map (fun x => x.2)).foldl max depth + 1) ∧
      (r = FAIL → (∃ p ∈ slots.filterMap Input.gate, Blocked w p) ∧
        w1.errno = ECANCELED ∧ sig1 = sig ∧
        ∃ w2, Cleared w w2 ∧ w2.setVisited g false = some w1) := by
  intro slots
  induction slots with
  | nil =>
    intro w allTrue depth sig w1 r sig1 hd h
    simp only [evalLoop, Option.map_eq_some', Prod.mk.injEq] at h
    obtain ⟨w', hw', rfl, rfl, rfl⟩ := h
    constructor
    · intro _
      exact ⟨hw', by simp, [], rfl, by simp, by simp⟩
    · intro hr
      simp only [FAIL] at hr
      omega
  | cons inp rest ih =>
    intro w allTrue depth sig w1 r sig1 hd h
    unfold evalLoop at h
    cases hg : inp.gate with
    | none =>
      simp only [hg] at h
      have := ih w allTrue depth sig w1 r sig1 hd h
      simpa [List.filterMap_cons, hg] using this
    | some p =>
      simp only [hg] at h
      cases hcall : recur w p false with
      | none => simp [hcall] at h
      | some res =>
        obtain ⟨w', eval, ts⟩ := res
        simp only [hcall] at h
        obtain ⟨hok, hfail⟩ := hrec w p false w' eval ts hcall
        by_cases he : eval = FAIL
        · simp only [he, if_true, Option.map_eq_some', Prod.mk.injEq] at h
          obtain ⟨w2, hw2, rfl, rfl, rfl⟩ := h
          obtain ⟨hb, herr, _, hcl⟩ := hfail he
          constructor
          · intro hne; exact absurd rfl hne
          · intro _
            refine ⟨⟨p, by simp [List.filterMap_cons, hg], hb⟩, ?_, rfl, w', hcl, hw2⟩
            obtain ⟨G', _, rfl⟩ := setVisited_eq hw2
            exact herr
        · simp only [he, if_false] at h
          obtain ⟨rfl, hnb, href, hpos⟩ := hok he
          have hd' : (0 : Int) ≤ (if eval > depth then eval else depth) := by
            split_ifs <;> omega
          obtain ⟨ihok, ihfail⟩ := ih w' _ _ sig w1 r sig1 hd' h
          constructor
          · intro hr
            obtain ⟨hset, hall, rs, hrs, hsig, hdep⟩ := ihok hr
            refine ⟨hset, ?_, (ts, eval) :: rs, ?_, ?_, ?_⟩
            · intro q hq
              simp only [List.filterMap_cons, hg, List.mem_cons] at hq
              rcases hq with rfl | hq
              · exact hnb
              · exact hall q hq
            · simp [List.filterMap_cons, hg, refInputs, href, hrs]
            · rw [hsig]
              cases ts <;> cases allTrue <;> simp
            · rw [hdep]
              simp only [List.map_cons, List.foldl_cons]
              congr 2
              rw [max_def]
              split_ifs <;> omega
          · intro hr
            obtain ⟨⟨q, hq, hqb⟩, herr, hsig, hw2⟩ := ihfail hr
            exact ⟨⟨q, by simp [List.filterMap_cons, hg, hq], hqb⟩, herr, hsig, hw2⟩

theorem marked_mark_self {w : World} {g : Nat} {G : NandGate} (hG : w.gate g = some G)
    (hn : G.n ≠ 0) : Marked (w.setGate g { G with visited := true }) g :=
  ⟨_, gate_setGate_self hG, hn, rfl⟩

theorem marked_mark_of_marked {w : World} {g h : Nat} {G : NandGate} (hG : w.gate g = some G)
    (hn : G.n ≠ 0) (hm : Marked w h) : Marked (w.setGate g { G with visited := true }) h := by
  by_cases hgh : g = h
  · subst hgh; exact marked_mark_self hG hn
  · obtain ⟨H, hH, h1, h2⟩ := hm
    exact ⟨H, by rw [gate_setGate_ne _ hgh]; exact hH, h1, h2⟩

theorem marked_of_marked_mark {w : World} {g h : Nat} {G : NandGate}
    (hm : Marked (w.setGate g { G with visited := true }) h) (hgh : g ≠ h) : Marked w h := by
  obtain ⟨H, hH, h1, h2⟩ := hm
  rw [gate_setGate_ne _ hgh] at hH
  exact ⟨H, hH, h1, h2⟩

theorem edge_mark {w : World} {g : Nat} {G : NandGate} (v : Bool) (hG : w.gate g = some G) :
    Edge (w.setGate g { G with visited := v }) = Edge w :=
  edge_congr (fun b => setGate_visited_inputs v hG b)

theorem not_blocked_of_arity_zero {w : World} {g : Nat} {G : NandGate} (hG : w.gate g = some G)
    (hn : G.n = 0) : ¬ Blocked w g := by
  have hnoedge : ∀ p, ¬ Edge w g p := by
    rintro p ⟨H, hH, hp⟩
    rw [hG] at hH
    simp only [Option.some.injEq] at hH
    subst hH
    unfold NandGate.n at hn
    have : G.inputs = [] := List.length_eq_zero.mp hn
    simp [producers, this] at hp
  rintro ⟨h, hreach, hbad⟩
  rcases Relation.ReflTransGen.cases_head hreach with rfl | ⟨p, hedge, _⟩
  · rcases hbad with ⟨H, hH, hn', _⟩ | hcyc
    · rw [hG] at hH
      simp only [Option.some.injEq] at hH
      subst hH
      exact hn' hn
    · obtain ⟨p, hedge, _⟩ := Relation.TransGen.head'_iff.mp hcyc
      exact hnoedge p hedge
  · exact hnoedge p hedge

/-- Partial correctness of `evaluate_gate`: a successful call changes nothing,
agrees with the reference evaluation and was not blocked; a cancelled call was
blocked, sets `errno` to `ECANCELED`, does not write `*signal` and only lowers
`visited` flags. -/
theorem evaluate_spec : ∀ fuel, RecSpec (evaluate_gate fuel) (refEval fuel) := by
  intro fuel
  induction fuel with
  | zero =>
    intro w p sig w1 r sig1 h
    simp [evaluate_gate] at h
  | succ fuel ih =>
    intro w g sig w1 r sig1 h
    unfold evaluate_gate at h
    cases hG : w.gate g with
    | none => simp [hG] at h
    | some G =>
    simp only [hG] at h
    by_cases hn : G.n = 0
    · simp only [hn, if_true, Option.some.injEq, Prod.mk.injEq] at h
      obtain ⟨rfl, rfl, rfl⟩ := h
      constructor
      · intro _
        exact ⟨rfl, not_blocked_of_arity_zero hG hn, by simp [refEval, hG, hn], le_refl _⟩
      · intro hr; simp [FAIL] at hr
    simp only [hn, if_false] at h
    by_cases hv : G.visited = true
    · simp only [hv, if_true, Option.some.injEq, Prod.mk.injEq] at h
      obtain ⟨rfl, rfl, rfl⟩ := h
      constructor
      · intro hne; exact absurd rfl hne
      · intro _
        exact ⟨⟨g, Relation.ReflTransGen.refl, Or.inl ⟨G, hG, hn, hv⟩⟩, rfl, rfl,
          cleared_hit ECANCELED hG⟩
    simp only [hv] at h
    have hvf : G.visited = false := by simpa using hv
    have hG1 : (w.setGate g { G with visited := true }).gate g = some { G with visited := true } :=
      gate_setGate_self hG
    have hedge : Edge (w.setGate g { G with visited := true }) = Edge w := edge_mark true hG
    obtain ⟨hok, hfail⟩ := evalLoop_spec ih g G.inputs _ true 0 sig w1 r sig1 (le_refl _) h
    constructor
    · intro hr
      obtain ⟨hset, hall, rs, hrs, hsig, hdep⟩ := hok hr
      have hw1 : w1 = w := by
        rw [setVisited_of_gate false hG1] at hset
        simp only [Option.some.injEq] at hset
        rw [← hset, setGate_setGate]
        apply setGate_same
        rw [hG]
        cases G
        simp only at hvf
        subst hvf
        rfl
      refine ⟨hw1, ?_, ?_, ?_⟩
      · rintro ⟨h', hreach, hbad⟩
        have hstep : ∀ p, Edge w g p → ∀ x, Relation.ReflTransGen (Edge w) p x →
            (Marked (w.setGate g { G with visited := true }) x ∨ OnCycle w x) → False := by
          intro p hep x hpx hx
          obtain ⟨H, hH, hp⟩ := hep
          rw [hG] at hH
          simp only [Option.some.injEq] at hH
          subst hH
          apply hall p hp
          refine ⟨x, by rw [hedge]; exact hpx, ?_⟩
          unfold OnCycle
          rw [hedge]
          exact hx
        rcases Relation.ReflTransGen.cases_head hreach with rfl | ⟨p, hep, hpx⟩
        · rcases hbad with ⟨H, hH, _, hHv⟩ | hcyc
          · rw [hG] at hH
            simp only [Option.some.injEq] at hH
            subst hH
            exact hv hHv
          · obtain ⟨p, hep, hpg⟩ := Relation.TransGen.head'_iff.mp hcyc
            exact hstep p hep g hpg (Or.inl (marked_mark_self hG hn))
        · rcases hbad with hm | hcyc
          · exact hstep p hep h' hpx (Or.inl (marked_mark_of_marked hG hn hm))
          · exact hstep p hep h' hpx (Or.inr hcyc)
      · have hcongr := refEval_congr (fun b => setGate_visited_inputs true hG b) fuel
        rw [hcongr] at hrs
        simp only [refEval, hG, hn, if_false]
        unfold producers
        rw [hrs, hsig, hdep]
        simp
      · rw [hdep]
        have := foldl_max_ge (rs.map fun x => x.2) 0
        omega
    · intro hr
      obtain ⟨⟨p, hp, x, hpx, hx⟩, herr, hsig, w2, hcl, hw2⟩ := hfail hr
      rw [hedge] at hpx
      have hgp : Edge w g p := ⟨G, hG, hp⟩
      refine ⟨?_, herr, hsig, cleared_unmark hG hcl hw2⟩
      rcases hx with hm | hcyc
      · by_cases hgx : g = x
        · subst hgx
          exact ⟨g, Relation.ReflTransGen.refl,
            Or.inr (Relation.TransGen.head'_iff.mpr ⟨p, hgp, hpx⟩)⟩
        · exact ⟨x, Relation.ReflTransGen.head hgp hpx, Or.inl (marked_of_marked_mark hm hgx)⟩
      · unfold OnCycle at hcyc
        rw [hedge] at hcyc
        exact ⟨x, Relation.ReflTransGen.head hgp hpx, Or.inr hcyc⟩

/-! ## Evaluation: termination -/

theorem visitedCount_le (w : World) : visitedCount w ≤ w.heap.length :=
  List.countP_le_length _

theorem visitedCount_mark {w : World} {g : Nat} {G : NandGate} (hG : w.gate g = some G)
    (hv : G.visited = false) :
    visitedCount (w.setGate g { G with visited := true }) = visitedCount w + 1 := by
  have hlt := gate_lt hG
  have hcell : w.heap[g] = some G := by
    have := gate_of_lt hlt
    rw [List.getElem?_eq_getElem hlt, hG] at this
    simpa using this
  unfold visitedCount World.setGate
  simp only
  rw [List.countP_set _ _ _ _ hlt, hcell]
  simp [hv]

theorem closed_mark {w : World} {g : Nat} {G : NandGate} (v : Bool) (hG : w.gate g = some G)
    (hcl : Closed w) : Closed (w.setGate g { G with visited := v }) := by
  rw [closed_iff] at hcl ⊢
  intro a H hH
  have hlive : ∀ b, ((w.setGate g { G with visited := v }).gate b).isSome = (w.gate b).isSome :=
    fun b => isSome_setGate _ hG b
  rw [gate_setGate w g a _ (gate_lt hG)] at hH
  by_cases hga : g = a
  · subst hga
    simp only [if_true, Option.some.injEq] at hH
    subst hH
    obtain ⟨h1, h2⟩ := hcl g G hG
    exact ⟨fun inp hi p hp => by rw [hlive]; exact h1 inp hi p hp,
      fun c hc => by rw [hlive]; exact h2 c hc⟩
  · rw [if_neg hga] at hH
    obtain ⟨h1, h2⟩ := hcl a H hH
    exact ⟨fun inp hi p hp => by rw [hlive]; exact h1 inp hi p hp,
      fun c hc => by rw [hlive]; exact h2 c hc⟩

theorem evalLoop_total {recur : World → Nat → Bool → Option (World × Int × Bool)}
    {ref : World → Nat → Option (Bool × Int)} (hrec : RecSpec recur ref) (g : Nat) (w : World)
    (hg : (w.gate g).isSome = true)
    (htot : ∀ p sig, (w.gate p).isSome = true → ∃ res, recur w p sig = some res) :
    ∀ (slots : List Input) (allTrue : Bool) (depth : Int) (sig : Bool),
      (∀ p ∈ slots.filterMap Input.gate, (w.gate p).isSome = true) →
      ∃ res, evalLoop recur g slots w allTrue depth sig = some res := by
  obtain ⟨G, hG⟩ := Option.isSome_iff_exists.mp hg
  intro slots
  induction slots with
  | nil =>
    intro allTrue depth sig _
    simp only [evalLoop, setVisited_of_gate false hG, Option.map_some']
    exact ⟨_, rfl⟩
  | cons inp rest ih =>
    intro allTrue depth sig hlive
    unfold evalLoop
    cases hgate : inp.gate with
    | none =>
      simp only
      apply ih
      intro p hp
      exact hlive p (by simp [List.filterMap_cons, hgate, hp])
    | some p =>
      simp only
      obtain ⟨⟨w', eval, ts⟩, hcall⟩ :=
        htot p false (hlive p (by simp [List.filterMap_cons, hgate]))
      obtain ⟨hok, hfail⟩ := hrec w p false w' eval ts hcall
      simp only [hcall]
      by_cases he : eval = FAIL
      · obtain ⟨_, _, _, _, hl, _⟩ := hfail he
        have : (w'.gate g).isSome = true := by rw [hl, hG]; rfl
        obtain ⟨G', hG'⟩ := Option.isSome_iff_exists.mp this
        simp only [he, if_true, setVisited_of_gate false hG', Option.map_some']
        exact ⟨_, rfl⟩
      · obtain ⟨rfl, _, _, _⟩ := hok he
        simp only [he, if_false]
        apply ih
        intro q hq
        exact hlive q (by simp [List.filterMap_cons, hgate, hq])

/-- Termination of `evaluate_gate`: on a graph without dangling pointers, a call
on a live gate returns whenever the fuel plus the number of set `visited` flags
exceeds the number of heap cells. -/
theorem evaluate_total : ∀ (fuel : Nat) (w : World) (g : Nat) (sig : Bool), Closed w →
    (w.gate g).isSome = true → w.heap.length + 1 ≤ fuel + visitedCount w →
    ∃ res, evaluate_gate fuel w g sig = some res := by
  intro fuel
  induction fuel with
  | zero =>
    intro w g sig _ _ hf
    have := visitedCount_le w
    omega
  | succ fuel ih =>
    intro w g sig hcl hg hf
    obtain ⟨G, hG⟩ := Option.isSome_iff_exists.mp hg
    unfold evaluate_gate
    simp only [hG]
    by_cases hn : G.n = 0
    · simp only [hn, if_true]
      exact ⟨_, rfl⟩
    by_cases hv : G.visited = true
    · simp only [hn, hv, if_true, if_false]
      exact ⟨_, rfl⟩
    simp only [hn, hv, if_false]
    have hvf : G.visited = false := by simpa using hv
    have hlive : ∀ b, ((w.setGate g { G with visited := true }).gate b).isSome =
        (w.gate b).isSome := fun b => isSome_setGate _ hG b
    apply evalLoop_total (evaluate_spec fuel) g _ (by rw [hlive]; exact hg)
    · intro p sig' hp
      apply ih _ p sig' (closed_mark true hG hcl) hp
      rw [visitedCount_mark hG hvf, length_setGate]
      omega
    · intro p hp
      rw [hlive]
      rw [closed_iff] at hcl
      simp only [List.mem_filterMap] at hp
      obtain ⟨inp, hinp, hpg⟩ := hp
      exact (hcl g G hG).1 inp hinp p hpg

theorem visitedCount_zero {w : World} (hu : AllUnvisited w) : visitedCount w = 0 := by
  rw [allUnvisited_iff] at hu
  unfold visitedCount
  rw [List.countP_eq_zero]
  intro cell hmem
  cases cell with
  | none => simp
  | some G =>
    obtain ⟨a, ha, hget⟩ := List.getElem_of_mem hmem
    have : w.gate a = some G := by
      unfold World.gate
      rw [List.getElem?_eq_getElem ha, hget]
      rfl
    simp [hu a G this]

theorem blocked_iff_reachesCycle {w : World} (hu : AllUnvisited w) (g : Nat) :
    Blocked w g ↔ ReachesCycle w g := by
  rw [allUnvisited_iff] at hu
  constructor
  · rintro ⟨h, hr, hm | hc⟩
    · obtain ⟨H, hH, _, hv⟩ := hm
      rw [hu h H hH] at hv
      exact absurd hv (by simp)
    · exact ⟨h, hr, hc⟩
  · rintro ⟨h, hr, hc⟩
    exact ⟨h, hr, Or.inr hc⟩

/-! ## Evaluation: acyclic graphs, self-loops -/

/-- A graph whose edges all go down along a rank has no cycle. -/
theorem not_reachesCycle_of_rank {w : World} (rank : Nat → Nat)
    (h : ∀ a p, Edge w a p → rank p < rank a) (g : Nat) : ¬ ReachesCycle w g := by
  have hlt : ∀ a b, Relation.TransGen (Edge w) a b → rank b < rank a := by
    intro a b hab
    induction hab with
    | single e => exact h _ _ e
    | tail _ e ih => exact lt_trans (h _ _ e) ih
  rintro ⟨x, _, hc⟩
  exact lt_irrefl _ (hlt x x hc)

theorem not_reachesCycle_of_descending {w : World} (h : Descending w) (g : Nat) :
    ¬ ReachesCycle w g := by
  apply not_reachesCycle_of_rank id
  rintro a p ⟨H, hH, hp⟩
  exact h a (gate_lt hH) H hH p hp

theorem connect_nand_visited {w w3 : World} {og ig : Option Nat} {k : Nat} {m : Bool} {r : Int}
    (h : nand_connect_nand w og ig k m = some (w3, r)) (b : Nat) :
    (w3.gate b).map NandGate.visited = (w.gate b).map NandGate.visited := by
  have hset : ∀ (u : World) (a : Nat) (G : NandGate) (i : List Input) (l : List Nat),
      u.gate a = some G →
      ((u.setGate a ⟨i, G.visited, l⟩).gate b).map NandGate.visited =
        (u.gate b).map NandGate.visited := by
    intro u a G i l hG
    rw [gate_setGate u a b _ (gate_lt hG)]
    split_ifs with hab
    · subst hab; simp [hG]
    · rfl
  rcases connect_nand_inv h with ⟨_, hheap, _⟩ |
    ⟨_, _, o, c, C, O, slot, w2, rfl, rfl, hC, hO, hk, hslot, h2, h3⟩
  · unfold World.gate
    rw [hheap]
  · obtain ⟨C2, hC2, _, rfl⟩ := setSlot_eq h3
    refine (hset w2 c C2 _ _ hC2).trans ?_
    rcases h2 with ⟨_, rfl⟩ | ⟨old, _, _, hrem⟩
    · exact hset w o O _ _ hO
    · obtain ⟨S, hS, rfl⟩ := remove_output_eq hrem
      exact (hset _ old S _ _ hS).trans (hset w o O _ _ hO)

/-- A gate whose slot 0 is bound to the gate itself is cancelled at once. -/
theorem evaluate_self_loop {w : World} {g : Nat} {G : NandGate} {s : Option Nat}
    {rest : List Input} (fuel : Nat) (sig : Bool) (hG : w.gate g = some G)
    (hv : G.visited = false) (hin : G.inputs = ⟨some g, s⟩ :: rest) :
    evaluate_gate (fuel + 2) w g sig = some (w.setErrno ECANCELED, FAIL, sig) := by
  have hn : G.n ≠ 0 := by simp [NandGate.n, hin]
  have hG1 : (w.setGate g { G with visited := true }).gate g = some { G with visited := true } :=
    gate_setGate_self hG
  have hG1' : ((w.setGate g { G with visited := true }).setErrno ECANCELED).gate g =
      some { G with visited := true } := hG1
  have hG2 : (((w.setGate g { G with visited := true }).setErrno ECANCELED).setGate
      g { G with visited := false }).gate g = some { G with visited := false } :=
    gate_setGate_self hG1'
  have hGG : ({ G with visited := false } : NandGate) = G := by
    cases G
    simp only at hv
    subst hv
    rfl
  have hfin : ((((w.setGate g { G with visited := true }).setErrno ECANCELED).setGate g
      { G with visited := false }).setGate g { G with visited := false })
      = w.setErrno ECANCELED := by
    rw [setGate_setGate]
    have h1 : (w.setGate g { G with visited := true }).setErrno ECANCELED
        = (w.setErrno ECANCELED).setGate g { G with visited := true } := rfl
    rw [h1, setGate_setGate, hGG]
    exact setGate_same (w := w.setErrno ECANCELED) hG
  have hinner : evaluate_gate (fuel + 1) (w.setGate g { G with visited := true }) g false =
      some (((w.setGate g { G with visited := true }).setErrno ECANCELED).setGate
        g { G with visited := false }, FAIL, false) := by
    unfold evaluate_gate
    simp only [hG1]
    have hn1 : ¬ ({ G with visited := true } : NandGate).n = 0 := hn
    simp only [hn1, if_false, if_true]
  unfold evaluate_gate
  simp only [hG, hn, if_false, hv, Bool.false_eq_true]
  rw [hin]
  unfold evalLoop
  rw [← hin]
  simp only [hinner, if_true, World.setVisited, hG2, Option.map_some']
  rw [hfin]

/-! ## Batch evaluation -/

/-- What a returning run of the loop of `nand_evaluate` has done, started at
index `i` with `rem` iterations to go. -/
theorem evaluateLoop_spec (fuel : Nat) (gs : List (Option Nat)) :
    ∀ (rem i : Nat) (w : World) (sigs : List Bool) (maxD : Int) (w1 : World) (r : Int)
      (sigs1 : List Bool), 0 ≤ maxD →
      evaluateLoop fuel gs rem i w sigs maxD = some (w1, r, sigs1) →
      sigs1.length = sigs.length ∧
      (r ≠ FAIL → w1 = w ∧ maxD ≤ r ∧
        (∀ j, i ≤ j → j < i + rem → ∃ a d b, gs[j]? = some (some a) ∧
          evaluate_gate fuel w a false = some (w, d, b) ∧ d ≠ FAIL ∧ d ≤ r ∧
          sigs1[j]? = some b) ∧
        (∀ j, j < i ∨ i + rem ≤ j → sigs1[j]? = sigs[j]?) ∧
        (r = maxD ∨ ∃ j a d b, i ≤ j ∧ j < i + rem ∧ gs[j]? = some (some a) ∧
          evaluate_gate fuel w a false = some (w, d, b) ∧ d = r)) ∧
      (r = FAIL → ∃ k a s1, i ≤ k ∧ k < i + rem ∧ gs[k]? = some (some a) ∧
        evaluate_gate fuel w a false = some (w1, FAIL, s1) ∧
        (∀ j, i ≤ j → j < k → ∃ a d b, gs[j]? = some (some a) ∧
          evaluate_gate fuel w a false = some (w, d, b) ∧ d ≠ FAIL ∧ sigs1[j]? = some b) ∧
        (∀ j, j < i ∨ k ≤ j → sigs1[j]? = sigs[j]?)) := by
  intro rem
  induction rem with
  | zero =>
    intro i w sigs maxD w1 r sigs1 hm h
    simp only [evaluateLoop, Option.some.injEq, Prod.mk.injEq] at h
    obtain ⟨rfl, rfl, rfl⟩ := h
    refine ⟨rfl, fun _ => ⟨rfl, le_refl _, fun j h1 h2 => by omega, fun _ _ => rfl, Or.inl rfl⟩,
      fun hr => ?_⟩
    simp only [FAIL] at hr
    omega
  | succ rem ih =>
    intro i w sigs maxD w1 r sigs1 hm h
    unfold evaluateLoop at h
    cases hgi : gs[i]? with
    | none => simp [hgi] at h
    | some oa =>
    cases oa with
    | none => simp [hgi] at h
    | some a =>
    simp only [hgi] at h
    cases hcall : evaluate_gate fuel w a false with
    | none => simp [hcall] at h
    | some res =>
    obtain ⟨w', d, b⟩ := res
    simp only [hcall] at h
    obtain ⟨hok, _⟩ := evaluate_spec fuel w a false w' d b hcall
    by_cases hd : d = FAIL
    · simp only [hd, if_true, Option.some.injEq, Prod.mk.injEq] at h
      obtain ⟨rfl, rfl, rfl⟩ := h
      subst hd
      refine ⟨rfl, fun hne => absurd rfl hne, fun _ => ?_⟩
      exact ⟨i, a, b, le_refl _, by omega, hgi, hcall, fun j h1 h2 => by omega, fun _ _ => rfl⟩
    · simp only [hd, if_false] at h
      obtain ⟨rfl, _, _, hdpos⟩ := hok hd
      by_cases hi : i < sigs.length
      · simp only [hi, if_true] at h
        have hm' : (0 : Int) ≤ (if d > maxD then d else maxD) := by split_ifs <;> omega
        have hmax1 : maxD ≤ (if d > maxD then d else maxD) := by split_ifs <;> omega
        have hmax2 : d ≤ (if d > maxD then d else maxD) := by split_ifs <;> omega
        obtain ⟨hlen, ihok, ihfail⟩ := ih (i + 1) w' (sigs.set i b) _ w1 r sigs1 hm' h
        refine ⟨by rw [hlen, List.length_set], fun hr => ?_, fun hr => ?_⟩
        · obtain ⟨hw, hle, hall, hrest, hatt⟩ := ihok hr
          refine ⟨hw, le_trans hmax1 hle, fun j h1 h2 => ?_, fun j hj => ?_, ?_⟩
          · by_cases hji : j = i
            · subst hji
              refine ⟨a, d, b, hgi, hcall, hd, le_trans hmax2 hle, ?_⟩
              rw [hrest j (Or.inl (by omega)), List.getElem?_set]
              simp [hi]
            · exact hall j (by omega) (by omega)
          · rw [hrest j (by omega), List.getElem?_set]
            have : ¬ i = j := by omega
            simp [this]
          · rcases hatt with hatt | ⟨j, a', d', b', h1, h2, h3, h4, h5⟩
            · by_cases hdm : d > maxD
              · right
                exact ⟨i, a, d, b, le_refl _, by omega, hgi, hcall, by rw [hatt]; simp [hdm]⟩
              · left
                rw [hatt]; simp [hdm]
            · right
              exact ⟨j, a', d', b', by omega, by omega, h3, h4, h5⟩
        · obtain ⟨k, a', s1, h1, h2, h3, h4, hbefore, hrest⟩ := ihfail hr
          refine ⟨k, a', s1, by omega, by omega, h3, h4, fun j hj1 hj2 => ?_, fun j hj => ?_⟩
          · by_cases hji : j = i
            · subst hji
              refine ⟨a, d, b, hgi, hcall, hd, ?_⟩
              rw [hrest j (Or.inl (by omega)), List.getElem?_set]
              simp [hi]
            · obtain ⟨a2, d2, b2, e1, e2, e3, e4⟩ := hbefore j (by omega) hj2
              exact ⟨a2, d2, b2, e1, e2, e3, e4⟩
          · rw [hrest j (by omega), List.getElem?_set]
            have : ¬ i = j := by omega
            simp [this]
      · simp [hi] at h

theorem evaluateLoop_total (fuel : Nat) (gs : List (Option Nat)) (w : World) :
    ∀ (rem i : Nat) (sigs : List Bool) (maxD : Int),
      (∀ j, i ≤ j → j < i + rem → ∃ a, gs[j]? = some (some a) ∧
        ∃ res, evaluate_gate fuel w a false = some res) →
      i + rem ≤ sigs.length →
      ∃ res, evaluateLoop fuel gs rem i w sigs maxD = some res := by
  intro rem
  induction rem with
  | zero => intro i sigs maxD _ _; exact ⟨_, rfl⟩
  | succ rem ih =>
    intro i sigs maxD hall hlen
    obtain ⟨a, hgi, ⟨w', d, b⟩, hcall⟩ := hall i (le_refl _) (by omega)
    obtain ⟨hok, _⟩ := evaluate_spec fuel w a false w' d b hcall
    unfold evaluateLoop
    simp only [hgi, hcall]
    by_cases hd : d = FAIL
    · simp only [hd, if_true]
      exact ⟨_, rfl⟩
    · obtain ⟨rfl, _, _, _⟩ := hok hd
      have hi : i < sigs.length := by omega
      simp only [hd, if_false, hi, if_true]
      apply ih
      · intro j h1 h2
        exact hall j (by omega) (by omega)
      · rw [List.length_set]; omega

theorem nand_evaluate_heap {fuel : Nat} {w w1 : World} {gates : Option (List (Option Nat))}
    {signals sigs1 : Option (List Bool)} {m : Nat} {r : Int} (hu : AllUnvisited w)
    (h : nand_evaluate fuel w gates signals m = some (w1, r, sigs1)) : w1.heap = w.heap := by
  unfold nand_evaluate at h
  cases gates with
  | none =>
    simp only [Option.some.injEq, Prod.mk.injEq] at h
    rw [← h.1]; rfl
  | some gs =>
    cases signals with
    | none =>
      simp only [Option.some.injEq, Prod.mk.injEq] at h
      rw [← h.1]; rfl
    | some sigs =>
      simp only at h
      by_cases hm : m = 0
      · simp only [hm, if_true, Option.some.injEq, Prod.mk.injEq] at h
        rw [← h.1]; rfl
      · simp only [hm, if_false, Option.map_eq_some', Prod.mk.injEq] at h
        obtain ⟨⟨w', r', s'⟩, hloop, rfl, rfl, rfl⟩ := h
        obtain ⟨_, hok, hfail⟩ := evaluateLoop_spec fuel gs m 0 w sigs 0 w' r' s' (le_refl _) hloop
        by_cases hr : r' = FAIL
        · obtain ⟨k, a, s1, _, _, _, hcall, _, _⟩ := hfail hr
          obtain ⟨_, hf⟩ := evaluate_spec fuel w a false w' FAIL s1 hcall
          exact heap_eq_of_cleared hu (hf rfl).2.2.2
        · rw [(hok hr).1]

/-! ## Claims on evaluation -/

/-- C4, as stated, fails on its own witness: in `netAB` (acyclic, no flag set)
gate `1`, whose only slot is bound to gate `0`, evaluates to `true` at depth 2,
not to `false`; and gate `0`, which has inputs but no gate-bound slot,
evaluates to `false`, not to `true`. -/
theorem C4_counterexample :
    Closed netAB ∧ AllUnvisited netAB ∧ ¬ ReachesCycle netAB 1 ∧ ¬ ReachesCycle netAB 0 ∧
    evaluate_gate 3 netAB 1 false = some (netAB, 2, true) ∧
    evaluate_gate 3 netAB 0 true = some (netAB, 1, false) := by
  have hd : Descending netAB := by decide
  exact ⟨by decide, by decide, not_reachesCycle_of_descending hd 1,
    not_reachesCycle_of_descending hd 0, by decide, by decide⟩

/-- C4, amended. On a graph without dangling pointers, with no flag set and no
cycle reachable from the live gate `g`, `evaluate_gate (g)` returns without
failure (for any fuel above the number of heap cells), leaves the state as it
was, and gives the signal and depth of the reference evaluation: `false` at
depth 0 for arity 0; otherwise `false` exactly when every gate-bound slot's
producer gives `true` (so `false` when no slot is gate-bound), at depth one
more than the largest producer depth (than 0 when there is none). -/
theorem C4_evaluate_matches_reference (w : World) (g fuel : Nat) (sig : Bool)
    (hcl : Closed w) (hu : AllUnvisited w) (hg : (w.gate g).isSome = true)
    (hac : ¬ ReachesCycle w g) (hf : w.heap.length + 1 ≤ fuel) :
    ∃ d b, evaluate_gate fuel w g sig = some (w, d, b) ∧ d ≠ FAIL ∧
      refEval fuel w g = some (b, d) ∧
      ∀ G, w.gate g = some G →
        (G.n = 0 → b = false ∧ d = 0) ∧
        (G.n ≠ 0 → ∃ rs, refInputs (refEval (fuel - 1) w) (producers G) = some rs ∧
          (b = false ↔ ∀ x ∈ rs, x.1 = true) ∧
          d = (rs.map (fun x => x.2)).foldl max 0 + 1) := by
  obtain ⟨⟨w1, d, b⟩, hcall⟩ := evaluate_total fuel w g sig hcl hg (by omega)
  obtain ⟨hok, hfail⟩ := evaluate_spec _ w g sig w1 d b hcall
  have hd : d ≠ FAIL := by
    intro hd
    exact hac ((blocked_iff_reachesCycle hu g).mp (hfail hd).1)
  obtain ⟨rfl, _, href, _⟩ := hok hd
  refine ⟨d, b, hcall, hd, href, fun G hG => ?_⟩
  obtain ⟨f, rfl⟩ : ∃ f, fuel = f + 1 := ⟨fuel - 1, by omega⟩
  simp only [refEval, hG] at href
  simp only [Nat.add_sub_cancel]
  constructor
  · intro hn
    simp only [hn, if_true, Option.some.injEq, Prod.mk.injEq] at href
    exact ⟨href.1.symm, href.2.symm⟩
  · intro hn
    simp only [hn, if_false, Option.map_eq_some', Prod.mk.injEq] at href
    obtain ⟨rs, hrs, hb, hdep⟩ := href
    refine ⟨rs, hrs, ?_, hdep.symm⟩
    rw [← hb]
    simp

/-- Instance of the amended C4 on `netAB`, gate `1`. -/
theorem C4_evaluate_matches_reference_witness :
    ∃ d b, evaluate_gate 3 netAB 1 false = some (netAB, d, b) ∧
      d ≠ FAIL ∧ refEval 3 netAB 1 = some (b, d) ∧
      ∀ G, netAB.gate 1 = some G →
        (G.n = 0 → b = false ∧ d = 0) ∧
        (G.n ≠ 0 → ∃ rs, refInputs (refEval (3 - 1) netAB) (producers G) = some rs ∧
          (b = false ↔ ∀ x ∈ rs, x.1 = true) ∧
          d = (rs.map (fun x => x.2)).foldl max 0 + 1) :=
  C4_evaluate_matches_reference netAB 1 3 false (by decide) (by decide) (by decide)
    (not_reachesCycle_of_descending (by decide) 1) (by decide)

/-- C5. With no flag set, every returning call of `evaluate_gate (g)` returns
`FAIL` (with `errno` set to `ECANCELED`) exactly when some gate reachable from
`g` through gate-bound slots lies on a directed cycle, so it succeeds when no
cycle is reachable; on a graph without dangling pointers the call on a live
gate does return, for any fuel above the number of heap cells.  In particular,
after a successful `nand_connect_nand (g, g, 0)` on a gate of arity at least 1,
evaluating `g` fails. -/
theorem C5_cycle_detection_exact (w : World) (g : Nat) (sig : Bool) (hu : AllUnvisited w) :
    (∀ fuel w1 r sig1, evaluate_gate fuel w g sig = some (w1, r, sig1) →
      (r = FAIL ↔ ReachesCycle w g) ∧ (r = FAIL → w1.errno = ECANCELED)) ∧
    (∀ fuel, Closed w → (w.gate g).isSome = true → w.heap.length + 1 ≤ fuel →
      ∃ res, evaluate_gate fuel w g sig = some res) ∧
    (∀ G w1, w.gate g = some G → 0 < G.n →
      nand_connect_nand w (some g) (some g) 0 true = some (w1, SUCCESS) →
      evaluate_gate (w1.heap.length + 1) w1 g sig = some (w1.setErrno ECANCELED, FAIL, sig)) := by
  refine ⟨fun fuel w1 r sig1 hcall => ?_,
    fun fuel hcl hg hf => evaluate_total fuel w g sig hcl hg (by omega), ?_⟩
  · obtain ⟨hok, hfail⟩ := evaluate_spec _ w g sig w1 r sig1 hcall
    refine ⟨⟨fun hr => ?_, fun hc => ?_⟩, fun hr => (hfail hr).2.1⟩
    · exact (blocked_iff_reachesCycle hu g).mp (hfail hr).1
    · by_contra hr
      exact (hok hr).2.1 ((blocked_iff_reachesCycle hu g).mpr hc)
  · intro G w1 hG hn hconn
    rw [allUnvisited_iff] at hu
    have hvis := connect_nand_visited hconn g
    rcases connect_nand_inv hconn with ⟨hr, _⟩ |
      ⟨_, _, o, c, C0, O, slot, w2, ho, hc, hC0, hO, hk0, hslot, h2, h3⟩
    · simp [SUCCESS, FAIL] at hr
    · simp only [Option.some.injEq] at ho hc
      subst ho; subst hc
      obtain ⟨_, _, _, ⟨C3, hC3, hC3in⟩, _, _⟩ := connect_nand_effect hC0 hO hk0 hslot h2 h3
      rw [hG] at hC0
      simp only [Option.some.injEq] at hC0
      subst hC0
      have hv3 : C3.visited = false := by
        rw [hC3, hG] at hvis
        simp only [Option.map_some', Option.some.injEq] at hvis
        rw [hvis]
        exact hu _ G hG
      have hlen := gate_lt hC3
      have hfuel : w1.heap.length + 1 = (w1.heap.length - 1) + 2 := by omega
      rw [hfuel]
      cases hin : G.inputs with
      | nil => simp [hin] at hk0
      | cons x rest =>
        rw [hin] at hC3in
        simp only [List.set_cons_zero] at hC3in
        exact evaluate_self_loop _ sig hC3 hv3 hC3in

/-- Instances of C5: gate `1` of `netCyc` is bound to itself, its evaluation is
cancelled and a cycle is reachable; gate `1` of `netAB` evaluates successfully
and no cycle is reachable; the single gate of `netOne`, once connected to
itself, fails. -/
theorem C5_cycle_detection_exact_witness :
    ReachesCycle netCyc 1 ∧ ¬ ReachesCycle netAB 1 ∧
    (∃ res, evaluate_gate 3 netCyc 1 false = some res) ∧
    evaluate_gate (netOneLoop.heap.length + 1) netOneLoop 0 false =
      some (netOneLoop.setErrno ECANCELED, FAIL, false) :=
  ⟨((C5_cycle_detection_exact netCyc 1 false (by decide)).1 3 (netCyc.setErrno ECANCELED)
      FAIL false (by decide)).1.mp rfl,
    fun hc => absurd (((C5_cycle_detection_exact netAB 1 false (by decide)).1 3 netAB
      2 true (by decide)).1.mpr hc) (by decide),
    (C5_cycle_detection_exact netCyc 1 false (by decide)).2.1 3 (by decide) (by decide)
      (by decide),
    (C5_cycle_detection_exact netOne 0 false (by decide)).2.2
      ⟨[⟨none, none⟩], false, []⟩ netOneLoop (by decide) (by decide) (by decide)⟩

/-- C6. If no `visited` flag is set before the call, then after `evaluate_gate`
or `nand_evaluate` returns, with success or with failure, the heap is exactly
what it was: every flag is false again and every gate has the input slots and
the output list it had.  On a graph without dangling pointers `evaluate_gate`
on a live gate does return. -/
theorem C6_evaluation_restores_state (w : World) (hu : AllUnvisited w) :
    (∀ fuel g sig w1 r sig1, evaluate_gate fuel w g sig = some (w1, r, sig1) →
      w1.heap = w.heap ∧ AllUnvisited w1) ∧
    (∀ fuel gates signals m w1 r sigs1,
      nand_evaluate fuel w gates signals m = some (w1, r, sigs1) →
      w1.heap = w.heap ∧ AllUnvisited w1) ∧
    (∀ g sig, Closed w → (w.gate g).isSome = true →
      ∃ res, evaluate_gate (w.heap.length + 1) w g sig = some res) := by
  have hall : ∀ w1 : World, w1.heap = w.heap → AllUnvisited w1 := by
    intro w1 h
    cases w; cases w1
    simp only at h
    subst h
    exact hu
  refine ⟨fun fuel g sig w1 r sig1 h => ?_, fun fuel gates signals m w1 r sigs1 h => ?_,
    fun g sig hcl hg => evaluate_total _ w g sig hcl hg (by omega)⟩
  · obtain ⟨hok, hfail⟩ := evaluate_spec fuel w g sig w1 r sig1 h
    have : w1.heap = w.heap := by
      by_cases hr : r = FAIL
      · exact heap_eq_of_cleared hu (hfail hr).2.2.2
      · rw [(hok hr).1]
    exact ⟨this, hall w1 this⟩
  · have := nand_evaluate_heap hu h
    exact ⟨this, hall w1 this⟩

/-- Instances of C6 on `netCyc`: a cancelled evaluation of the self-loop gate
and a cancelled batch both leave the heap as it was. -/
theorem C6_evaluation_restores_state_witness :
    ((netCyc.setErrno ECANCELED).heap = netCyc.heap ∧ AllUnvisited (netCyc.setErrno ECANCELED)) ∧
    ((netCyc.setErrno ECANCELED).heap = netCyc.heap ∧ AllUnvisited (netCyc.setErrno ECANCELED)) :=
  ⟨(C6_evaluation_restores_state netCyc (by decide)).1 3 1 false
      (netCyc.setErrno ECANCELED) FAIL false (by decide),
    (C6_evaluation_restores_state netCyc (by decide)).2.1 3 (some [some 0, some 1])
      (some [true, true]) 2 (netCyc.setErrno ECANCELED) FAIL (some [false, true]) (by decide)⟩

/-- C7, as stated, fails: in `netCyc` gate `0` evaluates to `false` and gate `1`
is on a cycle; the batch over both gates returns `FAIL`, yet position 0 of the
signals array, `true` before the call, holds `false` afterwards. -/
theorem C7_counterexample :
    Closed netCyc ∧ AllUnvisited netCyc ∧
    nand_evaluate 3 netCyc (some [some 0, some 1]) (some [true, true]) 2 =
      some (netCyc.setErrno ECANCELED, FAIL, some [false, true]) := by
  decide

/-- C7, amended. When `nand_evaluate` returns `FAIL`, either `m == 0` or an
array is `NULL` and the signals array is untouched, or the evaluation of some
`gates[k]`, `k < m`, failed after those of all earlier gates succeeded; then
every position `j >= k` of the signals array is as before the call, and every
position `j < k` holds the result evaluated for `gates[j]`. -/
theorem C7_failed_batch_writes (fuel : Nat) (w w1 : World)
    (gates : Option (List (Option Nat))) (signals sigs1 : Option (List Bool)) (m : Nat)
    (h : nand_evaluate fuel w gates signals m = some (w1, FAIL, sigs1)) :
    (sigs1 = signals ∧ (m = 0 ∨ gates = none ∨ signals = none)) ∨
    (∃ gs sigs out k a s1, gates = some gs ∧ signals = some sigs ∧ sigs1 = some out ∧
      out.length = sigs.length ∧ k < m ∧ gs[k]? = some (some a) ∧
      evaluate_gate fuel w a false = some (w1, FAIL, s1) ∧
      (∀ j, j < k → ∃ a d b, gs[j]? = some (some a) ∧
        evaluate_gate fuel w a false = some (w, d, b) ∧ d ≠ FAIL ∧ out[j]? = some b) ∧
      (∀ j, k ≤ j → out[j]? = sigs[j]?)) := by
  unfold nand_evaluate at h
  cases gates with
  | none =>
    simp only [Option.some.injEq, Prod.mk.injEq] at h
    exact Or.inl ⟨h.2.2.symm, Or.inr (Or.inl rfl)⟩
  | some gs =>
    cases signals with
    | none =>
      simp only [Option.some.injEq, Prod.mk.injEq] at h
      exact Or.inl ⟨h.2.2.symm, Or.inr (Or.inr rfl)⟩
    | some sigs =>
      simp only at h
      by_cases hm : m = 0
      · simp only [hm, if_true, Option.some.injEq, Prod.mk.injEq] at h
        exact Or.inl ⟨h.2.2.symm, Or.inl hm⟩
      · simp only [hm, if_false, Option.map_eq_some', Prod.mk.injEq] at h
        obtain ⟨⟨w', r', s'⟩, hloop, rfl, rfl, rfl⟩ := h
        obtain ⟨hlen, _, hfail⟩ :=
          evaluateLoop_spec fuel gs m 0 w sigs 0 w' FAIL s' (le_refl _) hloop
        obtain ⟨k, a, s1, _, hk, hgk, hcall, hbefore, hrest⟩ := hfail rfl
        right
        exact ⟨gs, sigs, s', k, a, s1, rfl, rfl, rfl, hlen, by omega, hgk, hcall,
          fun j hj => hbefore j (Nat.zero_le _) hj, fun j hj => hrest j (Or.inr hj)⟩

/-- Instance of the amended C7: the failing batch on `netCyc`. -/
theorem C7_failed_batch_writes_witness :
    (some [false, true] = some [true, true] ∧
      (2 = 0 ∨ some [some 0, some 1] = (none : Option (List (Option Nat))) ∨
        some [true, true] = (none : Option (List Bool)))) ∨
    (∃ gs sigs out k a s1, some [some 0, some 1] = some gs ∧ some [true, true] = some sigs ∧
      some [false, true] = some out ∧
      out.length = sigs.length ∧ k < 2 ∧ gs[k]? = some (some a) ∧
      evaluate_gate 3 netCyc a false = some (netCyc.setErrno ECANCELED, FAIL, s1) ∧
      (∀ j, j < k → ∃ a d b, gs[j]? = some (some a) ∧
        evaluate_gate 3 netCyc a false = some (netCyc, d, b) ∧ d ≠ FAIL ∧ out[j]? = some b) ∧
      (∀ j, k ≤ j → out[j]? = sigs[j]?)) :=
  C7_failed_batch_writes 3 netCyc (netCyc.setErrno ECANCELED) (some [some 0, some 1])
    (some [true, true]) (some [false, true]) 2 (by decide)

/-- C8. For `m >= 1`, when the evaluation of every `gates[i]`, `i < m`, succeeds
with depth `d i` and signal `b i`, `nand_evaluate` returns the largest of the
`d i`, leaves the state as it was, sets `signals[i]` to `b i` for every `i < m`
and leaves the other positions alone. -/
theorem C8_batch_result (fuel : Nat) (w : World) (gs : List (Option Nat)) (sigs : List Bool)
    (m : Nat) (a : Nat → Nat) (d : Nat → Int) (b : Nat → Bool) (hm : 1 ≤ m)
    (hlen : m ≤ sigs.length)
    (hev : ∀ i, i < m → gs[i]? = some (some (a i)) ∧
      ∃ wi, evaluate_gate fuel w (a i) false = some (wi, d i, b i) ∧ d i ≠ FAIL) :
    ∃ r out, nand_evaluate fuel w (some gs) (some sigs) m = some (w, r, some out) ∧
      (∀ i, i < m → d i ≤ r) ∧ (∃ i, i < m ∧ d i = r) ∧
      (∀ i, i < m → out[i]? = some (b i)) ∧
      (∀ j, m ≤ j → out[j]? = sigs[j]?) ∧ out.length = sigs.length := by
  have hm0 : ¬ m = 0 := by omega
  obtain ⟨⟨w1, r, out⟩, hloop⟩ := evaluateLoop_total fuel gs w m 0 sigs 0
    (fun j _ hj => ⟨a j, (hev j (by omega)).1, by
      obtain ⟨wi, hwi, _⟩ := (hev j (by omega)).2
      exact ⟨_, hwi⟩⟩) (by omega)
  obtain ⟨hlen1, hok, hfail⟩ := evaluateLoop_spec fuel gs m 0 w sigs 0 w1 r out (le_refl _) hloop
  have hdet : ∀ i, i < m → ∀ a' d' b' w', gs[i]? = some (some a') →
      evaluate_gate fuel w a' false = some (w', d', b') → d' = d i ∧ b' = b i := by
    intro i hi a' d' b' w' hg hc
    obtain ⟨hgi, wi, hwi, _⟩ := hev i hi
    rw [hgi] at hg
    simp only [Option.some.injEq] at hg
    subst hg
    rw [hwi] at hc
    simp only [Option.some.injEq, Prod.mk.injEq] at hc
    exact ⟨hc.2.1.symm, hc.2.2.symm⟩
  have hr : r ≠ FAIL := by
    intro hr
    obtain ⟨k, a', s1, _, hk, hgk, hcall, _, _⟩ := hfail hr
    obtain ⟨_, _, _, hne⟩ := hev k (by omega)
    exact hne (hdet k (by omega) a' FAIL s1 w1 hgk hcall).1.symm
  obtain ⟨rfl, hmax, hall, hrest, hatt⟩ := hok hr
  refine ⟨r, out, by simp [nand_evaluate, hm0, hloop], fun i hi => ?_, ?_, fun i hi => ?_,
    fun j hj => hrest j (Or.inr (by omega)), hlen1⟩
  · obtain ⟨a', d', b', hg, hc, _, hle, _⟩ := hall i (Nat.zero_le _) (by omega)
    rw [← (hdet i hi a' d' b' _ hg hc).1]
    exact hle
  · rcases hatt with h0 | ⟨j, a', d', b', _, hj, hg, hc, hdr⟩
    · refine ⟨0, by omega, ?_⟩
      obtain ⟨a', d', b', hg, hc, hne, hle, _⟩ := hall 0 (le_refl _) (by omega)
      obtain ⟨hok0, _⟩ := evaluate_spec fuel w1 a' false w1 d' b' hc
      have hpos := (hok0 hne).2.2.2
      have hd0 := (hdet 0 (by omega) a' d' b' _ hg hc).1
      omega
    · exact ⟨j, by omega, by rw [← (hdet j (by omega) a' d' b' _ hg hc).1]; exact hdr⟩
  · obtain ⟨a', d', b', hg, hc, _, _, hs⟩ := hall i (Nat.zero_le _) (by omega)
    rw [hs, (hdet i hi a' d' b' _ hg hc).2]

/-- Instance of C8 on `netAB`: a batch of three entries in which gate `1`
appears twice. -/
theorem C8_batch_result_witness :
    ∃ r out, nand_evaluate 3 netAB (some [some 1, some 0, some 1])
        (some [false, false, false, true]) 3 = some (netAB, r, some out) ∧
      (∀ i, i < 3 → (if i = 1 then (1 : Int) else 2) ≤ r) ∧
      (∃ i, i < 3 ∧ (if i = 1 then (1 : Int) else 2) = r) ∧
      (∀ i, i < 3 → out[i]? = some (if i = 1 then false else true)) ∧
      (∀ j, 3 ≤ j → out[j]? = [false, false, false, true][j]?) ∧
      out.length = [false, false, false, true].length :=
  C8_batch_result 3 netAB [some 1, some 0, some 1] [false, false, false, true] 3
    (fun i => if i = 1 then 0 else 1) (fun i => if i = 1 then 1 else 2)
    (fun i => if i = 1 then false else true) (by decide) (by decide)
    (by
      intro i hi
      interval_cases i
      · exact ⟨by decide, netAB, by decide, by decide⟩
      · exact ⟨by decide, netAB, by decide, by decide⟩
      · exact ⟨by decide, netAB, by decide, by decide⟩)

/-! ## Chains -/

theorem unmark_mark {w : World} {g : Nat} {G : NandGate} (hG : w.gate g = some G)
    (hv : G.visited = false) :
    (w.setGate g { G with visited := true }).setVisited g false = some w := by
  rw [setVisited_of_gate false (gate_setGate_self hG), setGate_setGate]
  congr 1
  apply setGate_same
  rw [hG]
  cases G
  simp only at hv
  subst hv
  rfl

theorem chain_distinct {w : World} {g : Nat → Nat} {N : Nat} (hch : IsChain w g N) :
    ∀ j d, 0 < d → j + d < N → g (j + d) ≠ g j := by
  intro j
  induction j with
  | zero =>
    intro d hd hN heq
    obtain ⟨G, hG, _, hin⟩ := hch (0 + d) hN
    obtain ⟨G0, hG0, _, hin0⟩ := hch 0 (by omega)
    rw [heq, hG0] at hG
    simp only [Option.some.injEq] at hG
    subst hG
    rw [hin0] at hin
    have hd0 : ¬ (d = 0) := by omega
    simp [hd0] at hin
  | succ j ih =>
    intro d hd hN heq
    obtain ⟨G, hG, _, hin⟩ := hch (j + 1 + d) hN
    obtain ⟨G0, hG0, _, hin0⟩ := hch (j + 1) (by omega)
    rw [heq, hG0] at hG
    simp only [Option.some.injEq] at hG
    subst hG
    rw [hin0] at hin
    have h1 : ¬ (j + 1 + d = 0) := by omega
    have h2 : j + 1 + d - 1 = j + d := by omega
    simp only [Nat.add_one_ne_zero, if_false, h1, h2, Nat.add_sub_cancel, List.cons.injEq,
      Input.mk.injEq, Option.some.injEq, and_true] at hin
    exact ih d hd (by omega) hin.symm

/-- In a chain, gate `g i` evaluates to depth `i + 1` and to `true` exactly when
`i` is odd, leaving the state as it was. -/
theorem chain_eval (g : Nat → Nat) : ∀ (i : Nat) (w : World) (fuel : Nat) (sig : Bool),
    IsChain w g (i + 1) → i < fuel →
    evaluate_gate fuel w (g i) sig = some (w, (i : Int) + 1, decide (i % 2 = 1)) := by
  intro i
  induction i with
  | zero =>
    intro w fuel sig hch hf
    obtain ⟨G, hG, hv, hin⟩ := hch 0 (by omega)
    obtain ⟨f, rfl⟩ : ∃ f, fuel = f + 1 := ⟨fuel - 1, by omega⟩
    have hn : G.n ≠ 0 := by simp [NandGate.n, hin]
    have hin' : G.inputs = [⟨none, none⟩] := by simpa using hin
    unfold evaluate_gate
    simp only [hG, hn, if_false, hv, Bool.false_eq_true]
    rw [hin']
    simp only [evalLoop]
    rw [← hin', unmark_mark hG hv]
    rfl
  | succ i ih =>
    intro w fuel sig hch hf
    obtain ⟨G, hG, hv, hin⟩ := hch (i + 1) (by omega)
    obtain ⟨f, rfl⟩ : ∃ f, fuel = f + 1 := ⟨fuel - 1, by omega⟩
    have hn : G.n ≠ 0 := by simp [NandGate.n, hin]
    have hch1 : IsChain (w.setGate (g (i + 1)) { G with visited := true }) g (i + 1) := by
      intro j hj
      obtain ⟨Gj, hGj, hvj, hinj⟩ := hch j (by omega)
      have hne : g (i + 1) ≠ g j := by
        have := chain_distinct hch j (i + 1 - j) (by omega) (by omega)
        rwa [show j + (i + 1 - j) = i + 1 by omega] at this
      exact ⟨Gj, by rw [gate_setGate_ne _ hne]; exact hGj, hvj, hinj⟩
    have hrec := ih (w.setGate (g (i + 1)) { G with visited := true }) f false hch1 (by omega)
    have hne : ¬ ((i : Int) + 1 = FAIL) := by simp only [FAIL]; omega
    have hgt : ((i : Int) + 1 > 0) := by omega
    have hin' : G.inputs = [⟨some (g i), none⟩] := by simpa using hin
    unfold evaluate_gate
    simp only [hG, hn, if_false, hv, Bool.false_eq_true]
    rw [hin']
    simp only [evalLoop]
    rw [← hin', hrec]
    simp only [hne, if_false, hgt, if_true]
    rw [unmark_mark hG hv]
    simp only [Option.map_some', Nat.cast_add, Nat.cast_one, Option.some.injEq, Prod.mk.injEq,
      true_and]
    rcases Nat.mod_two_eq_zero_or_one i with h0 | h1
    · have : (i + 1) % 2 = 1 := by omega
      simp [h0, this]
    · have : (i + 1) % 2 = 0 := by omega
      simp [h1, this]

theorem isChain_mono {w : World} {g : Nat → Nat} {N M : Nat} (hch : IsChain w g N)
    (h : M ≤ N) : IsChain w g M :=
  fun i hi => hch i (by omega)

theorem isChain_netChain3 : IsChain netChain3 id 3 := by
  intro i hi
  interval_cases i
  · exact ⟨⟨[⟨none, none⟩], false, [1]⟩, rfl, rfl, rfl⟩
  · exact ⟨⟨[⟨some 0, none⟩], false, [2]⟩, rfl, rfl, rfl⟩
  · exact ⟨⟨[⟨some 1, none⟩], false, []⟩, rfl, rfl, rfl⟩

/-- C9, as stated, fails: in the chain of three gates `netChain3` the last gate
evaluates with depth 3, not 2. -/
theorem C9_counterexample :
    IsChain netChain3 id 3 ∧
    evaluate_gate 4 netChain3 2 false = some (netChain3, 3, false) :=
  ⟨isChain_netChain3, by decide⟩

/-- C9, amended. In a chain of `N >= 1` gates of arity 1, evaluating the last
gate returns depth `N`: the first gate, whose slot is unbound, has depth 1 and
each further gate adds one. -/
theorem C9_chain_depth (w : World) (g : Nat → Nat) (N fuel : Nat) (sig : Bool) (hN : 1 ≤ N)
    (hch : IsChain w g N) (hf : N ≤ fuel) :
    ∃ b, evaluate_gate fuel w (g (N - 1)) sig = some (w, (N : Int), b) := by
  have h := chain_eval g (N - 1) w fuel sig
    (isChain_mono hch (by omega)) (by omega)
  have hcast : ((N - 1 : Nat) : Int) + 1 = (N : Int) := by omega
  rw [hcast] at h
  exact ⟨_, h⟩

/-- Instance of the amended C9 on `netChain3`. -/
theorem C9_chain_depth_witness :
    ∃ b, evaluate_gate 4 netChain3 (id (3 - 1)) false = some (netChain3, ((3 : Nat) : Int), b) :=
  C9_chain_depth netChain3 id 3 4 false (by decide) isChain_netChain3 (by decide)

/-- C10, as stated, fails: in the chain `netChain3` gate `0` (even position)
evaluates to `false` and gate `1` (odd position) to `true`. -/
theorem C10_counterexample :
    IsChain netChain3 id 3 ∧
    evaluate_gate 4 netChain3 0 false = some (netChain3, 1, false) ∧
    evaluate_gate 4 netChain3 1 false = some (netChain3, 2, true) :=
  ⟨isChain_netChain3, by decide, by decide⟩

/-- C10, amended. In a chain of `N >= 1` gates of arity 1, gate `g i` evaluates
to `false` when `i` is even and to `true` when `i` is odd; each gate's result is
the negation of the result of the gate before it. -/
theorem C10_chain_alternation (w : World) (g : Nat → Nat) (N fuel i : Nat) (sig : Bool)
    (hch : IsChain w g N) (hi : i < N) (hf : N ≤ fuel) :
    ∃ d b, evaluate_gate fuel w (g i) sig = some (w, d, b) ∧ (b = true ↔ i % 2 = 1) ∧
      ∀ j, j + 1 = i → ∃ d1 b1, evaluate_gate fuel w (g j) sig = some (w, d1, b1) ∧
        b = !b1 := by
  have h := chain_eval g i w fuel sig (isChain_mono hch (by omega)) (by omega)
  refine ⟨_, _, h, by simp, fun j hj => ?_⟩
  have hj' := chain_eval g j w fuel sig (isChain_mono hch (by omega)) (by omega)
  refine ⟨_, _, hj', ?_⟩
  subst hj
  rcases Nat.mod_two_eq_zero_or_one j with h0 | h1
  · have : (j + 1) % 2 = 1 := by omega
    simp [h0, this]
  · have : (j + 1) % 2 = 0 := by omega
    simp [h1, this]

/-- Instance of the amended C10 on `netChain3`, gate `2`. -/
theorem C10_chain_alternation_witness :
    ∃ d b, evaluate_gate 4 netChain3 (id 2) false = some (netChain3, d, b) ∧
      (b = true ↔ 2 % 2 = 1) ∧
      ∀ j, j + 1 = 2 → ∃ d1 b1, evaluate_gate 4 netChain3 (id j) false =
        some (netChain3, d1, b1) ∧ b = !b1 :=
  C10_chain_alternation netChain3 id 3 4 2 false isChain_netChain3 (by decide) (by decide)

/-! ## Failing connections; binding a constant -/

theorem connect_nand_fail_heap {w w1 : World} {og ig : Option Nat} {k : Nat} {m : Bool}
    (h : nand_connect_nand w og ig k m = some (w1, FAIL)) : w1.heap = w.heap := by
  rcases connect_nand_inv h with ⟨_, hheap, _⟩ | ⟨hr, _⟩
  · exact hheap
  · simp [SUCCESS, FAIL] at hr

theorem connect_signal_fail_heap {w w1 : World} {sg gt : Option Nat} {k : Nat}
    (h : nand_connect_signal w sg gt k = some (w1, FAIL)) : w1.heap = w.heap := by
  rcases connect_signal_inv h with ⟨_, hheap⟩ | ⟨hr, _⟩
  · exact hheap
  · simp [SUCCESS, FAIL] at hr

/-- C13. A call of `nand_connect_nand` or `nand_connect_signal` that returns
`FAIL` leaves the heap exactly as it was: every gate keeps its input slots and
its output list.  The calls with a null gate, a null signal, an index out of
range or a failed allocation do return `FAIL`, with `errno` set to `EINVAL` or
`ENOMEM`. -/
theorem C13_failed_connections_atomic (w : World) :
    (∀ og ig k m w1, nand_connect_nand w og ig k m = some (w1, FAIL) → w1.heap = w.heap) ∧
    (∀ sg gt k w1, nand_connect_signal w sg gt k = some (w1, FAIL) → w1.heap = w.heap) ∧
    (∀ ig k m, nand_connect_nand w none ig k m = some (w.setErrno EINVAL, FAIL)) ∧
    (∀ og k m, nand_connect_nand w og none k m = some (w.setErrno EINVAL, FAIL)) ∧
    (∀ o c C k m, w.gate c = some C → C.n ≤ k →
      nand_connect_nand w (some o) (some c) k m = some (w.setErrno EINVAL, FAIL)) ∧
    (∀ o c C k, w.gate c = some C → k < C.n →
      nand_connect_nand w (some o) (some c) k false = some (w.setErrno ENOMEM, FAIL)) ∧
    (∀ sg k, nand_connect_signal w sg none k = some (w.setErrno EINVAL, FAIL)) ∧
    (∀ gt k, nand_connect_signal w none gt k = some (w.setErrno EINVAL, FAIL)) ∧
    (∀ s g G k, w.gate g = some G → G.n ≤ k →
      nand_connect_signal w (some s) (some g) k = some (w.setErrno EINVAL, FAIL)) := by
  refine ⟨fun _ _ _ _ _ h => connect_nand_fail_heap h, fun _ _ _ _ h => connect_signal_fail_heap h,
    ?_, ?_, ?_, ?_, ?_, ?_, ?_⟩
  · intro ig k m
    cases ig <;> rfl
  · intro og k m
    cases og <;> rfl
  · intro o c C k m hC hk
    simp [nand_connect_nand, hC, hk]
  · intro o c C k hC hk
    have : ¬ C.n ≤ k := by omega
    simp [nand_connect_nand, hC, this]
  · intro sg k
    cases sg <;> rfl
  · intro gt k
    cases gt <;> rfl
  · intro s g G k hG hk
    simp [nand_connect_signal, hG, hk]

/-- Instances of C13 on `netLoop`: an index out of range, a failed allocation
and a null signal. -/
theorem C13_failed_connections_atomic_witness :
    (netLoop.setErrno EINVAL).heap = netLoop.heap ∧
    (netLoop.setErrno ENOMEM).heap = netLoop.heap ∧
    (netLoop.setErrno EINVAL).heap = netLoop.heap :=
  ⟨(C13_failed_connections_atomic netLoop).1 (some 0) (some 1) 2 true
      (netLoop.setErrno EINVAL) (by decide),
    (C13_failed_connections_atomic netLoop).1 (some 0) (some 1) 0 false
      (netLoop.setErrno ENOMEM) (by decide),
    (C13_failed_connections_atomic netLoop).2.1 none (some 1) 0
      (netLoop.setErrno EINVAL) (by decide)⟩

theorem remove_output_gate {w w1 : World} {p c : Nat} (h : remove_output w p c = some w1)
    {b : Nat} {Gb : NandGate} (hb : w.gate b = some Gb) :
    w1.gate b = some ⟨Gb.inputs, Gb.visited,
      if b = p then Gb.outputs.erase c else Gb.outputs⟩ := by
  obtain ⟨S, hS, rfl⟩ := remove_output_eq h
  rw [gate_setGate w p b _ (gate_lt hS)]
  by_cases hpb : p = b
  · subst hpb
    rw [hS] at hb
    simp only [Option.some.injEq] at hb
    subst hb
    simp
  · have : ¬ b = p := fun e => hpb e.symm
    simp [hpb, this, hb]

theorem setSlot_gate {w w1 : World} {c k : Nat} {inp : Input} (h : setSlot w c k inp = some w1)
    {b : Nat} {Gb : NandGate} (hb : w.gate b = some Gb) :
    w1.gate b = some ⟨if b = c then Gb.inputs.set k inp else Gb.inputs, Gb.visited,
      Gb.outputs⟩ := by
  obtain ⟨C, hC, _, rfl⟩ := setSlot_eq h
  rw [gate_setGate w c b _ (gate_lt hC)]
  by_cases hcb : c = b
  · subst hcb
    rw [hC] at hb
    simp only [Option.some.injEq] at hb
    subst hb
    simp
  · have : ¬ b = c := fun e => hcb e.symm
    simp [hcb, this, hb]

theorem pushOutput_gate {w : World} {o : Nat} {O : NandGate} (c : Nat) (hO : w.gate o = some O)
    {b : Nat} {Gb : NandGate} (hb : w.gate b = some Gb) :
    (w.setGate o { O with outputs := c :: O.outputs }).gate b =
      some ⟨Gb.inputs, Gb.visited, if b = o then c :: Gb.outputs else Gb.outputs⟩ := by
  rw [gate_setGate w o b _ (gate_lt hO)]
  by_cases hob : o = b
  · subst hob
    rw [hO] at hb
    simp only [Option.some.injEq] at hb
    subst hb
    simp
  · have : ¬ b = o := fun e => hob e.symm
    simp [hob, this, hb]

/-- What a successful `nand_connect_signal (s, g, k)` does to each gate: slot
`k` of `g` is rewritten, the producer the slot was bound to loses its first
entry `g`, nothing else changes. -/
theorem connect_signal_lists {w w1 w2 : World} {g k s : Nat} {slot : Input}
    (h1 : (slot.gate = none ∧ w1 = w) ∨
        (∃ old, slot.gate = some old ∧ slot.signalBool = none ∧
          remove_output w old g = some w1))
    (h2 : setSlot w1 g k ⟨none, some s⟩ = some w2) {b : Nat} {Gb : NandGate}
    (hb : w.gate b = some Gb) :
    w2.gate b = some ⟨if b = g then Gb.inputs.set k ⟨none, some s⟩ else Gb.inputs, Gb.visited,
      if slot.gate = some b then Gb.outputs.erase g else Gb.outputs⟩ := by
  rcases h1 with ⟨hg, rfl⟩ | ⟨old, hg, _, hrem⟩
  · rw [setSlot_gate h2 hb]
    simp [hg]
  · rw [setSlot_gate h2 (remove_output_gate hrem hb), hg]
    by_cases hbo : b = old
    · subst hbo; simp
    · have : ¬ old = b := fun e => hbo e.symm
      simp [hbo, this]

theorem connect_signal_total {w : World} {g k s : Nat} {G : NandGate} (hcl : Closed w)
    (hex : Excl w) (hG : w.gate g = some G) (hk : k < G.inputs.length) :
    ∃ w2, nand_connect_signal w (some s) (some g) k = some (w2, SUCCESS) := by
  rw [closed_iff] at hcl
  rw [excl_iff] at hex
  obtain ⟨slot, hslot, hmem⟩ : ∃ slot, G.inputs[k]? = some slot ∧ slot ∈ G.inputs :=
    ⟨G.inputs.get ⟨k, hk⟩, by rw [List.getElem?_eq_getElem hk]; rfl, List.get_mem _ _ _⟩
  have hnk : ¬ G.n ≤ k := by unfold NandGate.n; omega
  have hexs := hex g G hG slot hmem
  have hcls := (hcl g G hG).1 slot hmem
  unfold nand_connect_signal
  simp only [hG, hnk, if_false, hslot]
  rcases slot with ⟨sg, ss⟩
  cases sg with
  | none =>
    simp only [setSlot_isSome _ hG hk, Option.map_some']
    exact ⟨_, rfl⟩
  | some old =>
    cases ss with
    | some sv => simp at hexs
    | none =>
      obtain ⟨w1, hw1⟩ := remove_output_isSome g (hcls old rfl)
      have hG1 := remove_output_gate hw1 hG
      simp only [ne_eq, not_true_eq_false, if_false, hw1, setSlot_isSome _ hG1 hk,
        Option.map_some']
      exact ⟨_, rfl⟩

/-- C12. For a live gate `G` and `k < G.n`, after any successful
`nand_connect_signal (s, G, k)`: `nand_input (G, k)` returns `s`; every gate
keeps its input slots, except that slot `k` of `G` is rewritten; every gate
keeps its output list, except that the producer slot `k` was bound to loses its
first entry `G`, which under the correspondence invariant makes the number of
its entries `G` exactly one less.  On a graph without dangling pointers and with
exclusive slots the call does succeed. -/
theorem C12_connect_signal_binds (w : World) (g k s : Nat) (G : NandGate)
    (hG : w.gate g = some G) (hk : k < G.n) :
    (∀ w1, nand_connect_signal w (some s) (some g) k = some (w1, SUCCESS) →
      nand_input w1 (some g) k = some (w1, VoidPtr.signal s) ∧
      (∀ b Gb, w.gate b = some Gb → ∃ Gb1, w1.gate b = some Gb1 ∧
        Gb1.inputs = (if b = g then Gb.inputs.set k ⟨none, some s⟩ else Gb.inputs) ∧
        Gb1.outputs = (if (G.inputs[k]?).bind Input.gate = some b
          then Gb.outputs.erase g else Gb.outputs)) ∧
      (∀ P, (G.inputs[k]?).bind Input.gate = some P → Corr w →
        outCnt w1 P g + 1 = outCnt w P g)) ∧
    (Closed w → Excl w →
      ∃ w1, nand_connect_signal w (some s) (some g) k = some (w1, SUCCESS)) := by
  refine ⟨fun w2 h => ?_, fun hcl hex => connect_signal_total hcl hex hG hk⟩
  rcases connect_signal_inv h with ⟨hr, _⟩ |
    ⟨_, g0, s0, G0, slot, w1, hg0, hs0, hG0, hk0, hslot, h1, h2⟩
  · simp [SUCCESS, FAIL] at hr
  · simp only [Option.some.injEq] at hg0 hs0
    subst hg0; subst hs0
    rw [hG] at hG0
    simp only [Option.some.injEq] at hG0
    subst hG0
    have hlists := fun (b : Nat) (Gb : NandGate) (hb : w.gate b = some Gb) =>
      connect_signal_lists h1 h2 hb
    obtain ⟨_, hout, _, _, _, _⟩ := connect_signal_effect hG hk0 hslot h1 h2
    refine ⟨?_, fun b Gb hb => ⟨_, hlists b Gb hb, rfl, by simp [hslot]⟩, fun P hP hcorr => ?_⟩
    · have hg2 := hlists g G hG
      simp only [if_true] at hg2
      simp only [nand_input, hg2, NandGate.n, List.length_set]
      have hnk : ¬ G.inputs.length ≤ k := by omega
      simp [hnk, List.getElem?_set, hk0]
    · simp only [hslot, Option.some_bind] at hP
      have hpos := inCnt_pos_of_slot hG hslot hP
      have hPlive : (w.gate P).isSome = true := by
        by_contra hdead
        rcases h1 with ⟨hn, _⟩ | ⟨old, ho, _, hrem⟩
        · rw [hn] at hP; simp at hP
        · rw [ho] at hP
          simp only [Option.some.injEq] at hP
          subst hP
          obtain ⟨S, hS, _⟩ := remove_output_eq hrem
          simp [hS] at hdead
      rw [corr_iff_cnt] at hcorr
      have hc := hcorr P g hPlive (by rw [hG]; rfl)
      rw [hout, hP]
      simp only [and_self, if_true]
      omega

/-- Instance of C12 on `netLoop`: binding slot 0 of gate `0`, which held a
self-loop, to the constant at address `7` gives `netLoopSignal`. -/
theorem C12_connect_signal_binds_witness :
    (nand_input netLoopSignal (some 0) 0 = some (netLoopSignal, VoidPtr.signal 7) ∧
      (∀ b Gb, netLoop.gate b = some Gb → ∃ Gb1, netLoopSignal.gate b = some Gb1 ∧
        Gb1.inputs = (if b = 0 then Gb.inputs.set 0 ⟨none, some 7⟩ else Gb.inputs) ∧
        Gb1.outputs = (if (([⟨some 0, none⟩, ⟨some 1, none⟩] : List Input)[0]?).bind Input.gate
          = some b then Gb.outputs.erase 0 else Gb.outputs)) ∧
      (∀ P, (([⟨some 0, none⟩, ⟨some 1, none⟩] : List Input)[0]?).bind Input.gate = some P →
        Corr netLoop → outCnt netLoopSignal P 0 + 1 = outCnt netLoop P 0)) ∧
    ∃ w1, nand_connect_signal netLoop (some 7) (some 0) 0 = some (w1, SUCCESS) :=
  ⟨(C12_connect_signal_binds netLoop 0 0 7 ⟨[⟨some 0, none⟩, ⟨some 1, none⟩], false, [0, 1, 1]⟩
      (by decide) (by decide)).1 netLoopSignal (by decide),
    (C12_connect_signal_binds netLoop 0 0 7 ⟨[⟨some 0, none⟩, ⟨some 1, none⟩], false, [0, 1, 1]⟩
      (by decide) (by decide)).2 (by decide) (by decide)⟩

/-! ## Gate by gate: what connection and deletion do -/

/-- What a successful `nand_connect_nand (o, c, k)` does to each gate: slot `k`
of `c` is rewritten, `o` gets a new first entry `c`, and then the producer the
slot was bound to loses its first entry `c`. -/
theorem connect_nand_lists {w w2 w3 : World} {o c k : Nat} {O : NandGate} {slot : Input}
    (hO : w.gate o = some O)
    (h2 : (slot.gate = none ∧ w2 = w.setGate o { O with outputs := c :: O.outputs }) ∨
        (∃ old, slot.gate = some old ∧ slot.signalBool = none ∧
          remove_output (w.setGate o { O with outputs := c :: O.outputs }) old c = some w2))
    (h3 : setSlot w2 c k ⟨some o, none⟩ = some w3) {b : Nat} {Gb : NandGate}
    (hb : w.gate b = some Gb) :
    w3.gate b = some ⟨if b = c then Gb.inputs.set k ⟨some o, none⟩ else Gb.inputs, Gb.visited,
      if slot.gate = some b then (if b = o then c :: Gb.outputs else Gb.outputs).erase c
      else (if b = o then c :: Gb.outputs else Gb.outputs)⟩ := by
  have h1 := pushOutput_gate c hO hb
  rcases h2 with ⟨hg, rfl⟩ | ⟨old, hg, _, hrem⟩
  · rw [setSlot_gate h3 h1]
    simp [hg]
  · rw [setSlot_gate h3 (remove_output_gate hrem h1), hg]
    by_cases hbo : b = old
    · subst hbo; simp
    · have : ¬ old = b := fun e => hbo e.symm
      simp [hbo, this]

theorem slotsCleared_refl (g : Nat) (l : List Input) : SlotsCleared g l l :=
  ⟨rfl, fun _ => Or.inl rfl⟩

theorem slotsCleared_trans {g : Nat} {l1 l2 l3 : List Input} (h12 : SlotsCleared g l1 l2)
    (h23 : SlotsCleared g l2 l3) : SlotsCleared g l1 l3 := by
  refine ⟨h23.1.trans h12.1, fun i => ?_⟩
  rcases h23.2 i with h | ⟨h, s, hs⟩
  · rw [h]; exact h12.2 i
  · rcases h12.2 i with h' | ⟨h', _⟩
    · exact Or.inr ⟨h, s, by rw [← h']; exact hs⟩
    · rw [h'] at hs
      simp at hs

theorem remove_single_input_gate {w w1 : World} {c g : Nat}
    (h : remove_single_input w c g = some w1) {b : Nat} {Gb : NandGate}
    (hb : w.gate b = some Gb) :
    ∃ Gb1, w1.gate b = some Gb1 ∧ Gb1.outputs = Gb.outputs ∧ Gb1.visited = Gb.visited ∧
      SlotsCleared g Gb.inputs Gb1.inputs := by
  obtain ⟨C, i, hi, hC, hget, rfl⟩ := remove_single_input_eq h
  rw [gate_setGate w c b _ (gate_lt hC)]
  by_cases hcb : c = b
  · subst hcb
    rw [hC] at hb
    simp only [Option.some.injEq] at hb
    subst hb
    refine ⟨{ C with inputs := C.inputs.set i ⟨none, none⟩ }, by rw [if_pos rfl], rfl, rfl,
      by simp, fun j => ?_⟩
    show (C.inputs.set i ⟨none, none⟩)[j]? = C.inputs[j]? ∨ _
    by_cases hij : i = j
    · subst hij
      right
      refine ⟨by rw [List.getElem?_set]; simp [hi], (C.inputs.get ⟨i, hi⟩).signalBool, ?_⟩
      rw [List.getElem?_eq_getElem hi]
      simp only [List.get_eq_getElem] at hget ⊢
      rw [← hget]
    · left
      rw [List.getElem?_set]
      simp [hij]
  · exact ⟨Gb, by simp [hcb, hb], rfl, rfl, slotsCleared_refl g _⟩

theorem deleteOutputsLoop_gate (g : Nat) : ∀ (cs : List Nat) (w w1 : World),
    deleteOutputsLoop g cs w = some w1 → ∀ (b : Nat) (Gb : NandGate), w.gate b = some Gb →
    ∃ Gb1, w1.gate b = some Gb1 ∧ Gb1.outputs = Gb.outputs ∧ Gb1.visited = Gb.visited ∧
      SlotsCleared g Gb.inputs Gb1.inputs := by
  intro cs
  induction cs with
  | nil =>
    intro w w1 h b Gb hb
    simp only [deleteOutputsLoop, Option.some.injEq] at h
    subst h
    exact ⟨Gb, hb, rfl, rfl, slotsCleared_refl g _⟩
  | cons c rest ih =>
    intro w w1 h b Gb hb
    unfold deleteOutputsLoop at h
    cases hrem : remove_single_input w c g with
    | none => simp [hrem] at h
    | some w0 =>
      simp only [hrem] at h
      obtain ⟨G0, hG0, ho0, hv0, hs0⟩ := remove_single_input_gate hrem hb
      obtain ⟨G1, hG1, ho1, hv1, hs1⟩ := ih w0 w1 h b G0 hG0
      exact ⟨G1, hG1, ho1.trans ho0, hv1.trans hv0, slotsCleared_trans hs0 hs1⟩

theorem deleteInputsLoop_gate (g : Nat) : ∀ (slots : List Input) (w w1 : World),
    deleteInputsLoop g slots w = some w1 → ∀ (b : Nat) (Gb : NandGate), w.gate b = some Gb →
    w1.gate b = some ⟨Gb.inputs, Gb.visited,
      eraseTimes g (slots.countP (fun inp => decide (inp.gate = some b))) Gb.outputs⟩ := by
  intro slots
  induction slots with
  | nil =>
    intro w w1 h b Gb hb
    simp only [deleteInputsLoop, Option.some.injEq] at h
    subst h
    simpa [eraseTimes] using hb
  | cons inp rest ih =>
    intro w w1 h b Gb hb
    unfold deleteInputsLoop at h
    cases hg : inp.gate with
    | none =>
      simp only [hg] at h
      rw [ih w w1 h b Gb hb]
      simp [List.countP_cons, hg]
    | some p =>
      simp only [hg] at h
      cases hrem : remove_output w p g with
      | none => simp [hrem] at h
      | some w0 =>
        simp only [hrem] at h
        rw [ih w0 w1 h b _ (remove_output_gate hrem hb)]
        by_cases hbp : b = p
        · subst hbp
          simp [List.countP_cons, hg, eraseTimes]
        · have : ¬ p = b := fun e => hbp e.symm
          simp [List.countP_cons, hg, hbp, this]

theorem eraseTimes_cons_ne {a x : Nat} (hx : x ≠ a) : ∀ (n : Nat) (l : List Nat),
    eraseTimes a n (x :: l) = x :: eraseTimes a n l := by
  intro n
  induction n with
  | zero => intro l; rfl
  | succ n ih =>
    intro l
    simp only [eraseTimes]
    rw [List.erase_cons_tail (by simpa using hx), ih]

theorem eraseTimes_count (a : Nat) : ∀ l : List Nat,
    eraseTimes a (l.count a) l = l.filter (fun x => decide (x ≠ a)) := by
  intro l
  induction l with
  | nil => rfl
  | cons x l ih =>
    by_cases hx : x = a
    · subst hx
      simp only [List.count_cons_self, eraseTimes, List.erase_cons_head]
      rw [ih]
      simp
    · rw [List.count_cons_of_ne (fun e => hx e.symm), eraseTimes_cons_ne hx, ih]
      simp [hx]

/-! ## The invariants hold in every reachable state -/

theorem closed_iff_cnt (w : World) :
    Closed w ↔ ∀ P X, (0 < outCnt w P X → (w.gate X).isSome = true) ∧
      (0 < inCnt w P X → (w.gate P).isSome = true) := by
  rw [closed_iff]
  constructor
  · intro h P X
    constructor
    · intro hpos
      unfold outCnt at hpos
      cases hP : w.gate P with
      | none => simp [hP] at hpos
      | some G =>
        simp only [hP] at hpos
        exact (h P G hP).2 X (List.count_pos_iff.mp hpos)
    · intro hpos
      unfold inCnt slotCount at hpos
      cases hX : w.gate X with
      | none => simp [hX] at hpos
      | some G =>
        simp only [hX] at hpos
        obtain ⟨inp, hmem, hp⟩ := List.countP_pos_iff.mp hpos
        exact (h X G hX).1 inp hmem P (by simpa using hp)
  · intro h a G hG
    constructor
    · intro inp hmem p hp
      apply (h p a).2
      rw [inCnt_of_gate hG]
      unfold slotCount
      rw [List.countP_pos_iff]
      exact ⟨inp, hmem, by simpa using hp⟩
    · intro c hc
      apply (h a c).1
      rw [outCnt_of_gate hG]
      exact List.count_pos_iff.mpr hc

theorem closed_connect_nand {w w3 : World} {og ig : Option Nat} {k : Nat} {m : Bool} {r : Int}
    (hcl : Closed w) (h : nand_connect_nand w og ig k m = some (w3, r)) : Closed w3 := by
  rcases connect_nand_inv h with ⟨_, hheap, _⟩ |
    ⟨_, _, o, c, C, O, slot, w2, rfl, rfl, hC, hO, hk, hslot, h2, h3⟩
  · exact closed_of_heap_eq hheap hcl
  · obtain ⟨hlive, hout, hin, _, _, _⟩ := connect_nand_effect hC hO hk hslot h2 h3
    rw [closed_iff_cnt] at hcl ⊢
    intro P X
    rw [hlive, hlive, hout, hin]
    constructor
    · intro hpos
      by_cases hPX : P = o ∧ X = c
      · rw [hPX.2, hC]; rfl
      · apply (hcl P X).1
        simp only [hPX, if_false] at hpos
        omega
    · intro hpos
      by_cases hXc : X = c
      · by_cases hPo : P = o
        · rw [hPo, hO]; rfl
        · apply (hcl P c).2
          simp only [hXc, if_true, hPo, if_false] at hpos
          omega
      · apply (hcl P X).2
        simpa only [hXc, if_false] using hpos

theorem closed_connect_signal {w w2 : World} {sg gt : Option Nat} {k : Nat} {r : Int}
    (hcl : Closed w) (h : nand_connect_signal w sg gt k = some (w2, r)) : Closed w2 := by
  rcases connect_signal_inv h with ⟨_, hheap⟩ |
    ⟨_, g, s, G, slot, w1, rfl, rfl, hG, hk, hslot, h1, h2⟩
  · exact closed_of_heap_eq hheap hcl
  · obtain ⟨hlive, hout, hin, _, _, _⟩ := connect_signal_effect hG hk hslot h1 h2
    rw [closed_iff_cnt] at hcl ⊢
    intro P X
    rw [hlive, hlive, hout, hin]
    constructor
    · intro hpos
      apply (hcl P X).1
      omega
    · intro hpos
      apply (hcl P X).2
      by_cases hXg : X = g
      · simp only [hXg, if_true] at hpos
        rw [hXg]
        omega
      · simpa only [hXg, if_false] using hpos

theorem closed_delete {w w3 : World} {g : Option Nat} (hcl : Closed w) (hcorr : Corr w)
    (h : nand_delete w g = some w3) : Closed w3 := by
  cases g with
  | none =>
    simp only [nand_delete, Option.some.injEq] at h
    subst h
    exact hcl
  | some g =>
    obtain ⟨G, hG, hg3, hlive, hout, hin, _⟩ := delete_effect h
    rw [closed_iff_cnt] at hcl ⊢
    rw [corr_iff_cnt] at hcorr
    have hglive : (w.gate g).isSome = true := by rw [hG]; rfl
    intro P X
    constructor
    · intro hpos
      have hPg : P ≠ g := by
        rintro rfl
        simp [outCnt, hg3] at hpos
      rw [hout P X hPg] at hpos
      have hpos0 : 0 < outCnt w P X := by omega
      have hPlive : (w.gate P).isSome = true := by
        unfold outCnt at hpos0
        cases hP : w.gate P with
        | none => simp [hP] at hpos0
        | some _ => rfl
      have hXg : X ≠ g := by
        rintro rfl
        have := hcorr P X hPlive hglive
        rw [inCnt_of_gate hG] at this
        simp only [if_true] at hpos
        omega
      rw [hlive X hXg]
      exact (hcl P X).1 hpos0
    · intro hpos
      have hXg : X ≠ g := by
        rintro rfl
        simp [inCnt, hg3] at hpos
      rw [hin P X hXg] at hpos
      have hpos0 : 0 < inCnt w P X := by omega
      have hXlive : (w.gate X).isSome = true := by
        unfold inCnt at hpos0
        cases hX : w.gate X with
        | none => simp [hX] at hpos0
        | some _ => rfl
      have hPg : P ≠ g := by
        rintro rfl
        have := hcorr P X hglive hXlive
        simp only [if_true] at hpos
        omega
      rw [hlive P hPg]
      exact (hcl P X).2 hpos0

theorem gate_nand_new_any (w : World) (n : Nat) (m1 m2 m3 : Bool) (a : Nat) (G : NandGate)
    (h : (nand_new w n m1 m2 m3).1.gate a = some G) :
    w.gate a = some G ∨
      (w.gate a = none ∧ G = ⟨List.replicate n ⟨none, none⟩, false, []⟩) := by
  unfold nand_new at h
  cases m1 with
  | false => exact Or.inl h
  | true =>
  cases m2 with
  | false => exact Or.inl h
  | true =>
  cases m3 with
  | false => exact Or.inl h
  | true =>
  simp only [Bool.true_eq_false, if_false, World.gate] at h
  by_cases ha : a < w.heap.length
  · rw [List.getElem?_append_left ha] at h
    exact Or.inl h
  · rw [List.getElem?_append_right (by omega)] at h
    right
    refine ⟨by unfold World.gate; rw [List.getElem?_eq_none (by omega)]; rfl, ?_⟩
    cases hx : a - w.heap.length with
    | zero => simp [hx] at h; exact h.symm
    | succ j => simp [hx] at h

theorem gate_nand_new_old (w : World) (n : Nat) (m1 m2 m3 : Bool) {a : Nat} {G : NandGate}
    (h : w.gate a = some G) : (nand_new w n m1 m2 m3).1.gate a = some G := by
  unfold nand_new
  cases m1 with
  | false => exact h
  | true =>
  cases m2 with
  | false => exact h
  | true =>
  cases m3 with
  | false => exact h
  | true =>
  simp only [Bool.true_eq_false, if_false, World.gate]
  rw [List.getElem?_append_left (gate_lt h)]
  exact h

theorem closed_new {w : World} (n : Nat) (m1 m2 m3 : Bool) (hcl : Closed w) :
    Closed (nand_new w n m1 m2 m3).1 := by
  rw [closed_iff] at hcl ⊢
  have hmono : ∀ p, (w.gate p).isSome = true →
      ((nand_new w n m1 m2 m3).1.gate p).isSome = true := by
    intro p hp
    obtain ⟨Gp, hGp⟩ := Option.isSome_iff_exists.mp hp
    rw [gate_nand_new_old w n m1 m2 m3 hGp]; rfl
  intro a G hG
  rcases gate_nand_new_any w n m1 m2 m3 a G hG with h0 | ⟨_, rfl⟩
  · obtain ⟨h1, h2⟩ := hcl a G h0
    exact ⟨fun inp hi p hp => hmono p (h1 inp hi p hp), fun c hc => hmono c (h2 c hc)⟩
  · refine ⟨fun inp hi p hp => ?_, fun c hc => by simp at hc⟩
    rw [(List.mem_replicate.mp hi).2] at hp
    simp at hp

theorem excl_new {w : World} (n : Nat) (m1 m2 m3 : Bool) (hex : Excl w) :
    Excl (nand_new w n m1 m2 m3).1 := by
  rw [excl_iff] at hex ⊢
  intro a G hG
  rcases gate_nand_new_any w n m1 m2 m3 a G hG with h0 | ⟨_, rfl⟩
  · exact hex a G h0
  · intro inp hi
    rw [(List.mem_replicate.mp hi).2]
    exact Or.inl rfl

theorem corr_new {w : World} (n : Nat) (m1 m2 m3 : Bool) (hcl : Closed w) (hcorr : Corr w) :
    Corr (nand_new w n m1 m2 m3).1 := by
  rw [closed_iff] at hcl
  rw [corr_iff] at hcorr ⊢
  intro P C GP GC hP hC
  rcases gate_nand_new_any w n m1 m2 m3 P GP hP with hP0 | ⟨hPdead, rfl⟩
  · rcases gate_nand_new_any w n m1 m2 m3 C GC hC with hC0 | ⟨hCdead, rfl⟩
    · exact hcorr P C GP GC hP0 hC0
    · have h1 : GP.outputs.count C = 0 := by
        rw [List.count_eq_zero]
        intro hmem
        have := (hcl P GP hP0).2 C hmem
        simp [hCdead] at this
      rw [h1]
      unfold slotCount
      symm
      rw [List.countP_eq_zero]
      intro inp hi
      rw [(List.mem_replicate.mp hi).2]
      simp
  · simp only [List.count_nil]
    unfold slotCount
    symm
    rw [List.countP_eq_zero]
    intro inp hi
    rcases gate_nand_new_any w n m1 m2 m3 C GC hC with hC0 | ⟨_, rfl⟩
    · intro hp
      have := (hcl C GC hC0).1 inp hi P (by simpa using hp)
      simp [hPdead] at this
    · rw [(List.mem_replicate.mp hi).2]
      simp

theorem excl_connect_nand {w w3 : World} {og ig : Option Nat} {k : Nat} {m : Bool} {r : Int}
    (hex : Excl w) (h : nand_connect_nand w og ig k m = some (w3, r)) : Excl w3 := by
  rcases connect_nand_inv h with ⟨_, hheap, _⟩ |
    ⟨_, _, o, c, C, O, slot, w2, rfl, rfl, hC, hO, hk, hslot, h2, h3⟩
  · exact excl_of_heap_eq hheap hex
  · obtain ⟨hlive, _, _, _, _, _⟩ := connect_nand_effect hC hO hk hslot h2 h3
    rw [excl_iff] at hex ⊢
    intro b G3 hG3
    have hb : (w.gate b).isSome = true := by rw [← hlive, hG3]; rfl
    obtain ⟨Gb, hGb⟩ := Option.isSome_iff_exists.mp hb
    rw [connect_nand_lists hO h2 h3 hGb] at hG3
    simp only [Option.some.injEq] at hG3
    subst hG3
    intro inp hi
    simp only at hi
    split_ifs at hi
    · rcases List.mem_or_eq_of_mem_set hi with h1 | h1
      · exact hex b Gb hGb inp h1
      · rw [h1]; exact Or.inr rfl
    · exact hex b Gb hGb inp hi

theorem excl_connect_signal {w w2 : World} {sg gt : Option Nat} {k : Nat} {r : Int}
    (hex : Excl w) (h : nand_connect_signal w sg gt k = some (w2, r)) : Excl w2 := by
  rcases connect_signal_inv h with ⟨_, hheap⟩ |
    ⟨_, g, s, G, slot, w1, rfl, rfl, hG, hk, hslot, h1, h2⟩
  · exact excl_of_heap_eq hheap hex
  · obtain ⟨hlive, _, _, _, _, _⟩ := connect_signal_effect hG hk hslot h1 h2
    rw [excl_iff] at hex ⊢
    intro b G2 hG2
    have hb : (w.gate b).isSome = true := by rw [← hlive, hG2]; rfl
    obtain ⟨Gb, hGb⟩ := Option.isSome_iff_exists.mp hb
    rw [connect_signal_lists h1 h2 hGb] at hG2
    simp only [Option.some.injEq] at hG2
    subst hG2
    intro inp hi
    simp only at hi
    split_ifs at hi
    · rcases List.mem_or_eq_of_mem_set hi with h1 | h1
      · exact hex b Gb hGb inp h1
      · rw [h1]; exact Or.inl rfl
    · exact hex b Gb hGb inp hi

/-- What `nand_delete (g)` does to each surviving gate: its output list loses
its first entries `g`, one for every slot of `g` bound to it, and some of its
slots bound to `g` are cleared. -/
theorem delete_gate {w w3 : World} {g : Nat} {G : NandGate}
    (h : nand_delete w (some g) = some w3) (hG : w.gate g = some G) {b : Nat} {Gb : NandGate}
    (hb : w.gate b = some Gb) (hbg : b ≠ g) :
    ∃ Gb3, w3.gate b = some Gb3 ∧ Gb3.visited = Gb.visited ∧
      Gb3.outputs = eraseTimes g (slotCount b G) Gb.outputs ∧
      SlotsCleared g Gb.inputs Gb3.inputs := by
  obtain ⟨G', w1, G1, w2, hG', h1, hG1, h2, rfl⟩ := delete_inv h
  rw [hG] at hG'
  simp only [Option.some.injEq] at hG'
  subst hG'
  have hb1 := deleteInputsLoop_gate g G.inputs w w1 h1 b Gb hb
  obtain ⟨Gb2, hGb2, ho, hv, hs⟩ := deleteOutputsLoop_gate g G1.outputs w1 w2 h2 b _ hb1
  refine ⟨Gb2, ?_, hv, ho, hs⟩
  rw [gate_free, if_neg (Ne.symm hbg)]
  exact hGb2

theorem excl_delete {w w3 : World} {g : Option Nat} (hex : Excl w)
    (h : nand_delete w g = some w3) : Excl w3 := by
  cases g with
  | none =>
    simp only [nand_delete, Option.some.injEq] at h
    subst h
    exact hex
  | some g =>
    obtain ⟨G, hG, hg3, hlive, _, _, _⟩ := delete_effect h
    rw [excl_iff] at hex ⊢
    intro b G3 hG3
    have hbg : b ≠ g := by
      rintro rfl
      rw [hg3] at hG3
      simp at hG3
    have hb : (w.gate b).isSome = true := by rw [← hlive b hbg, hG3]; rfl
    obtain ⟨Gb, hGb⟩ := Option.isSome_iff_exists.mp hb
    obtain ⟨Gb3, hGb3, _, _, hs⟩ := delete_gate h hG hGb hbg
    rw [hG3] at hGb3
    simp only [Option.some.injEq] at hGb3
    subst hGb3
    intro inp hi
    obtain ⟨i, hlt, hget⟩ := List.getElem_of_mem hi
    have hsome : G3.inputs[i]? = some inp := by
      rw [List.getElem?_eq_getElem hlt, hget]
    rcases hs.2 i with hsame | ⟨hclr, _⟩
    · rw [hsame] at hsome
      exact hex b Gb hGb inp (List.getElem?_mem hsome)
    · rw [hclr] at hsome
      simp only [Option.some.injEq] at hsome
      rw [← hsome]
      exact Or.inl rfl

/-- Every reachable state has no dangling pointers, satisfies the
correspondence invariant and has exclusive slots. -/
theorem reachable_invariants {w : World} (h : Reachable w) : Closed w ∧ Corr w ∧ Excl w := by
  induction h with
  | init e =>
    refine ⟨?_, ?_, ?_⟩
    · intro a ha; simp at ha
    · intro a ha; simp at ha
    · intro a ha; simp at ha
  | new n m1 m2 m3 _ ih =>
    exact ⟨closed_new n m1 m2 m3 ih.1, corr_new n m1 m2 m3 ih.1 ih.2.1,
      excl_new n m1 m2 m3 ih.2.2⟩
  | connect_nand og ig k m r _ hcall ih =>
    exact ⟨closed_connect_nand ih.1 hcall, corr_connect_nand ih.2.1 hcall,
      excl_connect_nand ih.2.2 hcall⟩
  | connect_signal sg gt k r _ hcall ih =>
    exact ⟨closed_connect_signal ih.1 hcall, corr_connect_signal ih.2.1 hcall,
      excl_connect_signal ih.2.2 hcall⟩
  | delete g _ hcall ih =>
    exact ⟨closed_delete ih.1 ih.2.1 hcall, corr_delete ih.2.1 hcall, excl_delete ih.2.2 hcall⟩

theorem connect_nand_returns {w : World} (hcl : Closed w) (hex : Excl w) (og ig : Option Nat)
    (k : Nat) (m : Bool) (ho : ∀ o, og = some o → (w.gate o).isSome = true)
    (hc : ∀ c, ig = some c → (w.gate c).isSome = true) :
    ∃ res, nand_connect_nand w og ig k m = some res := by
  cases og with
  | none => exact ⟨_, by cases ig <;> rfl⟩
  | some o =>
  cases ig with
  | none => exact ⟨_, rfl⟩
  | some c =>
  obtain ⟨C, hC⟩ := Option.isSome_iff_exists.mp (hc c rfl)
  by_cases hk : C.n ≤ k
  · exact ⟨(w.setErrno EINVAL, FAIL), by simp [nand_connect_nand, hC, hk]⟩
  · cases m with
    | false => exact ⟨(w.setErrno ENOMEM, FAIL), by simp [nand_connect_nand, hC, hk]⟩
    | true =>
      have hk1 : k < C.inputs.length := by unfold NandGate.n at hk; omega
      obtain ⟨w3, h3⟩ := connect_nand_total hcl hex (ho o rfl) hC hk1
      exact ⟨_, h3⟩

theorem connect_signal_returns {w : World} (hcl : Closed w) (hex : Excl w) (sg gt : Option Nat)
    (k : Nat) (hg : ∀ g, gt = some g → (w.gate g).isSome = true) :
    ∃ res, nand_connect_signal w sg gt k = some res := by
  cases gt with
  | none => exact ⟨_, by cases sg <;> rfl⟩
  | some g =>
  cases sg with
  | none => exact ⟨_, rfl⟩
  | some s =>
  obtain ⟨G, hG⟩ := Option.isSome_iff_exists.mp (hg g rfl)
  by_cases hk : G.n ≤ k
  · exact ⟨(w.setErrno EINVAL, FAIL), by simp [nand_connect_signal, hG, hk]⟩
  · have hk1 : k < G.inputs.length := by unfold NandGate.n at hk; omega
    obtain ⟨w2, h2⟩ := connect_signal_total (s := s) hcl hex hG hk1
    exact ⟨_, h2⟩

theorem reachable_netAB : Reachable netAB :=
  Reachable.connect_nand (some 0) (some 1) 0 true SUCCESS
    (Reachable.new 1 true true true (Reachable.new 2 true true true (Reachable.init 0)))
    (by decide)

/-- C11. In every state reachable by `nand_new`, `nand_connect_nand`,
`nand_connect_signal` and `nand_delete`, no input slot has both its `gate` and
its `signalBool` field non-null; so what the assertions of `nand_connect_nand`
and `nand_connect_signal` check holds for every slot, and every call of the two
functions on null or live gates returns instead of aborting. -/
theorem C11_slot_exclusivity (w : World) (h : Reachable w) :
    Excl w ∧
    (∀ (c : Nat) (C : NandGate) (k : Nat) (slot : Input),
      w.gate c = some C → C.inputs[k]? = some slot →
      (slot.signalBool ≠ none → slot.gate = none) ∧
      (slot.gate ≠ none → slot.signalBool = none)) ∧
    (∀ og ig k m, (∀ o, og = some o → (w.gate o).isSome = true) →
      (∀ c, ig = some c → (w.gate c).isSome = true) →
      ∃ res, nand_connect_nand w og ig k m = some res) ∧
    (∀ sg gt k, (∀ g, gt = some g → (w.gate g).isSome = true) →
      ∃ res, nand_connect_signal w sg gt k = some res) := by
  obtain ⟨hcl, _, hex⟩ := reachable_invariants h
  refine ⟨hex, fun c C k slot hC hslot => ?_,
    fun og ig k m ho hc => connect_nand_returns hcl hex og ig k m ho hc,
    fun sg gt k hg => connect_signal_returns hcl hex sg gt k hg⟩
  rw [excl_iff] at hex
  rcases hex c C hC slot (List.getElem?_mem hslot) with h1 | h1
  · exact ⟨fun _ => h1, fun h2 => absurd h1 h2⟩
  · exact ⟨fun h2 => absurd h1 h2, fun _ => h1⟩

/-- Instance of C11 on `netAB`, reached by two calls of `nand_new` and one of
`nand_connect_nand`. -/
theorem C11_slot_exclusivity_witness :
    Excl netAB ∧
    (∃ res, nand_connect_nand netAB (some 0) (some 1) 0 true = some res) ∧
    (∃ res, nand_connect_signal netAB (some 9) (some 1) 0 = some res) :=
  ⟨(C11_slot_exclusivity netAB reachable_netAB).1,
    (C11_slot_exclusivity netAB reachable_netAB).2.2.1 (some 0) (some 1) 0 true
      (fun o ho => by cases ho; decide) (fun c hc => by cases hc; decide),
    (C11_slot_exclusivity netAB reachable_netAB).2.2.2 (some 9) (some 1) 0
      (fun g hg => by cases hg; decide)⟩

/-! ## `nand_fan_out` and `nand_output` -/

theorem fanOutLoop_eq : ∀ (l : List Nat) (c : Nat),
    fanOutLoop l c = (c + l.length) % 2 ^ 32 ∨ ¬ c < 2 ^ 32 := by
  intro l
  induction l with
  | nil =>
    intro c
    by_cases hc : c < 2 ^ 32
    · left
      simp only [fanOutLoop, List.length_nil, Nat.add_zero]
      exact (Nat.mod_eq_of_lt hc).symm
    · exact Or.inr hc
  | cons x rest ih =>
    intro c
    by_cases hc : c < 2 ^ 32
    · left
      have hlt : (c + 1) % 2 ^ 32 < 2 ^ 32 := Nat.mod_lt _ (by norm_num)
      rcases ih ((c + 1) % 2 ^ 32) with h | h
      · simp only [fanOutLoop, h, List.length_cons]
        rw [Nat.mod_add_mod]
        congr 1
        omega
      · exact absurd hlt h
    · exact Or.inr hc

theorem fanOutLoop_zero (l : List Nat) : fanOutLoop l 0 = l.length % 2 ^ 32 := by
  rcases fanOutLoop_eq l 0 with h | h
  · simpa using h
  · exact absurd (by norm_num) h

theorem outputLoop_eq : ∀ (l : List Nat) (i k : Nat), i ≤ k → k < 2 ^ 32 →
    outputLoop l i (k : Int) = l[k - i]? := by
  intro l
  induction l with
  | nil => intro i k _ _; rfl
  | cons c rest ih =>
    intro i k hik hk
    unfold outputLoop
    by_cases hlt : i < k
    · have h1 : ((i : Int) < (k : Int)) := by omega
      have h2 : (i + 1) % 2 ^ 32 = i + 1 := Nat.mod_eq_of_lt (by omega)
      rw [if_pos h1, h2, ih (i + 1) k (by omega) hk]
      have h3 : k - i = (k - (i + 1)) + 1 := by omega
      rw [h3, List.getElem?_cons_succ]
    · have h1 : ¬ ((i : Int) < (k : Int)) := by omega
      have h3 : k - i = 0 := by omega
      rw [if_neg h1, h3]
      simp

theorem outputLoop_neg (l : List Nat) (i : Nat) {k : Int} (hk : k < 0) :
    outputLoop l i k = l.head? := by
  cases l with
  | nil => rfl
  | cons c rest =>
    have h1 : ¬ ((i : Int) < k) := by omega
    simp [outputLoop, h1]

/-- What `nand_output (g, k)` does on a live gate: `EINVAL` when `k` reaches the
fan-out, the `k`-th entry when `0 <= k` is below the fan-out, and, when `k` is
negative, the first entry without any error (no defined result on an empty
list). -/
theorem nand_output_spec {w : World} {g : Nat} {G : NandGate} (hG : w.gate g = some G)
    (k : Int) :
    (((G.outputs.length % 2 ^ 32 : Nat) : Int) ≤ k →
      nand_output w (some g) k = some (w.setErrno EINVAL, none)) ∧
    (0 ≤ k → k < ((G.outputs.length % 2 ^ 32 : Nat) : Int) →
      ∃ c, G.outputs[k.toNat]? = some c ∧ nand_output w (some g) k = some (w, some c)) ∧
    (k < 0 → nand_output w (some g) k = (G.outputs.head?).map (fun c => (w, some c))) := by
  have hfan : nand_fan_out w (some g) = some (w, ((G.outputs.length % 2 ^ 32 : Nat) : Int)) := by
    simp [nand_fan_out, hG, fanOutLoop_zero]
  have hmodle : G.outputs.length % 2 ^ 32 ≤ G.outputs.length := Nat.mod_le _ _
  have hmodlt : G.outputs.length % 2 ^ 32 < 2 ^ 32 := Nat.mod_lt _ (by norm_num)
  refine ⟨fun hk => ?_, fun h0 hk => ?_, fun hk => ?_⟩
  · simp only [nand_output, hfan]
    rw [if_pos hk]
  · have hnk : ¬ (k ≥ ((G.outputs.length % 2 ^ 32 : Nat) : Int)) := by omega
    obtain ⟨n, rfl⟩ : ∃ n : Nat, k = (n : Int) := ⟨k.toNat, by omega⟩
    have hn : n < G.outputs.length := by omega
    refine ⟨G.outputs[n], by simp [hn], ?_⟩
    simp only [nand_output, hfan]
    rw [if_neg hnk]
    simp only [hG]
    rw [outputLoop_eq G.outputs 0 n (Nat.zero_le _) (by omega)]
    simp [hn]
  · have hnk : ¬ (k ≥ ((G.outputs.length % 2 ^ 32 : Nat) : Int)) := by omega
    simp only [nand_output, hfan]
    rw [if_neg hnk]
    simp only [hG]
    rw [outputLoop_neg _ _ hk]

/-- C14, at the failing input: with a negative index `nand_output` does not
fail.  On gate `0` of `netFan`, whose output list is `[2, 1]`, index `-1`
returns gate `2` and leaves `errno` alone; on gate `1`, whose list is empty,
index `-1` has no defined result (the head pointer is `NULL` and is
dereferenced).  An index at or above the fan-out is rejected with `EINVAL`, and
the indices from 0 up to the fan-out give the entry at that position. -/
theorem C14_negative_index_not_rejected :
    nand_output netFan (some 0) (-1) = some (netFan, some 2) ∧
    nand_output netFan (some 1) (-1) = none ∧
    nand_output netFan (some 0) 2 = some (netFan.setErrno EINVAL, none) ∧
    nand_output netFan (some 0) 0 = some (netFan, some 2) ∧
    nand_output netFan (some 0) 1 = some (netFan, some 1) := by
  decide

/-- C17, as stated, fails: in `netFan` slot 0 of gate `1` is already bound to
gate `0`, whose output list is `[2, 1]`; connecting gate `0` to that slot again
succeeds, pushes a node and unlinks it again, and `nand_output (0, 0)` then
returns gate `2`, not gate `1`. -/
theorem C17_counterexample :
    Closed netFan ∧ Corr netFan ∧ Excl netFan ∧
    nand_connect_nand netFan (some 0) (some 1) 0 true = some (netFan, SUCCESS) ∧
    nand_output netFan (some 0) 0 = some (netFan, some 2) := by
  decide

/-- C17, amended. After a successful `nand_connect_nand (P, C, k)`: when slot
`k` was unbound, bound to a constant or bound to another gate, the output list
of `P` is its previous list with a new first entry `C`, and `nand_output (P, 0)`
returns `C` (the list being short enough for the `unsigned` fan-out count);
when slot `k` was already bound to `P`, the output list of `P` is what it was,
the node pushed for the new binding being the one `remove_output` unlinks. -/
theorem C17_new_entry_first (w : World) (P C k : Nat) (GC GP : NandGate)
    (hC : w.gate C = some GC) (hP : w.gate P = some GP) (hk : k < GC.n) :
    (∀ m w1, nand_connect_nand w (some P) (some C) k m = some (w1, SUCCESS) →
      ∃ GP1, w1.gate P = some GP1 ∧
        GP1.outputs = (if (GC.inputs[k]?).bind Input.gate = some P then GP.outputs
          else C :: GP.outputs) ∧
        ((GC.inputs[k]?).bind Input.gate ≠ some P → GP.outputs.length + 1 < 2 ^ 32 →
          nand_output w1 (some P) 0 = some (w1, some C))) ∧
    (Closed w → Excl w →
      ∃ w1, nand_connect_nand w (some P) (some C) k true = some (w1, SUCCESS)) := by
  refine ⟨fun m w3 h => ?_, fun hcl hex =>
    connect_nand_total hcl hex (by rw [hP]; rfl) hC hk⟩
  rcases connect_nand_inv h with ⟨hr, _⟩ |
    ⟨_, _, o, c, C0, O, slot, w2, ho, hc, hC0, hO, hk0, hslot, h2, h3⟩
  · simp [SUCCESS, FAIL] at hr
  · simp only [Option.some.injEq] at ho hc
    subst ho; subst hc
    rw [hC] at hC0
    simp only [Option.some.injEq] at hC0
    subst hC0
    have hG3 := connect_nand_lists hO h2 h3 hP
    simp only [if_true, List.erase_cons_head] at hG3
    have houts : (if slot.gate = some P then GP.outputs else C :: GP.outputs) =
        (if (GC.inputs[k]?).bind Input.gate = some P then GP.outputs else C :: GP.outputs) := by
      simp [hslot]
    refine ⟨_, hG3, houts, fun hne hlen => ?_⟩
    have hne' : ¬ slot.gate = some P := by simpa [hslot] using hne
    simp only [hne', if_false] at hG3
    obtain ⟨c, hc0, hcall⟩ := (nand_output_spec hG3 0).2.1 (le_refl _) (by
      simp only [List.length_cons]
      rw [Nat.mod_eq_of_lt hlen]
      omega)
    simp only [Int.toNat_zero, List.getElem?_cons_zero, Option.some.injEq] at hc0
    rw [hcall, hc0]

/-- Instance of the amended C17 on `netLoop`: rewiring slot 0 of gate `0`, which
held a self-loop, to gate `1` gives `netLoopRewired`, where gate `0` is the
first entry of the output list of gate `1`. -/
theorem C17_new_entry_first_witness :
    (∃ GP1, netLoopRewired.gate 1 = some GP1 ∧
        GP1.outputs = (if (([⟨some 0, none⟩, ⟨some 1, none⟩] : List Input)[0]?).bind Input.gate
          = some 1 then [0] else 0 :: [0]) ∧
        ((([⟨some 0, none⟩, ⟨some 1, none⟩] : List Input)[0]?).bind Input.gate ≠ some 1 →
          ([0] : List Nat).length + 1 < 2 ^ 32 →
          nand_output netLoopRewired (some 1) 0 = some (netLoopRewired, some 0))) ∧
    ∃ w1, nand_connect_nand netLoop (some 1) (some 0) 0 true = some (w1, SUCCESS) :=
  ⟨(C17_new_entry_first netLoop 1 0 0 ⟨[⟨some 0, none⟩, ⟨some 1, none⟩], false, [0, 1, 1]⟩
      ⟨[⟨some 0, none⟩, ⟨some 0, none⟩], false, [0]⟩ (by decide) (by decide) (by decide)).1
      true netLoopRewired (by decide),
    (C17_new_entry_first netLoop 1 0 0 ⟨[⟨some 0, none⟩, ⟨some 1, none⟩], false, [0, 1, 1]⟩
      ⟨[⟨some 0, none⟩, ⟨some 0, none⟩], false, [0]⟩ (by decide) (by decide) (by decide)).2
      (by decide) (by decide)⟩

/-! ## Constants do not take part in evaluation -/

theorem wiring_of_sameWiring {w w1 : World} (h : SameWiring w w1) (a : Nat) :
    wiring w1 a = wiring w a := by
  by_cases ha : a < w.heap.length
  · exact h.2 a ha
  · have h0 : w.gate a = none := by
      unfold World.gate; rw [List.getElem?_eq_none (by omega)]; rfl
    have h1 : w1.gate a = none := by
      unfold World.gate; rw [List.getElem?_eq_none (by rw [h.1]; omega)]; rfl
    simp [wiring, h0, h1]

theorem sameWiring_gate {w w1 : World} (h : SameWiring w w1) {a : Nat} {G : NandGate}
    (hG : w.gate a = some G) :
    ∃ G1, w1.gate a = some G1 ∧ G1.inputs.map Input.gate = G.inputs.map Input.gate ∧
      G1.visited = G.visited := by
  have := wiring_of_sameWiring h a
  unfold wiring at this
  rw [hG] at this
  cases h1 : w1.gate a with
  | none => simp [h1] at this
  | some G1 =>
    simp only [h1, Option.map_some', Option.some.injEq, Prod.mk.injEq] at this
    exact ⟨G1, rfl, this.1, this.2⟩

theorem sameWiring_dead {w w1 : World} (h : SameWiring w w1) {a : Nat}
    (hG : w.gate a = none) : w1.gate a = none := by
  have := wiring_of_sameWiring h a
  unfold wiring at this
  rw [hG] at this
  cases h1 : w1.gate a with
  | none => rfl
  | some G1 => simp [h1] at this

theorem sameWiring_setVisited {w w1 : World} (h : SameWiring w w1) {g : Nat} {G G1 : NandGate}
    (v : Bool) (hG : w.gate g = some G) (hG1 : w1.gate g = some G1)
    (hin : G1.inputs.map Input.gate = G.inputs.map Input.gate) :
    SameWiring (w.setGate g { G with visited := v }) (w1.setGate g { G1 with visited := v }) := by
  refine ⟨by rw [length_setGate, length_setGate]; exact h.1, fun a _ => ?_⟩
  unfold wiring
  rw [gate_setGate w g a _ (gate_lt hG), gate_setGate w1 g a _ (gate_lt hG1)]
  by_cases hga : g = a
  · simp [hga, hin]
  · simp only [hga, if_false]
    exact wiring_of_sameWiring h a

theorem sameWiring_setErrno {w w1 : World} (h : SameWiring w w1) (e e1 : Int) :
    SameWiring (w.setErrno e) (w1.setErrno e1) := h

theorem evalLoop_same {recur : World → Nat → Bool → Option (World × Int × Bool)} (g : Nat)
    (hrec : ∀ w w1 p sig, SameWiring w w1 → SameOutcome (recur w p sig) (recur w1 p sig)) :
    ∀ (slots slots1 : List Input), slots1.map Input.gate = slots.map Input.gate →
      ∀ (w w1 : World) (allTrue : Bool) (depth : Int) (sig : Bool), SameWiring w w1 →
      SameOutcome (evalLoop recur g slots w allTrue depth sig)
        (evalLoop recur g slots1 w1 allTrue depth sig) := by
  have hset : ∀ (u u1 : World) (d : Int) (b : Bool), SameWiring u u1 →
      SameOutcome ((u.setVisited g false).map (fun x => (x, d, b)))
        ((u1.setVisited g false).map (fun x => (x, d, b))) := by
    intro u u1 d b hu
    cases hG : u.gate g with
    | none =>
      left
      simp [World.setVisited, hG, sameWiring_dead hu hG]
    | some G =>
      obtain ⟨G1, hG1, hin, _⟩ := sameWiring_gate hu hG
      right
      exact ⟨_, _, d, b, by simp [World.setVisited, hG], by simp [World.setVisited, hG1],
        sameWiring_setVisited hu false hG hG1 hin⟩
  intro slots
  induction slots with
  | nil =>
    intro slots1 hmap w w1 allTrue depth sig hw
    have : slots1 = [] := by simpa using hmap
    subst this
    exact hset w w1 _ _ hw
  | cons inp rest ih =>
    intro slots1 hmap w w1 allTrue depth sig hw
    cases slots1 with
    | nil => simp at hmap
    | cons inp1 rest1 =>
      simp only [List.map_cons, List.cons.injEq] at hmap
      obtain ⟨hg, hrest⟩ := hmap
      unfold evalLoop
      rw [hg]
      cases hgate : inp.gate with
      | none => exact ih rest1 hrest w w1 allTrue depth sig hw
      | some p =>
        simp only
        rcases hrec w w1 p false hw with ⟨h0, h1⟩ | ⟨u, u1, d, b, h0, h1, hu⟩
        · left
          simp [h0, h1]
        · rw [h0, h1]
          simp only
          by_cases hd : d = FAIL
          · simp only [hd, if_true]
            exact hset u u1 _ _ hu
          · simp only [hd, if_false]
            exact ih rest1 hrest u u1 _ _ sig hu

/-- Evaluation sees only the wiring: in two states with the same wiring the
outcomes of `evaluate_gate` are the same, for any fuel. -/
theorem evaluate_same : ∀ (fuel : Nat) (w w1 : World) (g : Nat) (sig : Bool),
    SameWiring w w1 →
    SameOutcome (evaluate_gate fuel w g sig) (evaluate_gate fuel w1 g sig) := by
  intro fuel
  induction fuel with
  | zero =>
    intro w w1 g sig _
    exact Or.inl ⟨rfl, rfl⟩
  | succ fuel ih =>
    intro w w1 g sig hw
    unfold evaluate_gate
    cases hG : w.gate g with
    | none =>
      left
      simp [sameWiring_dead hw hG]
    | some G =>
      obtain ⟨G1, hG1, hin, hv⟩ := sameWiring_gate hw hG
      have hlen : G1.inputs.length = G.inputs.length := by
        have := congrArg List.length hin
        simpa using this
      simp only [hG1, NandGate.n, hlen, hv]
      by_cases hn : G.inputs.length = 0
      · simp only [hn, if_true]
        exact Or.inr ⟨w, w1, 0, false, rfl, rfl, hw⟩
      · simp only [hn, if_false]
        by_cases hvis : G.visited = true
        · simp only [hvis, if_true]
          refine Or.inr ⟨_, _, FAIL, sig, rfl, rfl, ?_⟩
          exact sameWiring_setVisited (sameWiring_setErrno hw _ _) false hG hG1 hin
        · simp only [hvis]
          exact evalLoop_same g ih G.inputs G1.inputs hin _ _ true 0 sig
            (sameWiring_setVisited hw true hG hG1 hin)

/-- C15. If two states have the same gates, arities, gate-bound slots and
flags, and differ only in which of the other slots are unbound or bound to a
constant, then `evaluate_gate` has the same outcome in both for every gate: no
defined result in both, or the same returned value and the same signal; a
failure sets `errno` to `ECANCELED` in both.  The value of a constant is never
read, so it cannot matter either. -/
theorem C15_constants_do_not_influence (w w1 : World) (fuel g : Nat) (sig : Bool)
    (h : SameWiring w w1) :
    SameOutcome (evaluate_gate fuel w g sig) (evaluate_gate fuel w1 g sig) ∧
    (∀ u d b, evaluate_gate fuel w g sig = some (u, d, b) →
      ∃ u1, evaluate_gate fuel w1 g sig = some (u1, d, b) ∧
        (d = FAIL → u.errno = ECANCELED ∧ u1.errno = ECANCELED)) := by
  have hsame := evaluate_same fuel w w1 g sig h
  refine ⟨hsame, fun u d b hcall => ?_⟩
  rcases hsame with ⟨h0, _⟩ | ⟨u', u1, d', b', h0, h1, _⟩
  · rw [h0] at hcall
    simp at hcall
  · rw [h0] at hcall
    simp only [Option.some.injEq, Prod.mk.injEq] at hcall
    obtain ⟨rfl, rfl, rfl⟩ := hcall
    refine ⟨u1, h1, fun hd => ?_⟩
    exact ⟨((evaluate_spec fuel w g sig u' d' b' h0).2 hd).2.1,
      ((evaluate_spec fuel w1 g sig u1 d' b' h1).2 hd).2.1⟩

/-- Instance of C15: `netAB` and `netABConst` differ only in the constants bound
to the slots of gate `0`. -/
theorem C15_constants_do_not_influence_witness :
    SameOutcome (evaluate_gate 3 netAB 1 false) (evaluate_gate 3 netABConst 1 false) ∧
    (∀ u d b, evaluate_gate 3 netAB 1 false = some (u, d, b) →
      ∃ u1, evaluate_gate 3 netABConst 1 false = some (u1, d, b) ∧
        (d = FAIL → u.errno = ECANCELED ∧ u1.errno = ECANCELED)) :=
  C15_constants_do_not_influence netAB netABConst 3 1 false (by decide)

/-! ## Termination within the number of gates -/

theorem visitedCount_le_gateCount (w : World) : visitedCount w ≤ gateCount w := by
  unfold visitedCount gateCount
  apply List.countP_mono_left
  intro cell _ h
  cases cell with
  | none => simp at h
  | some G => rfl

theorem gateCount_setGate {w : World} {g : Nat} {G : NandGate} (G1 : NandGate)
    (hG : w.gate g = some G) : gateCount (w.setGate g G1) = gateCount w := by
  have hlt := gate_lt hG
  have hcell : w.heap[g] = some G := by
    have := gate_of_lt hlt
    rw [List.getElem?_eq_getElem hlt, hG] at this
    simpa using this
  unfold gateCount World.setGate
  simp only
  rw [List.countP_set _ _ _ _ hlt, hcell]
  simp only [Option.isSome_some, if_true]
  have : 0 < w.heap.countP (fun cell => cell.isSome) := by
    rw [List.countP_pos_iff]
    exact ⟨some G, by rw [← hcell]; exact List.getElem_mem _, rfl⟩
  omega

theorem evalLoop_mono {recur recur1 : World → Nat → Bool → Option (World × Int × Bool)}
    (g : Nat) (hrec : ∀ w p sig r, recur w p sig = some r → recur1 w p sig = some r) :
    ∀ (slots : List Input) (w : World) (allTrue : Bool) (depth : Int) (sig : Bool)
      (r : World × Int × Bool), evalLoop recur g slots w allTrue depth sig = some r →
      evalLoop recur1 g slots w allTrue depth sig = some r := by
  intro slots
  induction slots with
  | nil => intro w allTrue depth sig r h; exact h
  | cons inp rest ih =>
    intro w allTrue depth sig r h
    unfold evalLoop at h ⊢
    cases hg : inp.gate with
    | none =>
      simp only [hg] at h
      exact ih w allTrue depth sig r h
    | some p =>
      simp only [hg] at h
      cases hcall : recur w p false with
      | none => simp [hcall] at h
      | some res =>
        obtain ⟨w1, eval, ts⟩ := res
        simp only [hcall] at h
        simp only [hrec w p false _ hcall]
        by_cases he : eval = FAIL
        · simp only [he, if_true] at h ⊢
          exact h
        · simp only [he, if_false] at h ⊢
          exact ih _ _ _ sig r h

/-- More fuel does not change a result of `evaluate_gate`. -/
theorem evaluate_mono : ∀ (fuel : Nat) (w : World) (g : Nat) (sig : Bool)
    (r : World × Int × Bool), evaluate_gate fuel w g sig = some r →
    ∀ fuel1, fuel ≤ fuel1 → evaluate_gate fuel1 w g sig = some r := by
  have hstep : ∀ (fuel : Nat) (w : World) (g : Nat) (sig : Bool) (r : World × Int × Bool),
      evaluate_gate fuel w g sig = some r → evaluate_gate (fuel + 1) w g sig = some r := by
    intro fuel
    induction fuel with
    | zero => intro w g sig r h; simp [evaluate_gate] at h
    | succ fuel ih =>
      intro w g sig r h
      unfold evaluate_gate at h ⊢
      cases hG : w.gate g with
      | none => simp [hG] at h
      | some G =>
        simp only [hG] at h ⊢
        by_cases hn : G.n = 0
        · simp only [hn, if_true] at h ⊢
          exact h
        · simp only [hn, if_false] at h ⊢
          by_cases hv : G.visited = true
          · simp only [hv, if_true] at h ⊢
            exact h
          · simp only [hv] at h ⊢
            exact evalLoop_mono g ih _ _ _ _ _ r h
  intro fuel w g sig r h fuel1 hle
  obtain ⟨d, rfl⟩ : ∃ d, fuel1 = fuel + d := ⟨fuel1 - fuel, by omega⟩
  induction d with
  | zero => exact h
  | succ d ih => exact hstep _ w g sig r (ih (by omega))

/-- Termination of `evaluate_gate` in terms of live gates: on a graph without
dangling pointers, a call on a live gate returns whenever the fuel plus the
number of set `visited` flags exceeds the number of live gates. -/
theorem evaluate_total_count : ∀ (fuel : Nat) (w : World) (g : Nat) (sig : Bool), Closed w →
    (w.gate g).isSome = true → gateCount w + 1 ≤ fuel + visitedCount w →
    ∃ res, evaluate_gate fuel w g sig = some res := by
  intro fuel
  induction fuel with
  | zero =>
    intro w g sig _ _ hf
    have := visitedCount_le_gateCount w
    omega
  | succ fuel ih =>
    intro w g sig hcl hg hf
    obtain ⟨G, hG⟩ := Option.isSome_iff_exists.mp hg
    unfold evaluate_gate
    simp only [hG]
    by_cases hn : G.n = 0
    · simp only [hn, if_true]
      exact ⟨_, rfl⟩
    by_cases hv : G.visited = true
    · simp only [hn, hv, if_true, if_false]
      exact ⟨_, rfl⟩
    simp only [hn, hv, if_false]
    have hvf : G.visited = false := by simpa using hv
    have hlive : ∀ b, ((w.setGate g { G with visited := true }).gate b).isSome =
        (w.gate b).isSome := fun b => isSome_setGate _ hG b
    apply evalLoop_total (evaluate_spec fuel) g _ (by rw [hlive]; exact hg)
    · intro p sig' hp
      apply ih _ p sig' (closed_mark true hG hcl) hp
      rw [visitedCount_mark hG hvf, gateCount_setGate _ hG]
      omega
    · intro p hp
      rw [hlive]
      rw [closed_iff] at hcl
      simp only [List.mem_filterMap] at hp
      obtain ⟨inp, hinp, hpg⟩ := hp
      exact (hcl g G hG).1 inp hinp p hpg

/-- C16. On a graph without dangling pointers whose `visited` flags are all
false, cyclic or not, `evaluate_gate` on a live gate returns with fuel equal to
the number of live gates plus one, and every larger fuel gives the same result:
the recursion never nests deeper than the number of gates plus one. -/
theorem C16_evaluation_terminates (w : World) (g : Nat) (sig : Bool) (hcl : Closed w)
    (hu : AllUnvisited w) (hg : (w.gate g).isSome = true) :
    ∃ res, evaluate_gate (gateCount w + 1) w g sig = some res ∧
      ∀ fuel, gateCount w + 1 ≤ fuel → evaluate_gate fuel w g sig = some res := by
  obtain ⟨res, hres⟩ := evaluate_total_count (gateCount w + 1) w g sig hcl hg
    (by rw [visitedCount_zero hu])
  exact ⟨res, hres, fun fuel hf => evaluate_mono _ w g sig res hres fuel hf⟩

/-- Instances of C16: the cyclic network `netLoop` (two gates, fuel 3) and the
network `netLoopDeleted`, which has one live gate and one freed cell (fuel
2). -/
theorem C16_evaluation_terminates_witness :
    (∃ res, evaluate_gate (gateCount netLoop + 1) netLoop 1 false = some res ∧
      ∀ fuel, gateCount netLoop + 1 ≤ fuel → evaluate_gate fuel netLoop 1 false = some res) ∧
    (∃ res, evaluate_gate (gateCount netLoopDeleted + 1) netLoopDeleted 1 false = some res ∧
      ∀ fuel, gateCount netLoopDeleted + 1 ≤ fuel →
        evaluate_gate fuel netLoopDeleted 1 false = some res) :=
  ⟨C16_evaluation_terminates netLoop 1 false (by decide) (by decide) (by decide),
    C16_evaluation_terminates netLoopDeleted 1 false (by decide) (by decide) (by decide)⟩

/-! ## Deletion: frame and the scan of `remove_single_input` -/

/-- C18. Under the correspondence invariant, after `nand_delete (g)` every
surviving gate `h` keeps each input slot that was not bound to `g` (and its
arity and flag), and its output list is its previous list with the entries
equal to `g` removed, the other entries in their previous order.  When the
graph has no dangling pointers the call returns. -/
theorem C18_delete_frame (w : World) (g : Nat) (G : NandGate) (hcorr : Corr w)
    (hG : w.gate g = some G) :
    (∀ w1, nand_delete w (some g) = some w1 → ∀ h H, w.gate h = some H → h ≠ g →
      ∃ H1, w1.gate h = some H1 ∧ H1.visited = H.visited ∧
        H1.inputs.length = H.inputs.length ∧
        (∀ (i : Nat) (inp : Input), H.inputs[i]? = some inp → inp.gate ≠ some g →
          H1.inputs[i]? = some inp) ∧
        H1.outputs = H.outputs.filter (fun x => decide (x ≠ g))) ∧
    (Closed w → ∃ w1, nand_delete w (some g) = some w1) := by
  refine ⟨fun w1 hdel h H hH hhg => ?_, fun hcl => delete_total hcl hcorr hG⟩
  obtain ⟨H1, hH1, hv, ho, hs⟩ := delete_gate hdel hG hH hhg
  refine ⟨H1, hH1, hv, hs.1, fun i inp hi hne => ?_, ?_⟩
  · rcases hs.2 i with hsame | ⟨_, sb, hold⟩
    · rw [hsame]; exact hi
    · rw [hi] at hold
      simp only [Option.some.injEq] at hold
      rw [hold] at hne
      exact absurd rfl hne
  · rw [ho]
    rw [corr_iff] at hcorr
    rw [← hcorr h g H G hH hG]
    exact eraseTimes_count g H.outputs

/-- Instance of C18: deleting gate `1` of `netLoop` gives `netLoopDeleted1`;
gate `0` keeps its self-loop on slot 0 and loses its two entries `1`. -/
theorem C18_delete_frame_witness :
    (∃ H1, netLoopDeleted1.gate 0 = some H1 ∧ H1.visited = false ∧
        H1.inputs.length = ([⟨some 0, none⟩, ⟨some 1, none⟩] : List Input).length ∧
        (∀ (i : Nat) (inp : Input),
          ([⟨some 0, none⟩, ⟨some 1, none⟩] : List Input)[i]? = some inp →
          inp.gate ≠ some 1 → H1.inputs[i]? = some inp) ∧
        H1.outputs = ([0, 1, 1] : List Nat).filter (fun x => decide (x ≠ 1))) ∧
    ∃ w1, nand_delete netLoop (some 1) = some w1 :=
  ⟨(C18_delete_frame netLoop 1 ⟨[⟨some 0, none⟩, ⟨some 0, none⟩], false, [0]⟩
      (by decide) (by decide)).1 netLoopDeleted1 (by decide) 0
      ⟨[⟨some 0, none⟩, ⟨some 1, none⟩], false, [0, 1, 1]⟩ (by decide) (by decide),
    (C18_delete_frame netLoop 1 ⟨[⟨some 0, none⟩, ⟨some 0, none⟩], false, [0]⟩
      (by decide) (by decide)).2 (by decide)⟩

theorem delete_outputs_count_le {w w1 : World} {g : Nat} {G G1 : NandGate} (hcl : Closed w)
    (hcorr : Corr w) (hG : w.gate g = some G)
    (h1 : deleteInputsLoop g G.inputs w = some w1) (hG1 : w1.gate g = some G1) :
    ∀ c, G1.outputs.count c ≤ inCnt w1 g c := by
  rw [closed_iff] at hcl
  rw [corr_iff_cnt] at hcorr
  obtain ⟨_, a2, a3, _⟩ := deleteInputsLoop_effect g G.inputs w w1 h1
  intro c
  rw [← outCnt_of_gate hG1, a3, inCnt_congr (a2 c)]
  by_cases hc : (w.gate c).isSome = true
  · have := hcorr g c (by rw [hG]; rfl) hc
    omega
  · have hz : outCnt w g c = 0 := by
      rw [outCnt_of_gate hG, List.count_eq_zero]
      intro hmem
      exact hc ((hcl g G hG).2 c hmem)
    omega

/-- C19. On a graph without dangling pointers that satisfies the correspondence
invariant, `nand_delete (g)` gets through its first loop, and every call
`remove_single_input (c, g)` of its second loop, made for the entry `c` that
follows the entries `pre` of the output list of `g`, is made on a live gate `c`
whose scan stops at an index `i < c.n` with `c.inputs[i].gate == g`. -/
theorem C19_scan_stays_in_bounds (w : World) (g : Nat) (G : NandGate) (hcl : Closed w)
    (hcorr : Corr w) (hG : w.gate g = some G) :
    ∃ w1 G1, deleteInputsLoop g G.inputs w = some w1 ∧ w1.gate g = some G1 ∧
      ∀ pre c post, G1.outputs = pre ++ c :: post →
        ∃ w2 C i, deleteOutputsLoop g pre w1 = some w2 ∧ w2.gate c = some C ∧
          scanInput g C.inputs 0 = some i ∧
          ∃ (hi : i < C.inputs.length), (C.inputs.get ⟨i, hi⟩).gate = some g := by
  have hcl' := (closed_iff w).mp hcl
  obtain ⟨w1, h1⟩ := deleteInputsLoop_total g G.inputs w (hcl' g G hG).1
  obtain ⟨a1, _, _, _⟩ := deleteInputsLoop_effect g G.inputs w w1 h1
  have hlive1 : (w1.gate g).isSome = true := by rw [a1, hG]; rfl
  obtain ⟨G1, hG1⟩ := Option.isSome_iff_exists.mp hlive1
  have hcount := delete_outputs_count_le hcl hcorr hG h1 hG1
  refine ⟨w1, G1, h1, hG1, fun pre c post hsplit => ?_⟩
  have hpre : ∀ x, pre.count x ≤ inCnt w1 g x := by
    intro x
    have := hcount x
    rw [hsplit, List.count_append] at this
    omega
  obtain ⟨w2, h2⟩ := deleteOutputsLoop_total g pre w1 hpre
  obtain ⟨_, _, b3, _⟩ := deleteOutputsLoop_effect g pre w1 w2 h2
  have hpos : 0 < inCnt w2 g c := by
    rw [b3, if_pos rfl]
    have := hcount c
    rw [hsplit, List.count_append, List.count_cons_self] at this
    omega
  unfold inCnt at hpos
  cases hC : w2.gate c with
  | none => simp [hC] at hpos
  | some C =>
    simp only [hC, slotCount] at hpos
    obtain ⟨i, hs⟩ := scanInput_total g C.inputs 0 hpos
    obtain ⟨hlt, _, hget⟩ := scanInput_spec g C.inputs 0 i hs
    simp only [Nat.sub_zero] at hlt hget
    exact ⟨w2, C, i, h2, hC, hs, hlt, hget⟩

/-- Instance of C19: deleting gate `0` of `netLoop`; after the first loop its
output list is `[1, 1]`, and the second call on gate `1` still finds a slot
bound to gate `0`. -/
theorem C19_scan_stays_in_bounds_witness :
    ∃ w1 G1, deleteInputsLoop 0 [⟨some 0, none⟩, ⟨some 1, none⟩] netLoop = some w1 ∧
      w1.gate 0 = some G1 ∧
      ∀ pre c post, G1.outputs = pre ++ c :: post →
        ∃ w2 C i, deleteOutputsLoop 0 pre w1 = some w2 ∧ w2.gate c = some C ∧
          scanInput 0 C.inputs 0 = some i ∧
          ∃ (hi : i < C.inputs.length), (C.inputs.get ⟨i, hi⟩).gate = some 0 :=
  C19_scan_stays_in_bounds netLoop 0 ⟨[⟨some 0, none⟩, ⟨some 1, none⟩], false, [0, 1, 1]⟩
    (by decide) (by decide) (by decide)

end Nand
